import Mathlib

/-
  Verification of the Pulse dependency-graph core (src/graph/node.py,
  src/graph/edge.py, src/graph/graph.py) against its specification.

  The embedding mirrors the Python code:
  * Python dicts become association lists (insertion order preserved,
    keys unique as an invariant);
  * Python sets become lists used only through membership, kept duplicate
    free as an invariant;
  * `defaultdict(set).__getitem__`, which inserts an empty entry for a
    missing key, is `dGet`, and the query functions thread the resulting
    index state exactly as the Python methods mutate it;
  * a raised ValueError becomes a `PyErr` value returned next to the
    post-call state, so "the graph is unchanged on error" is expressible.
-/

deriving instance DecidableEq for Except

/-- Python `str.lower()`, mapping `Char.toLower` over the characters (the
library `String.toLower` is extensionally the same but is defined by
well-founded recursion and does not evaluate inside the kernel). -/
def pyLower (s : String) : String := ⟨s.data.map Char.toLower⟩

/-! ## Dict / set primitives -/

/-- Association-list model of a Python dict from node id to neighbor set. -/
abbrev AdjMap := List (String × List String)

/-- `d.get(k, set())` - pure lookup with empty default. -/
def lookupD (d : AdjMap) (k : String) : List String :=
  match d.find? (fun p => p.1 == k) with
  | some p => p.2
  | none => []

/-- `defaultdict(set).__getitem__`: returns the entry for `k`, inserting an
empty entry first when `k` is missing.  Returns the updated dict and the
value. -/
def dGet (d : AdjMap) (k : String) : AdjMap × List String :=
  match d.find? (fun p => p.1 == k) with
  | some p => (d, p.2)
  | none => (d ++ [(k, [])], [])

/-- `set.add` on a list kept duplicate free. -/
def setAdd (l : List String) (v : String) : List String :=
  if v ∈ l then l else l ++ [v]

/-- `self._adjacency[k].add(v)`: defaultdict getitem (which creates the key)
followed by a set insert. -/
def adjAdd (d : AdjMap) (k v : String) : AdjMap :=
  if d.any (fun p => p.1 == k) then
    d.map (fun p => if p.1 == k then (p.1, setAdd p.2 v) else p)
  else
    d ++ [(k, [v])]

/-! ## Node (src/graph/node.py) -/

/-- `NodeType` enumeration, exactly the members of the Python enum. -/
inductive NodeType
  | DATABASE
  | API
  | KAFKA
  | CACHE
  | QUEUE
  | SERVICE
  | STORAGE
  | LOADBALANCER
  | CUSTOM
  deriving DecidableEq, Repr

/-- The `value` string of each enum member. -/
def NodeType.value : NodeType → String
  | .DATABASE => "database"
  | .API => "api"
  | .KAFKA => "kafka"
  | .CACHE => "cache"
  | .QUEUE => "queue"
  | .SERVICE => "service"
  | .STORAGE => "storage"
  | .LOADBALANCER => "loadbalancer"
  | .CUSTOM => "custom"

/-- `NodeType(s)` - value lookup in the enum, `none` for the ValueError case. -/
def nodeTypeOfString (s : String) : Option NodeType :=
  if s = "database" then some .DATABASE
  else if s = "api" then some .API
  else if s = "kafka" then some .KAFKA
  else if s = "cache" then some .CACHE
  else if s = "queue" then some .QUEUE
  else if s = "service" then some .SERVICE
  else if s = "storage" then some .STORAGE
  else if s = "loadbalancer" then some .LOADBALANCER
  else if s = "custom" then some .CUSTOM
  else none

/-- Metadata values that occur in the claims: strings, and the NodeType
value the buggy `original_type` assignment stores. -/
inductive MetaVal
  | str (s : String)
  | ofType (t : NodeType)
  deriving DecidableEq, Repr

/-- A Python ValueError, by construction site, carrying the ids its
message interpolates. -/
inductive PyErr
  | emptyNodeId
  | duplicateNode (id : String)
  | emptySource
  | emptyTarget
  | selfLoop (source target : String)
  | unknownSource (id : String)
  | unknownTarget (id : String)
  | unknownNode (id : String)
  deriving DecidableEq, Repr

structure Node where
  id : String
  type : NodeType
  metadata : List (String × MetaVal)
  deriving DecidableEq, Repr

/-- `Node.__post_init__` for a textual `type`: empty-id check, then
`NodeType(self.type.lower())`; on ValueError the type becomes CUSTOM first
and only then `self.type` (now already `NodeType.CUSTOM`) is stored under
`original_type` when that key is absent. -/
def mkNode (id : String) (ty : String) (metadata : List (String × MetaVal)) :
    Except PyErr Node :=
  if id = "" then .error .emptyNodeId
  else
    match nodeTypeOfString (pyLower ty) with
    | some t => .ok { id := id, type := t, metadata := metadata }
    | none =>
        let t := NodeType.CUSTOM
        let md :=
          if metadata.any (fun p => p.1 == "original_type") then metadata
          else metadata ++ [("original_type", MetaVal.ofType t)]
        .ok { id := id, type := t, metadata := md }

/-! ## Edge (src/graph/edge.py) -/

structure Edge where
  source : String
  target : String
  metadata : List (String × MetaVal)
  deriving DecidableEq, Repr

/-- `Edge.__post_init__`: empty endpoints and self-loops are rejected. -/
def mkEdge (source target : String) (metadata : List (String × MetaVal)) :
    Except PyErr Edge :=
  if source = "" then .error .emptySource
  else if target = "" then .error .emptyTarget
  else if source = target then .error (.selfLoop source target)
  else .ok { source := source, target := target, metadata := metadata }

/-- `edge in self.edges` under `Edge.__eq__`/`__hash__`: identity is the
`(source, target)` pair only. -/
def edgeMem (e : Edge) (l : List Edge) : Bool :=
  l.any (fun e2 => e2.source == e.source && e2.target == e.target)

/-! ## Graph state (src/graph/graph.py) -/

structure Graph where
  nodes : List (String × Node)
  edges : List Edge
  _adjacency : AdjMap
  _reverse_adjacency : AdjMap
  deriving DecidableEq, Repr

/-- `Graph.__init__` (the NetworkX cache and dirty flag are outside the
embedded state: no claim mentions them). -/
def Graph.empty : Graph :=
  { nodes := [], edges := [], _adjacency := [], _reverse_adjacency := [] }

def containsKey (d : List (String × Node)) (k : String) : Bool :=
  d.any (fun p => p.1 == k)

def nodeKeys (g : Graph) : List String := g.nodes.map (·.1)

/-- `Graph.add_node`.  Returns the post-call state together with the raised
error, if any; the raise happens before any mutation. -/
def add_node (g : Graph) (n : Node) : Graph × Option PyErr :=
  if containsKey g.nodes n.id then
    (g, some (.duplicateNode n.id))
  else
    ({ g with nodes := g.nodes ++ [(n.id, n)] }, none)

/-- `Graph.add_edge`: endpoint checks raise before any index is touched;
re-adding an existing `(source, target)` pair is a silent no-op. -/
def add_edge (g : Graph) (e : Edge) : Graph × Option PyErr :=
  if !containsKey g.nodes e.source then
    (g, some (.unknownSource e.source))
  else if !containsKey g.nodes e.target then
    (g, some (.unknownTarget e.target))
  else if edgeMem e g.edges then
    (g, none)
  else
    ({ g with
        edges := g.edges ++ [e],
        _adjacency := adjAdd g._adjacency e.source e.target,
        _reverse_adjacency := adjAdd g._reverse_adjacency e.target e.source },
     none)

/-- `Graph.get_node`. -/
def get_node (g : Graph) (node_id : String) : Option Node :=
  (g.nodes.find? (fun p => p.1 == node_id)).map (·.2)

/-- `Graph.get_dependencies`: `self._adjacency.get(node_id, set())`. -/
def get_dependencies (g : Graph) (node_id : String) : List String :=
  lookupD g._adjacency node_id

/-- `Graph.get_dependents`: `self._reverse_adjacency.get(node_id, set())`. -/
def get_dependents (g : Graph) (node_id : String) : List String :=
  lookupD g._reverse_adjacency node_id

/-- `len(self.edges)`, the `edge_count` entry of `Graph.stats()`. -/
def edgeCount (g : Graph) : Nat := g.edges.length

/-- The states reachable from the empty graph by add_node / add_edge calls,
successful or failed (a failed call contributes its unchanged post-state).
Edges satisfy what `Edge.__post_init__` guarantees for every constructed
Edge value. -/
def edgeWF (e : Edge) : Prop :=
  e.source ≠ "" ∧ e.target ≠ "" ∧ e.source ≠ e.target

inductive ReachableState : Graph → Prop
  | empty : ReachableState Graph.empty
  | addNode (g : Graph) (n : Node) :
      ReachableState g → ReachableState (add_node g n).1
  | addEdge (g : Graph) (e : Edge) :
      edgeWF e → ReachableState g → ReachableState (add_edge g e).1

/-! ## find_cycles (graph.py lines 117-150)

The recursive `dfs` is embedded with the visited set passed explicitly and
returned as a delta (`Δ ++ visited` is the Python visited set on return);
`rec_stack` always equals the set of elements of `path`, so only `path` is
kept.  `univ` collects every id the traversal can ever be called on (the
node ids and every adjacency value); the extra `node ∉ univ` guard exists
only to bound the recursion and is never taken: the top-level loop starts
from node ids and recursion only enters ids drawn from adjacency values. -/

theorem filter_nm_mono (univ v w : List String) (h : ∀ x, x ∈ v → x ∈ w) :
    (univ.filter (fun x => decide (x ∉ w))).length ≤
      (univ.filter (fun x => decide (x ∉ v))).length := by
  apply List.Sublist.length_le
  apply List.monotone_filter_right
  intro x hx
  simp at hx ⊢
  intro hc
  exact hx (h x hc)

theorem filter_nm_lt (univ v : List String) (node : String)
    (h1 : node ∈ univ) (h2 : node ∉ v) :
    (univ.filter (fun x => decide (x ∉ node :: v))).length <
      (univ.filter (fun x => decide (x ∉ v))).length := by
  have hsub : List.Sublist (univ.filter (fun x => decide (x ∉ node :: v)))
      (univ.filter (fun x => decide (x ∉ v))) := by
    apply List.monotone_filter_right
    intro x hx
    simp at hx ⊢
    intro hc
    exact hx.2 hc
  rcases Nat.lt_or_ge (univ.filter (fun x => decide (x ∉ node :: v))).length
      (univ.filter (fun x => decide (x ∉ v))).length with h | h
  · exact h
  · exfalso
    have heq := hsub.eq_of_length (Nat.le_antisymm hsub.length_le h)
    have hmem : node ∈ univ.filter (fun x => decide (x ∉ v)) := by
      simp [List.mem_filter, h1, h2]
    rw [← heq] at hmem
    simp [List.mem_filter] at hmem

theorem lex_append_step (univ v d : List String) (a b : Nat) (hab : a < b) :
    Prod.Lex (fun x y => x < y) (fun x y => x < y)
      ((univ.filter (fun x => decide (x ∉ d ++ v))).length, a)
      ((univ.filter (fun x => decide (x ∉ v))).length, b) := by
  have hle := filter_nm_mono univ v (d ++ v) (by intro x hx; simp [hx])
  rcases Nat.lt_or_ge (univ.filter (fun x => decide (x ∉ d ++ v))).length
      (univ.filter (fun x => decide (x ∉ v))).length with hlt | hge
  · exact Prod.Lex.left _ _ hlt
  · have heq := Nat.le_antisymm hle hge
    rw [heq]
    exact Prod.Lex.right _ hab

mutual
/-- The inner `dfs(node_id)` of `Graph.find_cycles`.  Returns the updated
adjacency dict (defaultdict key insertions), the delta of newly visited
ids (new visited set is `Δ ++ visited`), and the cycles found. -/
def dfs (univ : List String) (adj : AdjMap) (node : String)
    (visited path : List String) :
    AdjMap × List String × List (List String) :=
  if h : node ∈ visited ∨ node ∉ univ then (adj, [], [])
  else
    let p := dGet adj node
    let q := dfsList univ p.1 p.2 (node :: visited) (path ++ [node])
    (q.1, q.2.1 ++ [node], q.2.2)
termination_by ((univ.filter (fun x => decide (x ∉ visited))).length, 0)
decreasing_by
  exact Prod.Lex.left _ _
    (filter_nm_lt univ visited node (by tauto) (by tauto))

/-- The `for neighbor in self._adjacency[node_id]` loop body of `dfs`. -/
def dfsList (univ : List String) (adj : AdjMap) (nbrs : List String)
    (visited path : List String) :
    AdjMap × List String × List (List String) :=
  match nbrs with
  | [] => (adj, [], [])
  | n :: rest =>
    if n ∉ visited then
      let r1 := dfs univ adj n visited path
      let r2 := dfsList univ r1.1 rest (r1.2.1 ++ visited) path
      (r2.1, r2.2.1 ++ r1.2.1, r1.2.2 ++ r2.2.2)
    else if n ∈ path then
      let cyc := path.drop (path.indexOf n) ++ [n]
      let r2 := dfsList univ adj rest visited path
      (r2.1, r2.2.1, cyc :: r2.2.2)
    else
      dfsList univ adj rest visited path
termination_by ((univ.filter (fun x => decide (x ∉ visited))).length, nbrs.length + 1)
decreasing_by
  · exact Prod.Lex.right _ (by simp only [List.length_cons]; omega)
  · apply lex_append_step
    simp only [List.length_cons]
    omega
  · exact Prod.Lex.right _ (by simp only [List.length_cons]; omega)
  · exact Prod.Lex.right _ (by simp only [List.length_cons]; omega)
end

/-- Every id `find_cycles` can ever recurse into. -/
def dfsUniv (g : Graph) : List String :=
  nodeKeys g ++ (g._adjacency.map (fun p => p.2)).flatten

/-- The `for node_id in self.nodes` loop of `find_cycles`. -/
def findCyclesLoop (univ : List String) (adj : AdjMap) (ids : List String)
    (visited : List String) (cycles : List (List String)) :
    AdjMap × List String × List (List String) :=
  match ids with
  | [] => (adj, visited, cycles)
  | id :: rest =>
    if id ∉ visited then
      let r := dfs univ adj id visited []
      findCyclesLoop univ r.1 rest (r.2.1 ++ visited) (cycles ++ r.2.2)
    else
      findCyclesLoop univ adj rest visited cycles

/-- `Graph.find_cycles`. -/
def find_cycles (g : Graph) : Graph × List (List String) :=
  let r := findCyclesLoop (dfsUniv g) g._adjacency (nodeKeys g) [] []
  ({ g with _adjacency := r.1 }, r.2.2)

/-! ## validate (graph.py lines 92-115) -/

/-- `" -> ".join(cycle)`. -/
def renderCycle (c : List String) : String :=
  String.intercalate " -> " c

/-- `Graph.validate`: one entry per dangling endpoint, then one entry per
cycle found by `find_cycles` (which threads the adjacency state). -/
def validate (g : Graph) : Graph × List String :=
  let danglingErrs := g.edges.foldl (fun acc e =>
    (acc ++
      (if !containsKey g.nodes e.source then
        ["Edge references non-existent source node: " ++ e.source] else []) ++
      (if !containsKey g.nodes e.target then
        ["Edge references non-existent target node: " ++ e.target] else []))) []
  let r := find_cycles g
  (r.1, danglingErrs ++ r.2.map (fun c => "Cycle detected: " ++ renderCycle c))

/-! ## topological_sort (graph.py lines 152-179) -/

/-- `in_degree[k] -= 1` (no-op for a missing key, which cannot occur: the
Python dict is keyed by every node and neighbors are nodes). -/
def decKey : List (String × Int) → String → List (String × Int)
  | [], _ => []
  | p :: rest, k => (if p.1 == k then (p.1, p.2 - 1) else p) :: decKey rest k

def lookupInd (ind : List (String × Int)) (k : String) : Option Int :=
  (ind.find? (fun p => p.1 == k)).map (fun p => p.2)

/-- The in-degree dict comprehension
`{n: len(self._reverse_adjacency[n]) for n in self.nodes}` (a defaultdict
getitem per node, threading the reverse index). -/
def buildInd (radj : AdjMap) (ids : List String) : AdjMap × List (String × Int) :=
  match ids with
  | [] => (radj, [])
  | id :: rest =>
    let p := dGet radj id
    let q := buildInd p.1 rest
    (q.1, (id, (p.2.length : Int)) :: q.2)

/-- The `for neighbor in self._adjacency[node_id]` body of Kahn's loop:
decrement `in_degree[neighbor]`, then enqueue it on reaching zero. -/
def kahnNbrs (ind : List (String × Int)) (queue : List String)
    (nbrs : List String) : List (String × Int) × List String :=
  match nbrs with
  | [] => (ind, queue)
  | n :: rest =>
    kahnNbrs (decKey ind n)
      (if lookupInd (decKey ind n) n = some 0 then queue ++ [n] else queue)
      rest

theorem decKey_sum (ind : List (String × Int)) (n : String) :
    ((decKey ind n).map (fun p => p.2.toNat)).sum ≤
      (ind.map (fun p => p.2.toNat)).sum := by
  induction ind with
  | nil => simp [decKey]
  | cons p rest ih =>
    by_cases hk : p.1 = n
    · simp only [decKey, hk, beq_self_eq_true, if_true, List.map_cons,
        List.sum_cons]
      have : (p.2 - 1).toNat ≤ p.2.toNat := by omega
      omega
    · simp only [decKey, beq_iff_eq, hk, if_false, List.map_cons,
        List.sum_cons]
      omega

theorem decKey_sum_of_zero (ind : List (String × Int)) (n : String)
    (h : lookupInd (decKey ind n) n = some 0) :
    ((decKey ind n).map (fun p => p.2.toNat)).sum + 1 ≤
      (ind.map (fun p => p.2.toNat)).sum := by
  induction ind with
  | nil => simp [lookupInd, decKey] at h
  | cons p rest ih =>
    by_cases hk : p.1 = n
    · have hfound : lookupInd (decKey (p :: rest) n) n = some (p.2 - 1) := by
        simp [decKey, lookupInd, List.find?_cons, hk]
      rw [hfound] at h
      have hp2 : p.2 = 1 := by
        have := Option.some.inj h
        omega
      have hrest := decKey_sum rest n
      simp only [decKey, hk, beq_self_eq_true, if_true, List.map_cons,
        List.sum_cons, hp2]
      omega
    · have hb : (p.1 == n) = false := by simp [hk]
      have hcons : decKey (p :: rest) n = p :: decKey rest n := by
        simp [decKey, hb]
      have htail : lookupInd (decKey rest n) n = some 0 := by
        rw [hcons] at h
        simpa [lookupInd, List.find?_cons, hb] using h
      have := ih htail
      rw [hcons]
      simp only [List.map_cons, List.sum_cons]
      omega

theorem kahnNbrs_measure (nbrs : List String) :
    ∀ ind queue, (kahnNbrs ind queue nbrs).2.length +
      ((kahnNbrs ind queue nbrs).1.map (fun p => p.2.toNat)).sum ≤
      queue.length + (ind.map (fun p => p.2.toNat)).sum := by
  induction nbrs with
  | nil => intro ind queue; simp [kahnNbrs]
  | cons n rest ih =>
    intro ind queue
    rw [kahnNbrs]
    by_cases hq : lookupInd (decKey ind n) n = some 0
    · rw [if_pos hq]
      refine le_trans (ih _ _) ?_
      have := decKey_sum_of_zero ind n hq
      simp only [List.length_append, List.length_cons, List.length_nil]
      omega
    · rw [if_neg hq]
      refine le_trans (ih _ _) ?_
      have := decKey_sum ind n
      omega

/-- The `while queue` loop of Kahn's algorithm: dequeue, append to the
result, decrement the forward neighbors (a defaultdict getitem on the
forward index per dequeued node). -/
def kahnLoop (adj : AdjMap) (queue : List String) (ind : List (String × Int))
    (result : List String) : AdjMap × List String :=
  match queue with
  | [] => (adj, result)
  | node :: rest =>
    kahnLoop (dGet adj node).1 (kahnNbrs ind rest (dGet adj node).2).2
      (kahnNbrs ind rest (dGet adj node).2).1 (result ++ [node])
termination_by queue.length + (ind.map (fun p => p.2.toNat)).sum
decreasing_by
  simp only [List.length_cons]
  exact Nat.lt_of_le_of_lt (kahnNbrs_measure _ _ _) (by omega)

/-- `Graph.topological_sort`. -/
def topological_sort (g : Graph) : Graph × Option (List String) :=
  let c := find_cycles g
  if c.2 ≠ [] then (c.1, none)
  else
    let g1 := c.1
    let b := buildInd g1._reverse_adjacency (nodeKeys g1)
    let queue0 := (b.2.filter (fun p => p.2 == 0)).map (fun p => p.1)
    let k := kahnLoop g1._adjacency queue0 b.2 []
    ({ g1 with _adjacency := k.1, _reverse_adjacency := b.1 },
     if k.2.length = g1.nodes.length then some k.2 else none)

/-! ## get_impact_radius (graph.py lines 181-212)

BFS over the reverse index with an explicit FIFO queue of (id, depth)
pairs.  As with `dfs`, `univ` (the start id and every reverse-adjacency
value) only bounds the recursion; the `dep ∈ univ` conjunct of the guard
never fails at run time because dependents are always drawn from
reverse-adjacency values. -/

/-- Every id `get_impact_radius` can ever enqueue. -/
def impactUniv (g : Graph) (node_id : String) : List String :=
  node_id :: (g._reverse_adjacency.map (fun p => p.2)).flatten

/-- The `for dependent in self._reverse_adjacency[current]` loop body. -/
def impactStep (univ : List String) (deps : List String)
    (queue : List (String × Nat)) (visited impacted : List String)
    (depth : Nat) : List (String × Nat) × List String × List String :=
  match deps with
  | [] => (queue, visited, impacted)
  | dep :: rest =>
    if dep ∉ visited ∧ dep ∈ univ then
      impactStep univ rest (queue ++ [(dep, depth + 1)]) (dep :: visited)
        (impacted ++ [dep]) depth
    else
      impactStep univ rest queue visited impacted depth

theorem impactStep_measure (univ : List String) (deps : List String) :
    ∀ queue visited impacted depth,
      (impactStep univ deps queue visited impacted depth).1.length +
        (univ.filter (fun x => decide
          (x ∉ (impactStep univ deps queue visited impacted depth).2.1))).length ≤
      queue.length + (univ.filter (fun x => decide (x ∉ visited))).length := by
  induction deps with
  | nil => intro queue visited impacted depth; simp [impactStep]
  | cons dep rest ih =>
    intro queue visited impacted depth
    rw [impactStep]
    by_cases hc : dep ∉ visited ∧ dep ∈ univ
    · rw [if_pos hc]
      refine le_trans (ih _ _ _ _) ?_
      have := filter_nm_lt univ visited dep hc.2 hc.1
      simp only [List.length_append, List.length_cons, List.length_nil]
      omega
    · rw [if_neg hc]
      exact ih _ _ _ _

/-- `max_depth is not None and depth >= max_depth`. -/
def depthCutoff (maxd : Option Nat) (depth : Nat) : Bool :=
  match maxd with
  | some m => decide (m ≤ depth)
  | none => false

/-- The `while queue` loop of `get_impact_radius`. -/
def impactLoop (univ : List String) (radj : AdjMap)
    (queue : List (String × Nat)) (visited impacted : List String)
    (maxd : Option Nat) : AdjMap × List String :=
  match queue with
  | [] => (radj, impacted)
  | (current, depth) :: rest =>
    if depthCutoff maxd depth then
      impactLoop univ radj rest visited impacted maxd
    else
      impactLoop univ (dGet radj current).1
        (impactStep univ (dGet radj current).2 rest visited impacted depth).1
        (impactStep univ (dGet radj current).2 rest visited impacted depth).2.1
        (impactStep univ (dGet radj current).2 rest visited impacted depth).2.2
        maxd
termination_by queue.length + (univ.filter (fun x => decide (x ∉ visited))).length
decreasing_by
  · simp only [List.length_cons]; omega
  · have := impactStep_measure univ (dGet radj current).2 rest visited
      impacted depth
    simp only [List.length_cons]
    omega

/-- `Graph.get_impact_radius`. -/
def get_impact_radius (g : Graph) (node_id : String) (max_depth : Option Nat) :
    Graph × List String :=
  if !containsKey g.nodes node_id then (g, [])
  else
    let r := impactLoop (impactUniv g node_id) g._reverse_adjacency
      [(node_id, 0)] [node_id] [] max_depth
    ({ g with _reverse_adjacency := r.1 }, r.2)

/-! ## get_critical_path (graph.py lines 214-243) -/

/-- Every id `get_critical_path` can ever enqueue. -/
def pathUniv (g : Graph) (start : String) : List String :=
  start :: (g._adjacency.map (fun p => p.2)).flatten

/-- The `for neighbor in self._adjacency[current]` loop body. -/
def pathStep (univ : List String) (nbrs : List String)
    (queue : List (String × List String)) (visited : List String)
    (path : List String) : List (String × List String) × List String :=
  match nbrs with
  | [] => (queue, visited)
  | n :: rest =>
    if n ∉ visited ∧ n ∈ univ then
      pathStep univ rest (queue ++ [(n, path ++ [n])]) (n :: visited) path
    else
      pathStep univ rest queue visited path

theorem pathStep_measure (univ : List String) (nbrs : List String) :
    ∀ queue visited path,
      (pathStep univ nbrs queue visited path).1.length +
        (univ.filter (fun x => decide
          (x ∉ (pathStep univ nbrs queue visited path).2))).length ≤
      queue.length + (univ.filter (fun x => decide (x ∉ visited))).length := by
  induction nbrs with
  | nil => intro queue visited path; simp [pathStep]
  | cons n rest ih =>
    intro queue visited path
    rw [pathStep]
    by_cases hc : n ∉ visited ∧ n ∈ univ
    · rw [if_pos hc]
      refine le_trans (ih _ _ _) ?_
      have := filter_nm_lt univ visited n hc.2 hc.1
      simp only [List.length_append, List.length_cons, List.length_nil]
      omega
    · rw [if_neg hc]
      exact ih _ _ _

/-- The `while queue` loop of `get_critical_path`; returns early when the
dequeued id is the end node. -/
def pathLoop (univ : List String) (adj : AdjMap)
    (queue : List (String × List String)) (visited : List String)
    (endId : String) : AdjMap × Option (List String) :=
  match queue with
  | [] => (adj, none)
  | (current, path) :: rest =>
    if current == endId then (adj, some path)
    else
      pathLoop univ (dGet adj current).1
        (pathStep univ (dGet adj current).2 rest visited path).1
        (pathStep univ (dGet adj current).2 rest visited path).2 endId
termination_by queue.length + (univ.filter (fun x => decide (x ∉ visited))).length
decreasing_by
  have := pathStep_measure univ (dGet adj current).2 rest visited path
  simp only [List.length_cons]
  omega

/-- `Graph.get_critical_path` (the Python parameter `end` is `endId`). -/
def get_critical_path (g : Graph) (start endId : String) :
    Graph × Option (List String) :=
  if !containsKey g.nodes start || !containsKey g.nodes endId then (g, none)
  else
    let r := pathLoop (pathUniv g start) g._adjacency [(start, [start])]
      [start] endId
    ({ g with _adjacency := r.1 }, r.2)

/-! ## remove_node

The repository exposes node deletion only through the API layer
(src/api/routes/nodes.py `delete_node`, which defers to a graph service
that is not part of the sources); the Graph class itself has no
`remove_node`. -/

/-- Modelled from the spec: `remove_node(id)` of §4.1, missing from the
sources (only its API caller `delete_node` exists).  Fails with
`UnknownNodeError` if `id` is absent; otherwise removes the node and every
edge where it is source or target, updating both adjacency indexes
accordingly. -/
def remove_node (g : Graph) (node_id : String) : Graph × Option PyErr :=
  if !containsKey g.nodes node_id then
    (g, some (.unknownNode node_id))
  else
    ({ nodes := g.nodes.filter (fun p => p.1 ≠ node_id),
       edges := g.edges.filter
         (fun e => e.source ≠ node_id ∧ e.target ≠ node_id),
       _adjacency := (g._adjacency.filter (fun p => p.1 ≠ node_id)).map
         (fun p => (p.1, p.2.filter (fun v => v ≠ node_id))),
       _reverse_adjacency :=
         (g._reverse_adjacency.filter (fun p => p.1 ≠ node_id)).map
           (fun p => (p.1, p.2.filter (fun v => v ≠ node_id))) },
     none)

/-! ## Semantic notions used by the claims -/

/-- Neighbor function of the forward index. -/
def adjFun (g : Graph) : String → List String :=
  fun k => lookupD g._adjacency k

/-- Neighbor function of the reverse index. -/
def radjFun (g : Graph) : String → List String :=
  fun k => lookupD g._reverse_adjacency k

/-- `reachN f s n x`: there is a walk of exactly `n` steps from `s` to `x`
along the neighbor function `f`. -/
def reachN (f : String → List String) (s : String) : Nat → String → Prop
  | 0, x => x = s
  | n + 1, x => ∃ w, reachN f s n w ∧ x ∈ f w

/-- The graph is a DAG: no id lies on a nonempty directed walk back to
itself along the forward index. -/
def Acyclic (g : Graph) : Prop :=
  ∀ x n, ¬ reachN (adjFun g) x (n + 1) x

/-- The structural invariants of a Graph state: I1 (edge endpoints exist),
I2 (both indexes are exact duals of `edges`), I3 (no self-loops), plus the
bookkeeping facts (unique dict keys, duplicate-free sets) that make the
association-list embedding denote Python dicts and sets. -/
structure GraphInv (g : Graph) : Prop where
  nodesNodup : (g.nodes.map (fun p => p.1)).Nodup
  edgeSrcMem : ∀ e ∈ g.edges, containsKey g.nodes e.source = true
  edgeTgtMem : ∀ e ∈ g.edges, containsKey g.nodes e.target = true
  noSelfLoop : ∀ e ∈ g.edges, e.source ≠ e.target
  edgesNodup : (g.edges.map (fun e => (e.source, e.target))).Nodup
  adjIff : ∀ s t, t ∈ lookupD g._adjacency s ↔
    ∃ e ∈ g.edges, e.source = s ∧ e.target = t
  radjIff : ∀ s t, s ∈ lookupD g._reverse_adjacency t ↔
    ∃ e ∈ g.edges, e.source = s ∧ e.target = t
  adjKeysNodup : (g._adjacency.map (fun p => p.1)).Nodup
  radjKeysNodup : (g._reverse_adjacency.map (fun p => p.1)).Nodup
  adjValsNodup : ∀ p ∈ g._adjacency, p.2.Nodup
  radjValsNodup : ∀ p ∈ g._reverse_adjacency, p.2.Nodup

/-! ## Basic lemmas about the dict / set primitives -/

theorem lookupD_nil (k : String) : lookupD [] k = [] := rfl

theorem dGet_snd (d : AdjMap) (k : String) : (dGet d k).2 = lookupD d k := by
  unfold dGet lookupD
  cases d.find? (fun p => p.1 == k) <;> rfl

theorem lookupD_append_right (d : AdjMap) (l : AdjMap) (s : String)
    (h : d.find? (fun p => p.1 == s) = none) :
    lookupD (d ++ l) s = lookupD l s := by
  unfold lookupD
  rw [List.find?_append, h]
  rfl

theorem lookupD_append_left (d : AdjMap) (l : AdjMap) (s : String) (p : String × List String)
    (h : d.find? (fun p => p.1 == s) = some p) :
    lookupD (d ++ l) s = lookupD d s := by
  unfold lookupD
  rw [List.find?_append, h]
  rfl

theorem dGet_fst_lookup (d : AdjMap) (k : String) (s : String) :
    lookupD (dGet d k).1 s = lookupD d s := by
  unfold dGet
  cases hf : d.find? (fun p => p.1 == k) with
  | some p => rfl
  | none =>
    by_cases hs : s = k
    · subst hs
      rw [lookupD_append_right d _ s hf]
      unfold lookupD
      rw [hf]
      simp [List.find?]
    · cases hg : d.find? (fun p => p.1 == s) with
      | some q => exact lookupD_append_left d _ s q hg
      | none =>
        rw [lookupD_append_right d _ s hg]
        unfold lookupD
        simp only [List.find?]
        have : (((k, []) : String × List String).1 == s) = false := by
          simp
          intro hc
          exact hs hc.symm
        rw [this]
        simp [lookupD, hg]

theorem setAdd_mem (l : List String) (v x : String) :
    x ∈ setAdd l v ↔ x ∈ l ∨ x = v := by
  unfold setAdd
  by_cases hv : v ∈ l
  · rw [if_pos hv]
    constructor
    · exact Or.inl
    · rintro (hx | rfl)
      · exact hx
      · exact hv
  · rw [if_neg hv]
    simp

theorem setAdd_nodup (l : List String) (v : String) (h : l.Nodup) :
    (setAdd l v).Nodup := by
  unfold setAdd
  by_cases hv : v ∈ l
  · rwa [if_pos hv]
  · rw [if_neg hv]
    simp [List.nodup_append, h, hv]

theorem find?_adjAdd_map (d : AdjMap) (k v s : String) :
    (d.map (fun p => if p.1 == k then (p.1, setAdd p.2 v) else p)).find?
      (fun p => p.1 == s) =
    (d.find? (fun p => p.1 == s)).map
      (fun p => if p.1 == k then (p.1, setAdd p.2 v) else p) := by
  rw [List.find?_map]
  have hf : ((fun p => p.1 == s) ∘
      (fun p => if p.1 == k then (p.1, setAdd p.2 v) else p)) =
      (fun (p : String × List String) => p.1 == s) := by
    funext p
    by_cases h : p.1 = k <;> simp [h]
  rw [hf]

theorem any_key_iff (d : AdjMap) (k : String) :
    (d.any (fun p => p.1 == k)) = true ↔ k ∈ d.map (fun p => p.1) := by
  simp [List.any_eq_true]

theorem find?_eq_none_of_no_key (d : AdjMap) (k : String)
    (h : (d.any (fun p => p.1 == k)) = false) :
    d.find? (fun p => p.1 == k) = none := by
  rw [List.find?_eq_none]
  intro p hp
  have := List.any_eq_false.mp h p hp
  simpa using this

theorem adjAdd_lookup (d : AdjMap) (k v s : String) :
    lookupD (adjAdd d k v) s =
      if s = k then setAdd (lookupD d k) v else lookupD d s := by
  unfold adjAdd
  by_cases hany : (d.any (fun p => p.1 == k)) = true
  · rw [if_pos hany]
    by_cases hs : s = k
    · subst hs
      rw [if_pos rfl]
      unfold lookupD
      rw [find?_adjAdd_map]
      cases hf : d.find? (fun p => p.1 == s) with
      | some p =>
        have hp : p.1 = s := by simpa using List.find?_some hf
        simp [hp]
      | none =>
        exfalso
        rcases List.mem_map.mp ((any_key_iff d s).mp hany) with ⟨p, hp, hps⟩
        have := List.find?_eq_none.mp hf p hp
        simp [hps] at this
    · rw [if_neg hs]
      unfold lookupD
      rw [find?_adjAdd_map]
      cases hf : d.find? (fun p => p.1 == s) with
      | some p =>
        have hp : p.1 = s := by simpa using List.find?_some hf
        have hpk : ¬(p.1 = k) := by rw [hp]; exact hs
        simp [hpk]
      | none => rfl
  · rw [if_neg hany]
    have hany2 : (d.any (fun p => p.1 == k)) = false :=
      Bool.eq_false_iff.mpr hany
    have hfk := find?_eq_none_of_no_key d k hany2
    by_cases hs : s = k
    · subst hs
      rw [if_pos rfl]
      rw [lookupD_append_right d _ s hfk]
      unfold lookupD
      rw [hfk]
      simp [List.find?, setAdd]
    · rw [if_neg hs]
      cases hg : d.find? (fun p => p.1 == s) with
      | some q => exact lookupD_append_left d _ s q hg
      | none =>
        rw [lookupD_append_right d _ s hg]
        unfold lookupD
        rw [hg]
        have hb : (((k, [v]) : String × List String).1 == s) = false := by
          simp only [beq_eq_false_iff_ne, ne_eq]
          intro hc
          exact hs hc.symm
        simp [List.find?, hb]

theorem adjAdd_keys (d : AdjMap) (k v : String) :
    (adjAdd d k v).map (fun p => p.1) =
      if (d.any (fun p => p.1 == k)) = true then d.map (fun p => p.1)
      else d.map (fun p => p.1) ++ [k] := by
  unfold adjAdd
  by_cases hany : (d.any (fun p => p.1 == k)) = true
  · rw [if_pos hany, if_pos hany]
    rw [List.map_map]
    apply List.map_congr_left
    intro p _
    by_cases hk : p.1 = k
    · simp [hk]
    · simp [hk]
  · rw [if_neg hany, if_neg hany]
    simp

theorem adjAdd_vals_nodup (d : AdjMap) (k v : String)
    (h : ∀ p ∈ d, p.2.Nodup) :
    ∀ p ∈ adjAdd d k v, p.2.Nodup := by
  unfold adjAdd
  by_cases hany : (d.any (fun p => p.1 == k)) = true
  · rw [if_pos hany]
    intro p hp
    rcases List.mem_map.mp hp with ⟨q, hq, he⟩
    by_cases hk : q.1 = k
    · simp only [hk, beq_self_eq_true, if_true] at he
      rw [← he]
      exact setAdd_nodup _ _ (h q hq)
    · have hb : (q.1 == k) = false := by simp [hk]
      simp only [hb, if_false] at he
      rw [← he]
      exact h q hq
  · rw [if_neg hany]
    intro p hp
    rcases List.mem_append.mp hp with hp | hp
    · exact h p hp
    · simp at hp
      simp [hp]

theorem containsKey_iff (d : List (String × Node)) (k : String) :
    containsKey d k = true ↔ k ∈ d.map (fun p => p.1) := by
  simp [containsKey, List.any_eq_true]

theorem containsKey_append (d l : List (String × Node)) (k : String) :
    containsKey (d ++ l) k = (containsKey d k || containsKey l k) := by
  simp [containsKey]

theorem edgeMem_iff (e : Edge) (l : List Edge) :
    edgeMem e l = true ↔ ∃ e2 ∈ l, e2.source = e.source ∧ e2.target = e.target := by
  simp [edgeMem, List.any_eq_true]

/-! ## Shapes of add_node / add_edge -/

theorem add_node_dup (g : Graph) (n : Node)
    (h : containsKey g.nodes n.id = true) :
    add_node g n = (g, some (.duplicateNode n.id)) := by
  unfold add_node
  rw [if_pos h]

theorem add_node_ok (g : Graph) (n : Node)
    (h : containsKey g.nodes n.id = false) :
    add_node g n = ({ g with nodes := g.nodes ++ [(n.id, n)] }, none) := by
  unfold add_node
  rw [if_neg (by simp [h])]

theorem add_edge_noSrc (g : Graph) (e : Edge)
    (h : containsKey g.nodes e.source = false) :
    add_edge g e = (g, some (.unknownSource e.source)) := by
  unfold add_edge
  rw [h]
  simp

theorem add_edge_noTgt (g : Graph) (e : Edge)
    (hs : containsKey g.nodes e.source = true)
    (h : containsKey g.nodes e.target = false) :
    add_edge g e = (g, some (.unknownTarget e.target)) := by
  unfold add_edge
  rw [hs, h]
  simp

theorem add_edge_dup (g : Graph) (e : Edge)
    (hs : containsKey g.nodes e.source = true)
    (ht : containsKey g.nodes e.target = true)
    (hm : edgeMem e g.edges = true) :
    add_edge g e = (g, none) := by
  unfold add_edge
  rw [hs, ht, hm]
  simp

theorem add_edge_ins (g : Graph) (e : Edge)
    (hs : containsKey g.nodes e.source = true)
    (ht : containsKey g.nodes e.target = true)
    (hm : edgeMem e g.edges = false) :
    add_edge g e =
      ({ g with
          edges := g.edges ++ [e],
          _adjacency := adjAdd g._adjacency e.source e.target,
          _reverse_adjacency :=
            adjAdd g._reverse_adjacency e.target e.source }, none) := by
  unfold add_edge
  rw [hs, ht, hm]
  simp

/-! ## Invariant preservation -/

theorem graphInv_empty : GraphInv Graph.empty := by
  constructor <;> simp [Graph.empty, lookupD, nodeKeys, containsKey]

theorem graphInv_add_node (g : Graph) (n : Node) (h : GraphInv g) :
    GraphInv (add_node g n).1 := by
  cases hc : containsKey g.nodes n.id with
  | true => rw [add_node_dup g n hc]; exact h
  | false =>
    rw [add_node_ok g n hc]
    have hfresh : n.id ∉ g.nodes.map (fun p => p.1) := by
      intro hm
      rw [← containsKey_iff] at hm
      rw [hc] at hm
      exact Bool.false_ne_true hm
    constructor
    · show ((g.nodes ++ [(n.id, n)]).map (fun p => p.1)).Nodup
      rw [List.map_append]
      rw [List.nodup_append]
      refine ⟨h.nodesNodup, by simp, ?_⟩
      intro x hx
      simp only [List.map_cons, List.map_nil, List.mem_singleton]
      intro hxy
      rw [hxy] at hx
      exact hfresh hx
    · intro e he
      show containsKey (g.nodes ++ [(n.id, n)]) e.source = true
      rw [containsKey_append]
      simp [h.edgeSrcMem e he]
    · intro e he
      show containsKey (g.nodes ++ [(n.id, n)]) e.target = true
      rw [containsKey_append]
      simp [h.edgeTgtMem e he]
    · exact h.noSelfLoop
    · exact h.edgesNodup
    · exact h.adjIff
    · exact h.radjIff
    · exact h.adjKeysNodup
    · exact h.radjKeysNodup
    · exact h.adjValsNodup
    · exact h.radjValsNodup

theorem edgeMem_false_pair (e : Edge) (l : List Edge)
    (h : edgeMem e l = false) :
    ∀ e2 ∈ l, ¬(e2.source = e.source ∧ e2.target = e.target) := by
  intro e2 he2 hc
  have : edgeMem e l = true := (edgeMem_iff e l).mpr ⟨e2, he2, hc⟩
  rw [h] at this
  exact Bool.false_ne_true this

theorem graphInv_add_edge (g : Graph) (e : Edge) (hwf : edgeWF e)
    (h : GraphInv g) : GraphInv (add_edge g e).1 := by
  cases hsrc : containsKey g.nodes e.source with
  | false => rw [add_edge_noSrc g e hsrc]; exact h
  | true =>
    cases htgt : containsKey g.nodes e.target with
    | false => rw [add_edge_noTgt g e hsrc htgt]; exact h
    | true =>
      cases hmem : edgeMem e g.edges with
      | true => rw [add_edge_dup g e hsrc htgt hmem]; exact h
      | false =>
        rw [add_edge_ins g e hsrc htgt hmem]
        have hpairfresh := edgeMem_false_pair e g.edges hmem
        constructor
        · exact h.nodesNodup
        · intro e2 he2
          rcases List.mem_append.mp he2 with h2 | h2
          · exact h.edgeSrcMem e2 h2
          · simp at h2
            rw [h2, hsrc]
        · intro e2 he2
          rcases List.mem_append.mp he2 with h2 | h2
          · exact h.edgeTgtMem e2 h2
          · simp at h2
            rw [h2, htgt]
        · intro e2 he2
          rcases List.mem_append.mp he2 with h2 | h2
          · exact h.noSelfLoop e2 h2
          · simp at h2
            rw [h2]
            exact hwf.2.2
        · show ((g.edges ++ [e]).map (fun e => (e.source, e.target))).Nodup
          rw [List.map_append, List.nodup_append]
          refine ⟨h.edgesNodup, by simp, ?_⟩
          intro x hx
          simp only [List.map_cons, List.map_nil, List.mem_singleton]
          intro hxy
          rcases List.mem_map.mp hx with ⟨e2, he2, hpe⟩
          apply hpairfresh e2 he2
          rw [hxy] at hpe
          exact ⟨congrArg Prod.fst hpe, congrArg Prod.snd hpe⟩
        · intro s t
          show t ∈ lookupD (adjAdd g._adjacency e.source e.target) s ↔ _
          rw [adjAdd_lookup]
          by_cases hs : s = e.source
          · rw [if_pos hs]
            rw [setAdd_mem]
            rw [h.adjIff e.source t]
            constructor
            · rintro (⟨e2, he2, hp⟩ | rfl)
              · exact ⟨e2, List.mem_append_left _ he2, by rw [hp.1, hs], hp.2⟩
              · exact ⟨e, List.mem_append_right _ (by simp), hs.symm, rfl⟩
            · rintro ⟨e2, he2, hp1, hp2⟩
              rcases List.mem_append.mp he2 with h2 | h2
              · exact Or.inl ⟨e2, h2, by rw [hp1, hs], hp2⟩
              · simp at h2
                rw [h2] at hp2
                exact Or.inr hp2.symm
          · rw [if_neg hs]
            rw [h.adjIff s t]
            constructor
            · rintro ⟨e2, he2, hp⟩
              exact ⟨e2, List.mem_append_left _ he2, hp⟩
            · rintro ⟨e2, he2, hp1, hp2⟩
              rcases List.mem_append.mp he2 with h2 | h2
              · exact ⟨e2, h2, hp1, hp2⟩
              · simp at h2
                rw [h2] at hp1
                exact absurd hp1.symm hs
        · intro s t
          show s ∈ lookupD (adjAdd g._reverse_adjacency e.target e.source) t ↔ _
          rw [adjAdd_lookup]
          by_cases ht : t = e.target
          · rw [if_pos ht]
            rw [setAdd_mem]
            rw [h.radjIff s e.target]
            constructor
            · rintro (⟨e2, he2, hp⟩ | rfl)
              · exact ⟨e2, List.mem_append_left _ he2, hp.1, by rw [hp.2, ht]⟩
              · exact ⟨e, List.mem_append_right _ (by simp), rfl, ht.symm⟩
            · rintro ⟨e2, he2, hp1, hp2⟩
              rcases List.mem_append.mp he2 with h2 | h2
              · exact Or.inl ⟨e2, h2, hp1, by rw [hp2, ht]⟩
              · simp at h2
                rw [h2] at hp1
                exact Or.inr hp1.symm
          · rw [if_neg ht]
            rw [h.radjIff s t]
            constructor
            · rintro ⟨e2, he2, hp⟩
              exact ⟨e2, List.mem_append_left _ he2, hp⟩
            · rintro ⟨e2, he2, hp1, hp2⟩
              rcases List.mem_append.mp he2 with h2 | h2
              · exact ⟨e2, h2, hp1, hp2⟩
              · simp at h2
                rw [h2] at hp2
                exact absurd hp2.symm ht
        · show ((adjAdd g._adjacency e.source e.target).map (fun p => p.1)).Nodup
          rw [adjAdd_keys]
          by_cases hany : (g._adjacency.any (fun p => p.1 == e.source)) = true
          · rw [if_pos hany]; exact h.adjKeysNodup
          · rw [if_neg hany]
            rw [List.nodup_append]
            refine ⟨h.adjKeysNodup, by simp, ?_⟩
            intro x hx
            simp only [List.mem_singleton]
            intro hxy
            rw [hxy] at hx
            rw [← any_key_iff] at hx
            exact hany hx
        · show ((adjAdd g._reverse_adjacency e.target e.source).map
            (fun p => p.1)).Nodup
          rw [adjAdd_keys]
          by_cases hany :
              (g._reverse_adjacency.any (fun p => p.1 == e.target)) = true
          · rw [if_pos hany]; exact h.radjKeysNodup
          · rw [if_neg hany]
            rw [List.nodup_append]
            refine ⟨h.radjKeysNodup, by simp, ?_⟩
            intro x hx
            simp only [List.mem_singleton]
            intro hxy
            rw [hxy] at hx
            rw [← any_key_iff] at hx
            exact hany hx
        · exact adjAdd_vals_nodup _ _ _ h.adjValsNodup
        · exact adjAdd_vals_nodup _ _ _ h.radjValsNodup

/-- Every reachable state satisfies the structural invariants. -/
theorem graphInv_of_reachable (g : Graph) (h : ReachableState g) :
    GraphInv g := by
  induction h with
  | empty => exact graphInv_empty
  | addNode g n _ ih => exact graphInv_add_node g n ih
  | addEdge g e hwf _ ih => exact graphInv_add_edge g e hwf ih

/-! ## Example graphs for witnesses -/

def exNApi : Node := { id := "api", type := .API, metadata := [] }
def exNDb : Node := { id := "db", type := .DATABASE, metadata := [] }
def exNCache : Node := { id := "cache", type := .CACHE, metadata := [] }
def exEApiDb : Edge := { source := "api", target := "db", metadata := [] }
def exEApiCache : Edge := { source := "api", target := "cache", metadata := [] }

/-- The spec scenario graph: nodes api, db, cache; edges api→db, api→cache. -/
def gEx : Graph :=
  (add_edge (add_edge
    (add_node (add_node (add_node Graph.empty exNApi).1 exNDb).1 exNCache).1
    exEApiDb).1 exEApiCache).1

theorem gEx_reachable : ReachableState gEx :=
  ReachableState.addEdge _ _ (by refine ⟨?_, ?_, ?_⟩ <;> decide)
    (ReachableState.addEdge _ _ (by refine ⟨?_, ?_, ?_⟩ <;> decide)
      (ReachableState.addNode _ _
        (ReachableState.addNode _ _
          (ReachableState.addNode _ _ ReachableState.empty))))

def exNa : Node := { id := "a", type := .SERVICE, metadata := [] }
def exNb : Node := { id := "b", type := .SERVICE, metadata := [] }
def exNc : Node := { id := "c", type := .SERVICE, metadata := [] }
def exEab : Edge := { source := "a", target := "b", metadata := [] }
def exEbc : Edge := { source := "b", target := "c", metadata := [] }
def exEca : Edge := { source := "c", target := "a", metadata := [] }

/-- The spec scenario graph: nodes a, b, c; edges a→b, b→c, c→a (a cycle). -/
def gCycEx : Graph :=
  (add_edge (add_edge (add_edge
    (add_node (add_node (add_node Graph.empty exNa).1 exNb).1 exNc).1
    exEab).1 exEbc).1 exEca).1

theorem gCycEx_reachable : ReachableState gCycEx :=
  ReachableState.addEdge _ _ (by refine ⟨?_, ?_, ?_⟩ <;> decide)
    (ReachableState.addEdge _ _ (by refine ⟨?_, ?_, ?_⟩ <;> decide)
      (ReachableState.addEdge _ _ (by refine ⟨?_, ?_, ?_⟩ <;> decide)
        (ReachableState.addNode _ _
          (ReachableState.addNode _ _
            (ReachableState.addNode _ _ ReachableState.empty)))))

/-! ## C2 -/

/-- C2: every reachable Graph state satisfies I1 (edge endpoints exist in
nodes), I2 (forward and reverse adjacency are exact duals of `edges`:
membership in either index is equivalent to an edge with those endpoints,
so no other adjacency memberships exist), I3 (no self-loop edge), and
consequently `get_dependencies` and `get_dependents` are duals. -/
theorem c2_graph_invariants (g : Graph) (h : ReachableState g) :
    (∀ e ∈ g.edges, containsKey g.nodes e.source = true ∧
      containsKey g.nodes e.target = true) ∧
    (∀ s t,
      (t ∈ lookupD g._adjacency s ↔
        ∃ e ∈ g.edges, e.source = s ∧ e.target = t) ∧
      (s ∈ lookupD g._reverse_adjacency t ↔
        ∃ e ∈ g.edges, e.source = s ∧ e.target = t)) ∧
    (∀ e ∈ g.edges, e.source ≠ e.target) ∧
    (∀ s t, t ∈ get_dependencies g s ↔ s ∈ get_dependents g t) := by
  have hi := graphInv_of_reachable g h
  refine ⟨fun e he => ⟨hi.edgeSrcMem e he, hi.edgeTgtMem e he⟩,
    fun s t => ⟨hi.adjIff s t, hi.radjIff s t⟩,
    hi.noSelfLoop,
    fun s t => ?_⟩
  unfold get_dependencies get_dependents
  rw [hi.adjIff s t, hi.radjIff s t]

theorem c2_witness :
    ReachableState gEx ∧
      ("db" ∈ get_dependencies gEx "api" ↔ "api" ∈ get_dependents gEx "db") :=
  ⟨gEx_reachable, (c2_graph_invariants gEx gEx_reachable).2.2.2 "api" "db"⟩

/-! ## C3 -/

/-- C3: `add_node` raises exactly the duplicate-id error iff the id is
present, `add_edge` raises exactly the unknown-endpoint error naming the
missing endpoint iff an endpoint is absent, and a raising call leaves the
state exactly as it was (no partial mutation). -/
theorem c3_mutation_errors (g : Graph) (n : Node) (e : Edge) :
    ((∃ err, (add_node g n).2 = some err) ↔
      containsKey g.nodes n.id = true) ∧
    ((add_node g n).2 = some (.duplicateNode n.id) ↔
      containsKey g.nodes n.id = true) ∧
    ((add_node g n).2 ≠ none → (add_node g n).1 = g) ∧
    ((∃ err, (add_edge g e).2 = some err) ↔
      (containsKey g.nodes e.source = false ∨
        containsKey g.nodes e.target = false)) ∧
    ((add_edge g e).2 = some (.unknownSource e.source) ↔
      containsKey g.nodes e.source = false) ∧
    ((add_edge g e).2 = some (.unknownTarget e.target) ↔
      (containsKey g.nodes e.source = true ∧
        containsKey g.nodes e.target = false)) ∧
    ((add_edge g e).2 ≠ none → (add_edge g e).1 = g) := by
  have hnode : ∀ P : Prop,
      (containsKey g.nodes n.id = true → P) →
      (containsKey g.nodes n.id = false → P) → P := by
    intro P h1 h2
    cases hc : containsKey g.nodes n.id
    · exact h2 hc
    · exact h1 hc
  refine ⟨?_, ?_, ?_, ?_, ?_, ?_, ?_⟩
  · cases hc : containsKey g.nodes n.id
    · rw [add_node_ok g n hc]
      simp
    · rw [add_node_dup g n hc]
      simp
  · cases hc : containsKey g.nodes n.id
    · rw [add_node_ok g n hc]
      simp
    · rw [add_node_dup g n hc]
      simp
  · cases hc : containsKey g.nodes n.id
    · rw [add_node_ok g n hc]
      simp
    · rw [add_node_dup g n hc]
      simp
  · cases hs : containsKey g.nodes e.source
    · rw [add_edge_noSrc g e hs]
      simp
    · cases ht : containsKey g.nodes e.target
      · rw [add_edge_noTgt g e hs ht]
        simp
      · cases hm : edgeMem e g.edges
        · rw [add_edge_ins g e hs ht hm]
          simp
        · rw [add_edge_dup g e hs ht hm]
          simp
  · cases hs : containsKey g.nodes e.source
    · rw [add_edge_noSrc g e hs]
      simp
    · cases ht : containsKey g.nodes e.target
      · rw [add_edge_noTgt g e hs ht]
        simp
      · cases hm : edgeMem e g.edges
        · rw [add_edge_ins g e hs ht hm]
          simp
        · rw [add_edge_dup g e hs ht hm]
          simp
  · cases hs : containsKey g.nodes e.source
    · rw [add_edge_noSrc g e hs]
      simp
    · cases ht : containsKey g.nodes e.target
      · rw [add_edge_noTgt g e hs ht]
        simp [hs]
      · cases hm : edgeMem e g.edges
        · rw [add_edge_ins g e hs ht hm]
          simp [ht]
        · rw [add_edge_dup g e hs ht hm]
          simp [ht]
  · cases hs : containsKey g.nodes e.source
    · rw [add_edge_noSrc g e hs]
      simp
    · cases ht : containsKey g.nodes e.target
      · rw [add_edge_noTgt g e hs ht]
        simp
      · cases hm : edgeMem e g.edges
        · rw [add_edge_ins g e hs ht hm]
          simp
        · rw [add_edge_dup g e hs ht hm]
          simp

theorem c3_witness :
    ((∃ err, (add_node gEx exNApi).2 = some err) ↔
      containsKey gEx.nodes exNApi.id = true) ∧
    ((add_node gEx exNApi).2 ≠ none → (add_node gEx exNApi).1 = gEx) := by
  refine ⟨(c3_mutation_errors gEx exNApi exEApiDb).1,
    (c3_mutation_errors gEx exNApi exEApiDb).2.2.1⟩

/-! ## C9 -/

/-- C9: when an edge with endpoints (s,t) is present in a reachable graph,
re-adding any Edge with the same endpoints - whatever its attributes - is a
silent no-op: no error, and the entire state (edges, both adjacency
indexes) and the stats edge count are unchanged. -/
theorem c9_add_edge_idempotent (g : Graph) (h : ReachableState g)
    (e e2 : Edge) (he : e ∈ g.edges) (hs : e2.source = e.source)
    (ht : e2.target = e.target) :
    add_edge g e2 = (g, none) ∧ edgeCount (add_edge g e2).1 = edgeCount g := by
  have hi := graphInv_of_reachable g h
  have hsrc : containsKey g.nodes e2.source = true := by
    rw [hs]; exact hi.edgeSrcMem e he
  have htgt : containsKey g.nodes e2.target = true := by
    rw [ht]; exact hi.edgeTgtMem e he
  have hm : edgeMem e2 g.edges = true :=
    (edgeMem_iff e2 g.edges).mpr ⟨e, he, hs.symm, ht.symm⟩
  have heq := add_edge_dup g e2 hsrc htgt hm
  exact ⟨heq, by rw [heq]⟩

theorem c9_witness :
    add_edge gEx
      { source := "api", target := "db",
        metadata := [("weight", MetaVal.str "9")] } = (gEx, none) :=
  (c9_add_edge_idempotent gEx gEx_reachable exEApiDb
    { source := "api", target := "db",
      metadata := [("weight", MetaVal.str "9")] }
    (by decide) rfl rfl).1

/-! ## C4 -/

/-- C4 counter-evidence: for an unrecognized kind string the code coerces
the type to CUSTOM and then stores the already-overwritten `self.type`
(that is, `NodeType.CUSTOM`) under `original_type`, so the original string
("mainframe" here) is lost; and the strings "event-stream" and
"load-balancer" named by the spec are not members of the code enum (which
has "kafka" and "loadbalancer"), so they are coerced to CUSTOM instead of
yielding a matching member.  Recognized values like "kafka" work, with
lower-casing. -/
theorem c4_original_type_lost :
    mkNode "n" "mainframe" [] =
      .ok { id := "n", type := .CUSTOM,
            metadata := [("original_type", MetaVal.ofType .CUSTOM)] } ∧
    (∀ md, mkNode "n" "mainframe" [] = .ok (Node.mk "n" NodeType.CUSTOM md) →
      ("original_type", MetaVal.str "mainframe") ∉ md) ∧
    mkNode "n" "event-stream" [] =
      .ok { id := "n", type := .CUSTOM,
            metadata := [("original_type", MetaVal.ofType .CUSTOM)] } ∧
    mkNode "n" "load-balancer" [] =
      .ok { id := "n", type := .CUSTOM,
            metadata := [("original_type", MetaVal.ofType .CUSTOM)] } ∧
    mkNode "n" "Kafka" [] = .ok { id := "n", type := .KAFKA, metadata := [] } ∧
    mkNode "n" "database" [] =
      .ok { id := "n", type := .DATABASE, metadata := [] } ∧
    mkNode "" "api" [] = .error .emptyNodeId := by
  refine ⟨by decide, ?_, by decide, by decide, by decide, by decide, by decide⟩
  intro md hmd
  have h1 : mkNode "n" "mainframe" [] =
      .ok { id := "n", type := .CUSTOM,
            metadata := [("original_type", MetaVal.ofType .CUSTOM)] } := by
    decide
  rw [h1] at hmd
  have := Except.ok.inj hmd
  have hm : md = [("original_type", MetaVal.ofType .CUSTOM)] := by
    have := congrArg Node.metadata this
    exact this.symm
  rw [hm]
  decide

theorem c4_witness :
    (∀ md, mkNode "n" "mainframe" [] = .ok (Node.mk "n" NodeType.CUSTOM md) →
      ("original_type", MetaVal.str "mainframe") ∉ md) :=
  c4_original_type_lost.2.1

/-! ## C5 -/

theorem lookupD_cons (q : String × List String) (rest : AdjMap) (s : String) :
    lookupD (q :: rest) s = if q.1 = s then q.2 else lookupD rest s := by
  unfold lookupD
  rw [List.find?_cons]
  by_cases h : q.1 = s
  · have hb : (q.1 == s) = true := by simp [h]
    rw [hb]
    simp [h]
  · have hb : (q.1 == s) = false := by simp [h]
    rw [hb]
    simp [h]

theorem lookupD_removeFilter (d : AdjMap) (id s : String) :
    lookupD ((d.filter (fun p => p.1 ≠ id)).map
      (fun p => (p.1, p.2.filter (fun v => v ≠ id)))) s =
      if s = id then [] else (lookupD d s).filter (fun v => v ≠ id) := by
  induction d with
  | nil =>
    by_cases hs : s = id <;> simp [lookupD, hs]
  | cons q rest ih =>
    rw [List.filter_cons]
    by_cases hq : q.1 = id
    · rw [show (decide (q.1 ≠ id)) = false by simp [hq]]
      rw [if_neg Bool.false_ne_true]
      rw [ih, lookupD_cons]
      by_cases hs : s = id
      · rw [if_pos hs, if_pos hs]
      · rw [if_neg hs, if_neg hs]
        rw [if_neg (show ¬ q.1 = s from fun hc => hs (hc.symm.trans hq))]
    · rw [show (decide (q.1 ≠ id)) = true by simp [hq]]
      rw [if_pos rfl]
      rw [List.map_cons]
      rw [lookupD_cons, lookupD_cons]
      dsimp only
      by_cases hs : q.1 = s
      · rw [if_pos hs]
        rw [if_neg (show ¬ s = id from fun hc => hq (hs.trans hc))]
        rw [if_pos hs]
      · rw [if_neg hs, ih, if_neg hs]

/-- C5 (the Graph method is absent from the sources; `remove_node` is
modelled from the spec): removal fails with the unknown-node error exactly
when the id is absent, and otherwise removes the node, every incident
edge, and every adjacency membership that mentions it, while keeping
everything else; the stats edge count afterwards counts exactly the
surviving edges. -/
theorem c5_remove_node_spec (g : Graph) (node_id : String) :
    ((remove_node g node_id).2 = some (.unknownNode node_id) ↔
      containsKey g.nodes node_id = false) ∧
    (containsKey g.nodes node_id = true →
      ((remove_node g node_id).2 = none ∧
       containsKey (remove_node g node_id).1.nodes node_id = false ∧
       (∀ p ∈ g.nodes, p.1 ≠ node_id → p ∈ (remove_node g node_id).1.nodes) ∧
       (∀ p ∈ (remove_node g node_id).1.nodes,
         p ∈ g.nodes ∧ p.1 ≠ node_id) ∧
       (∀ e, e ∈ (remove_node g node_id).1.edges ↔
         (e ∈ g.edges ∧ e.source ≠ node_id ∧ e.target ≠ node_id)) ∧
       (∀ s t, t ∈ lookupD (remove_node g node_id).1._adjacency s ↔
         (t ∈ lookupD g._adjacency s ∧ s ≠ node_id ∧ t ≠ node_id)) ∧
       (∀ s t, t ∈ lookupD (remove_node g node_id).1._reverse_adjacency s ↔
         (t ∈ lookupD g._reverse_adjacency s ∧ s ≠ node_id ∧ t ≠ node_id)) ∧
       edgeCount (remove_node g node_id).1 =
         (g.edges.filter
           (fun e => e.source ≠ node_id ∧ e.target ≠ node_id)).length)) := by
  constructor
  · cases hc : containsKey g.nodes node_id
    · unfold remove_node
      rw [hc]
      simp
    · unfold remove_node
      rw [hc]
      simp
  · intro hc
    have hdef : remove_node g node_id =
        ({ nodes := g.nodes.filter (fun p => p.1 ≠ node_id),
           edges := g.edges.filter
             (fun e => e.source ≠ node_id ∧ e.target ≠ node_id),
           _adjacency := (g._adjacency.filter (fun p => p.1 ≠ node_id)).map
             (fun p => (p.1, p.2.filter (fun v => v ≠ node_id))),
           _reverse_adjacency :=
             (g._reverse_adjacency.filter (fun p => p.1 ≠ node_id)).map
               (fun p => (p.1, p.2.filter (fun v => v ≠ node_id))) },
         none) := by
      unfold remove_node
      rw [hc]
      simp
    rw [hdef]
    refine ⟨rfl, ?_, ?_, ?_, ?_, ?_, ?_, rfl⟩
    · show ((g.nodes.filter (fun p => p.1 ≠ node_id)).any
        (fun p => p.1 == node_id)) = false
      rw [List.any_eq_false]
      intro p hp
      simp only [List.mem_filter, decide_eq_true_eq] at hp
      simp [hp.2]
    · intro p hp hpne
      simp [List.mem_filter, hp, hpne]
    · intro p hp
      simp only [List.mem_filter, decide_eq_true_eq] at hp
      exact hp
    · intro e
      simp [List.mem_filter]
    · intro s t
      show t ∈ lookupD ((g._adjacency.filter (fun p => p.1 ≠ node_id)).map
        (fun p => (p.1, p.2.filter (fun v => v ≠ node_id)))) s ↔ _
      rw [lookupD_removeFilter]
      by_cases hs : s = node_id
      · rw [if_pos hs]
        simp [hs]
      · rw [if_neg hs]
        simp [List.mem_filter, hs]
    · intro s t
      show t ∈ lookupD
        ((g._reverse_adjacency.filter (fun p => p.1 ≠ node_id)).map
          (fun p => (p.1, p.2.filter (fun v => v ≠ node_id)))) s ↔ _
      rw [lookupD_removeFilter]
      by_cases hs : s = node_id
      · rw [if_pos hs]
        simp [hs]
      · rw [if_neg hs]
        simp [List.mem_filter, hs]

theorem c5_witness :
    containsKey gEx.nodes "api" = true ∧
      containsKey (remove_node gEx "api").1.nodes "api" = false ∧
      (∀ e, e ∈ (remove_node gEx "api").1.edges ↔
        (e ∈ gEx.edges ∧ e.source ≠ "api" ∧ e.target ≠ "api")) :=
  ⟨by decide,
   ((c5_remove_node_spec gEx "api").2 (by decide)).2.1,
   ((c5_remove_node_spec gEx "api").2 (by decide)).2.2.2.2.1⟩

/-! ## The query traversals only add empty defaultdict entries:
every lookup is unchanged -/

theorem dfs_both_fst_lookup (univ : List String) :
    (∀ adj node visited path s,
      lookupD (dfs univ adj node visited path).1 s = lookupD adj s) ∧
    (∀ adj nbrs visited path s,
      lookupD (dfsList univ adj nbrs visited path).1 s = lookupD adj s) := by
  have case1 : ∀ (adj : AdjMap) (node : String) (visited path : List String),
      node ∈ visited ∨ node ∉ univ →
      ∀ s, lookupD (dfs univ adj node visited path).1 s = lookupD adj s := by
    intro adj node visited path h s
    rw [dfs]
    rw [dif_pos h]
  have case2 : ∀ (adj : AdjMap) (node : String) (visited path : List String),
      ¬(node ∈ visited ∨ node ∉ univ) →
      (let p := dGet adj node
       ∀ s, lookupD (dfsList univ p.1 p.2 (node :: visited)
         (path ++ [node])).1 s = lookupD p.1 s) →
      ∀ s, lookupD (dfs univ adj node visited path).1 s = lookupD adj s := by
    intro adj node visited path h ih s
    rw [dfs]
    rw [dif_neg h]
    simp only []
    rw [ih s]
    exact dGet_fst_lookup adj node s
  have case3 : ∀ (adj : AdjMap) (visited path : List String),
      ∀ s, lookupD (dfsList univ adj [] visited path).1 s = lookupD adj s := by
    intro adj visited path s
    rw [dfsList]
  have case4 : ∀ (adj : AdjMap) (visited path : List String) (n : String)
      (rest : List String), n ∉ visited →
      (∀ s, lookupD (dfs univ adj n visited path).1 s = lookupD adj s) →
      (let r1 := dfs univ adj n visited path
       ∀ s, lookupD (dfsList univ r1.1 rest (r1.2.1 ++ visited) path).1 s =
         lookupD r1.1 s) →
      ∀ s, lookupD (dfsList univ adj (n :: rest) visited path).1 s =
        lookupD adj s := by
    intro adj visited path n rest hn ih1 ih2 s
    rw [dfsList]
    rw [if_pos hn]
    simp only []
    rw [ih2 s, ih1 s]
  have case5 : ∀ (adj : AdjMap) (visited path : List String) (n : String)
      (rest : List String), ¬n ∉ visited → n ∈ path →
      (∀ s, lookupD (dfsList univ adj rest visited path).1 s = lookupD adj s) →
      ∀ s, lookupD (dfsList univ adj (n :: rest) visited path).1 s =
        lookupD adj s := by
    intro adj visited path n rest hn hp ih s
    rw [dfsList]
    rw [if_neg hn, if_pos hp]
    simp only []
    exact ih s
  have case6 : ∀ (adj : AdjMap) (visited path : List String) (n : String)
      (rest : List String), ¬n ∉ visited → n ∉ path →
      (∀ s, lookupD (dfsList univ adj rest visited path).1 s = lookupD adj s) →
      ∀ s, lookupD (dfsList univ adj (n :: rest) visited path).1 s =
        lookupD adj s := by
    intro adj visited path n rest hn hp ih s
    rw [dfsList]
    rw [if_neg hn, if_neg hp]
    exact ih s
  exact ⟨fun adj node visited path =>
      dfs.induct univ
        (fun adj node visited path => ∀ s,
          lookupD (dfs univ adj node visited path).1 s = lookupD adj s)
        (fun adj nbrs visited path => ∀ s,
          lookupD (dfsList univ adj nbrs visited path).1 s = lookupD adj s)
        case1 case2 case3 case4 case5 case6 adj node visited path,
    fun adj nbrs visited path =>
      dfsList.induct univ
        (fun adj node visited path => ∀ s,
          lookupD (dfs univ adj node visited path).1 s = lookupD adj s)
        (fun adj nbrs visited path => ∀ s,
          lookupD (dfsList univ adj nbrs visited path).1 s = lookupD adj s)
        case1 case2 case3 case4 case5 case6 adj nbrs visited path⟩

theorem findCyclesLoop_fst_lookup (univ : List String) (ids : List String) :
    ∀ adj visited cycles s,
      lookupD (findCyclesLoop univ adj ids visited cycles).1 s =
        lookupD adj s := by
  induction ids with
  | nil => intro adj visited cycles s; rw [findCyclesLoop]
  | cons id rest ih =>
    intro adj visited cycles s
    rw [findCyclesLoop]
    by_cases hid : id ∉ visited
    · rw [if_pos hid]
      simp only []
      rw [ih]
      exact (dfs_both_fst_lookup univ).1 adj id visited [] s
    · rw [if_neg hid]
      exact ih adj visited cycles s

theorem find_cycles_lookup (g : Graph) (s : String) :
    lookupD (find_cycles g).1._adjacency s = lookupD g._adjacency s := by
  unfold find_cycles
  simp only []
  exact findCyclesLoop_fst_lookup (dfsUniv g) (nodeKeys g) g._adjacency [] [] s

theorem find_cycles_frame (g : Graph) :
    (find_cycles g).1.nodes = g.nodes ∧
    (find_cycles g).1.edges = g.edges ∧
    (find_cycles g).1._reverse_adjacency = g._reverse_adjacency := by
  unfold find_cycles
  exact ⟨rfl, rfl, rfl⟩

theorem buildInd_fst_lookup (ids : List String) :
    ∀ radj s, lookupD (buildInd radj ids).1 s = lookupD radj s := by
  induction ids with
  | nil => intro radj s; rw [buildInd]
  | cons id rest ih =>
    intro radj s
    rw [buildInd]
    simp only []
    rw [ih]
    exact dGet_fst_lookup radj id s

theorem kahnLoop_fst_lookup (adj : AdjMap) (queue : List String)
    (ind : List (String × Int)) (result : List String) :
    ∀ s, lookupD (kahnLoop adj queue ind result).1 s = lookupD adj s := by
  induction adj, queue, ind, result using kahnLoop.induct with
  | case1 adj ind result => intro s; rw [kahnLoop]
  | case2 adj ind result node rest ih =>
    intro s
    rw [kahnLoop]
    rw [ih]
    exact dGet_fst_lookup adj node s

theorem impactLoop_fst_lookup (univ : List String) (radj : AdjMap)
    (queue : List (String × Nat)) (visited impacted : List String)
    (maxd : Option Nat) :
    ∀ s, lookupD (impactLoop univ radj queue visited impacted maxd).1 s =
      lookupD radj s := by
  induction radj, queue, visited, impacted, maxd using impactLoop.induct univ with
  | case1 radj visited impacted maxd => intro s; rw [impactLoop]
  | case2 radj visited impacted maxd current depth rest hcut ih =>
    intro s
    rw [impactLoop]
    rw [if_pos hcut]
    exact ih s
  | case3 radj visited impacted maxd current depth rest hcut ih =>
    intro s
    rw [impactLoop]
    rw [if_neg hcut]
    rw [ih]
    exact dGet_fst_lookup radj current s

theorem pathLoop_fst_lookup (univ : List String) (adj : AdjMap)
    (queue : List (String × List String)) (visited : List String)
    (endId : String) :
    ∀ s, lookupD (pathLoop univ adj queue visited endId).1 s =
      lookupD adj s := by
  induction adj, queue, visited, endId using pathLoop.induct univ with
  | case1 adj visited endId => intro s; rw [pathLoop]
  | case2 adj visited endId current path rest hend =>
    intro s
    rw [pathLoop]
    rw [if_pos hend]
  | case3 adj visited endId current path rest hend ih =>
    intro s
    rw [pathLoop]
    rw [if_neg hend]
    rw [ih]
    exact dGet_fst_lookup adj current s

theorem topological_sort_frame (g : Graph) :
    (topological_sort g).1.nodes = g.nodes ∧
    (topological_sort g).1.edges = g.edges ∧
    (∀ s, lookupD (topological_sort g).1._adjacency s =
      lookupD g._adjacency s) ∧
    (∀ s, lookupD (topological_sort g).1._reverse_adjacency s =
      lookupD g._reverse_adjacency s) := by
  have hfc := find_cycles_frame g
  unfold topological_sort
  simp only []
  by_cases hc : (find_cycles g).2 ≠ []
  · rw [if_pos hc]
    refine ⟨hfc.1, hfc.2.1, ?_, ?_⟩
    · intro s
      exact find_cycles_lookup g s
    · intro s
      rw [hfc.2.2]
  · rw [if_neg hc]
    refine ⟨hfc.1, hfc.2.1, ?_, ?_⟩
    · intro s
      rw [kahnLoop_fst_lookup]
      exact find_cycles_lookup g s
    · intro s
      rw [buildInd_fst_lookup]
      rw [hfc.2.2]

theorem validate_frame (g : Graph) :
    (validate g).1.nodes = g.nodes ∧
    (validate g).1.edges = g.edges ∧
    (∀ s, lookupD (validate g).1._adjacency s = lookupD g._adjacency s) ∧
    (∀ s, lookupD (validate g).1._reverse_adjacency s =
      lookupD g._reverse_adjacency s) := by
  have hfc := find_cycles_frame g
  unfold validate
  simp only []
  exact ⟨hfc.1, hfc.2.1, fun s => find_cycles_lookup g s,
    fun s => by rw [hfc.2.2]⟩

theorem get_impact_radius_frame (g : Graph) (node_id : String)
    (maxd : Option Nat) :
    (get_impact_radius g node_id maxd).1.nodes = g.nodes ∧
    (get_impact_radius g node_id maxd).1.edges = g.edges ∧
    (∀ s, lookupD (get_impact_radius g node_id maxd).1._adjacency s =
      lookupD g._adjacency s) ∧
    (∀ s, lookupD (get_impact_radius g node_id maxd).1._reverse_adjacency s =
      lookupD g._reverse_adjacency s) := by
  unfold get_impact_radius
  by_cases hc : containsKey g.nodes node_id
  · rw [if_neg (by simp [hc])]
    simp [impactLoop_fst_lookup]
  · rw [if_pos (by simp [Bool.not_eq_true] at hc; simp [hc])]
    simp

theorem get_critical_path_frame (g : Graph) (start endId : String) :
    (get_critical_path g start endId).1.nodes = g.nodes ∧
    (get_critical_path g start endId).1.edges = g.edges ∧
    (∀ s, lookupD (get_critical_path g start endId).1._adjacency s =
      lookupD g._adjacency s) ∧
    (∀ s, lookupD (get_critical_path g start endId).1._reverse_adjacency s =
      lookupD g._reverse_adjacency s) := by
  unfold get_critical_path
  by_cases hcond : (!containsKey g.nodes start || !containsKey g.nodes endId)
      = true
  · rw [if_pos hcond]
    simp
  · rw [if_neg hcond]
    simp [pathLoop_fst_lookup]

/-! ## C10 -/

/-- C10: every query with an embedded state effect (the four traversals
thread the defaultdict indexes, whose getitem inserts empty entries for
missing keys; `validate` calls `find_cycles`) leaves the observable graph
unchanged: the nodes mapping and edge set are equal, and every forward and
reverse adjacency lookup - hence every adjacency membership - is unchanged.
`get_node`, `get_dependencies` and `get_dependents` use non-mutating dict
lookups in the source and are embedded as pure functions. -/
theorem c10_queries_preserve_graph (g : Graph) (node_id start endId : String)
    (maxd : Option Nat) :
    ((find_cycles g).1.nodes = g.nodes ∧ (find_cycles g).1.edges = g.edges ∧
      (∀ s, lookupD (find_cycles g).1._adjacency s =
        lookupD g._adjacency s) ∧
      (∀ s, lookupD (find_cycles g).1._reverse_adjacency s =
        lookupD g._reverse_adjacency s)) ∧
    ((validate g).1.nodes = g.nodes ∧ (validate g).1.edges = g.edges ∧
      (∀ s, lookupD (validate g).1._adjacency s = lookupD g._adjacency s) ∧
      (∀ s, lookupD (validate g).1._reverse_adjacency s =
        lookupD g._reverse_adjacency s)) ∧
    ((topological_sort g).1.nodes = g.nodes ∧
      (topological_sort g).1.edges = g.edges ∧
      (∀ s, lookupD (topological_sort g).1._adjacency s =
        lookupD g._adjacency s) ∧
      (∀ s, lookupD (topological_sort g).1._reverse_adjacency s =
        lookupD g._reverse_adjacency s)) ∧
    ((get_impact_radius g node_id maxd).1.nodes = g.nodes ∧
      (get_impact_radius g node_id maxd).1.edges = g.edges ∧
      (∀ s, lookupD (get_impact_radius g node_id maxd).1._adjacency s =
        lookupD g._adjacency s) ∧
      (∀ s, lookupD (get_impact_radius g node_id maxd).1._reverse_adjacency s
        = lookupD g._reverse_adjacency s)) ∧
    ((get_critical_path g start endId).1.nodes = g.nodes ∧
      (get_critical_path g start endId).1.edges = g.edges ∧
      (∀ s, lookupD (get_critical_path g start endId).1._adjacency s =
        lookupD g._adjacency s) ∧
      (∀ s, lookupD (get_critical_path g start endId).1._reverse_adjacency s
        = lookupD g._reverse_adjacency s)) :=
  ⟨⟨(find_cycles_frame g).1, (find_cycles_frame g).2.1,
    fun s => find_cycles_lookup g s,
    fun s => by rw [(find_cycles_frame g).2.2]⟩,
   validate_frame g, topological_sort_frame g,
   get_impact_radius_frame g node_id maxd,
   get_critical_path_frame g start endId⟩

/-! ## Chains, topological order lists, and acyclicity -/

/-- A list is a chain when consecutive elements are joined by the neighbor
function. -/
def isChain (f : String → List String) : List String → Prop
  | [] => True
  | [_] => True
  | x :: y :: rest => y ∈ f x ∧ isChain f (y :: rest)

/-- A reverse finishing order: each element is absent from its tail and all
its successors lie in its tail. -/
def ordOK (f : String → List String) : List String → Prop
  | [] => True
  | x :: rest => x ∉ rest ∧ (∀ y ∈ f x, y ∈ rest) ∧ ordOK f rest

theorem ordOK_closed (f : String → List String) :
    ∀ ord, ordOK f ord → ∀ w ∈ ord, ∀ y ∈ f w, y ∈ ord := by
  intro ord
  induction ord with
  | nil => intro _ w hw; simp at hw
  | cons z rest ih =>
    intro h w hw y hy
    rcases h with ⟨_, hz, hrest⟩
    rcases List.mem_cons.mp hw with rfl | hw
    · exact List.mem_cons_of_mem _ (hz y hy)
    · exact List.mem_cons_of_mem _ (ih hrest w hw y hy)

theorem ordOK_reach_mem (f : String → List String) (ord : List String)
    (h : ordOK f ord) : ∀ n x y, reachN f x n y → x ∈ ord → y ∈ ord := by
  intro n
  induction n with
  | zero =>
    intro x y hr hx
    rw [reachN] at hr
    rw [hr]
    exact hx
  | succ m ih =>
    intro x y hr hx
    rw [reachN] at hr
    rcases hr with ⟨w, hw, hy⟩
    exact ordOK_closed f ord h w (ih x w hw hx) y hy

theorem ordOK_tail_reach (f : String → List String) :
    ∀ ord z rest, ordOK f ord → ord = z :: rest →
      ∀ n y, reachN f z (n + 1) y → y ∈ rest := by
  intro ord z rest h heq n y hr
  subst heq
  rcases h with ⟨hz, hsucc, hrest⟩
  induction n generalizing y with
  | zero =>
    rw [reachN] at hr
    rcases hr with ⟨w, hw, hy⟩
    rw [reachN] at hw
    rw [hw] at hy
    exact hsucc y hy
  | succ m ih =>
    rw [reachN] at hr
    rcases hr with ⟨w, hw, hy⟩
    have hwrest : w ∈ rest := ih w hw
    exact ordOK_closed f rest hrest w hwrest y hy

/-- A list in reverse finishing order admits no directed cycle through any
of its elements. -/
theorem ordOK_no_cycle (f : String → List String) :
    ∀ ord, ordOK f ord → ∀ x ∈ ord, ∀ n, ¬ reachN f x (n + 1) x := by
  intro ord
  induction ord with
  | nil => intro _ x hx; simp at hx
  | cons z rest ih =>
    intro h x hx n hr
    rcases List.mem_cons.mp hx with rfl | hx
    · have := ordOK_tail_reach f (x :: rest) x rest h rfl n x hr
      exact h.1 this
    · exact ih h.2.2 x hx n hr

theorem reachN_trans (f : String → List String) (s x y : String) (n m : Nat)
    (h1 : reachN f s n x) (h2 : reachN f x m y) : reachN f s (n + m) y := by
  induction m generalizing y with
  | zero =>
    rw [reachN] at h2
    rw [h2]
    exact h1
  | succ k ih =>
    rw [reachN] at h2
    rcases h2 with ⟨w, hw, hy⟩
    exact ⟨w, ih w hw, hy⟩

theorem isChain_tail (f : String → List String) (x : String) (l : List String)
    (h : isChain f (x :: l)) : isChain f l := by
  cases l with
  | nil => exact trivial
  | cons y rest => exact h.2

theorem isChain_reach_last (f : String → List String) :
    ∀ l x, isChain f (x :: l) →
      reachN f x l.length ((x :: l).getLast (by simp)) := by
  intro l
  induction l with
  | nil =>
    intro x _
    simp [List.getLast]
    rw [reachN]
  | cons y rest ih =>
    intro x h
    have hstep : y ∈ f x := h.1
    have htail := ih y h.2
    have hlast : ((x :: y :: rest).getLast (by simp)) =
        ((y :: rest).getLast (by simp)) := by
      rw [List.getLast_cons]
    rw [hlast]
    have h1 : reachN f x 1 y := ⟨x, rfl, hstep⟩
    have := reachN_trans f x y ((y :: rest).getLast (by simp)) 1 rest.length
      h1 htail
    simpa [Nat.add_comm] using this

theorem isChain_append_right (f : String → List String) :
    ∀ a b, isChain f (a ++ b) → isChain f b := by
  intro a
  induction a with
  | nil => intro b h; exact h
  | cons x rest ih =>
    intro b h
    apply ih
    have := isChain_tail f x (rest ++ b) (by simpa using h)
    exact this

theorem chain_mem_cycle (f : String → List String) (path : List String)
    (n c : String) (p0 : List String) (hch : isChain f path) (hmem : n ∈ path)
    (hlast : path = p0 ++ [c]) (hedge : n ∈ f c) :
    ∃ x m, reachN f x (m + 1) x := by
  rcases List.append_of_mem hmem with ⟨pre, suf, hsplit⟩
  have hch2 : isChain f (n :: suf) := by
    apply isChain_append_right f pre
    rw [← hsplit]
    exact hch
  have hreach := isChain_reach_last f suf n hch2
  have hgl : (n :: suf).getLast (by simp) = c := by
    have e1 : (n :: suf).getLast? = some ((n :: suf).getLast (by simp)) :=
      List.getLast?_eq_getLast _ (by simp)
    have e2 : path.getLast? = (n :: suf).getLast? := by
      rw [hsplit, List.getLast?_append]
      have : (n :: suf).getLast? = some ((n :: suf).getLast (by simp)) :=
        List.getLast?_eq_getLast _ (by simp)
      rw [this]
      rfl
    have e3 : path.getLast? = some c := by
      rw [hlast]
      exact List.getLast?_concat _
    rw [e2, e1] at e3
    exact Option.some.inj e3
  rw [hgl] at hreach
  exact ⟨n, suf.length, ⟨c, hreach, hedge⟩⟩

theorem isChain_snoc (f : String → List String) :
    ∀ p0 c x, isChain f (p0 ++ [c]) → x ∈ f c →
      isChain f ((p0 ++ [c]) ++ [x]) := by
  intro p0
  induction p0 with
  | nil =>
    intro c x _ hx
    exact ⟨hx, trivial⟩
  | cons h0 rest ih =>
    intro c x hch hx
    cases hr : rest ++ [c] with
    | nil => simp at hr
    | cons y tl =>
      have hch2 : isChain f (rest ++ [c]) := isChain_tail f h0 _ (by
        simpa using hch)
      have hstep : y ∈ f h0 := by
        have := hch
        simp only [List.cons_append, hr] at this
        exact this.1
      have := ih c x hch2 hx
      simp only [List.cons_append]
      rw [hr] at this ⊢
      simp only [List.cons_append] at this ⊢
      exact ⟨hstep, this⟩

/-- DFS soundness: every run of the traversal that reports a cycle does so
only when a real directed cycle exists along the (lookup-stable) adjacency
function. -/
theorem dfs_both_sound (univ : List String) (f : String → List String) :
    (∀ adj node visited path,
      (∀ s, lookupD adj s = f s) → isChain f (path ++ [node]) →
      (dfs univ adj node visited path).2.2 ≠ [] →
      ∃ x m, reachN f x (m + 1) x) ∧
    (∀ adj nbrs visited path,
      (∀ s, lookupD adj s = f s) →
      (∃ p0 c, path = p0 ++ [c] ∧ isChain f path ∧ ∀ n ∈ nbrs, n ∈ f c) →
      (dfsList univ adj nbrs visited path).2.2 ≠ [] →
      ∃ x m, reachN f x (m + 1) x) := by
  have case1 : ∀ (adj : AdjMap) (node : String) (visited path : List String),
      node ∈ visited ∨ node ∉ univ →
      (∀ s, lookupD adj s = f s) → isChain f (path ++ [node]) →
      (dfs univ adj node visited path).2.2 ≠ [] →
      ∃ x m, reachN f x (m + 1) x := by
    intro adj node visited path h _ _ hne
    rw [dfs, dif_pos h] at hne
    simp at hne
  have case2 : ∀ (adj : AdjMap) (node : String) (visited path : List String),
      ¬(node ∈ visited ∨ node ∉ univ) →
      (let p := dGet adj node
       (∀ s, lookupD p.1 s = f s) →
       (∃ p0 c, (path ++ [node]) = p0 ++ [c] ∧ isChain f (path ++ [node]) ∧
         ∀ n ∈ p.2, n ∈ f c) →
       (dfsList univ p.1 p.2 (node :: visited) (path ++ [node])).2.2 ≠ [] →
       ∃ x m, reachN f x (m + 1) x) →
      (∀ s, lookupD adj s = f s) → isChain f (path ++ [node]) →
      (dfs univ adj node visited path).2.2 ≠ [] →
      ∃ x m, reachN f x (m + 1) x := by
    intro adj node visited path h ih hL hch hne
    rw [dfs, dif_neg h] at hne
    simp only [] at hne ih
    apply ih
    · intro s
      rw [dGet_fst_lookup]
      exact hL s
    · refine ⟨path, node, rfl, hch, ?_⟩
      intro n hn
      rw [dGet_snd, hL node] at hn
      exact hn
    · exact hne
  have case3 : ∀ (adj : AdjMap) (visited path : List String),
      (∀ s, lookupD adj s = f s) →
      (∃ p0 c, path = p0 ++ [c] ∧ isChain f path ∧ ∀ n ∈ ([] : List String),
        n ∈ f c) →
      (dfsList univ adj [] visited path).2.2 ≠ [] →
      ∃ x m, reachN f x (m + 1) x := by
    intro adj visited path _ _ hne
    rw [dfsList] at hne
    simp at hne
  have case4 : ∀ (adj : AdjMap) (visited path : List String) (n : String)
      (rest : List String), n ∉ visited →
      ((∀ s, lookupD adj s = f s) → isChain f (path ++ [n]) →
        (dfs univ adj n visited path).2.2 ≠ [] →
        ∃ x m, reachN f x (m + 1) x) →
      (let r1 := dfs univ adj n visited path
       (∀ s, lookupD r1.1 s = f s) →
       (∃ p0 c, path = p0 ++ [c] ∧ isChain f path ∧ ∀ y ∈ rest, y ∈ f c) →
       (dfsList univ r1.1 rest (r1.2.1 ++ visited) path).2.2 ≠ [] →
       ∃ x m, reachN f x (m + 1) x) →
      (∀ s, lookupD adj s = f s) →
      (∃ p0 c, path = p0 ++ [c] ∧ isChain f path ∧ ∀ y ∈ n :: rest, y ∈ f c) →
      (dfsList univ adj (n :: rest) visited path).2.2 ≠ [] →
      ∃ x m, reachN f x (m + 1) x := by
    intro adj visited path n rest hn ih1 ih2 hL hpre hne
    rcases hpre with ⟨p0, c, hpc, hch, hnbr⟩
    rw [dfsList, if_pos hn] at hne
    simp only [] at hne ih2
    have hsplit : (dfs univ adj n visited path).2.2 ≠ [] ∨
        (dfsList univ (dfs univ adj n visited path).1 rest
          ((dfs univ adj n visited path).2.1 ++ visited) path).2.2 ≠ [] := by
      by_contra hcon
      push_neg at hcon
      rw [hcon.1, hcon.2] at hne
      simp at hne
    rcases hsplit with hs | hs
    · apply ih1 hL ?_ hs
      have : isChain f ((p0 ++ [c]) ++ [n]) :=
        isChain_snoc f p0 c n (hpc ▸ hch) (hnbr n (by simp))
      rw [← hpc] at this
      exact this
    · apply ih2
      · intro s
        rw [(dfs_both_fst_lookup univ).1]
        exact hL s
      · exact ⟨p0, c, hpc, hch, fun y hy => hnbr y (by simp [hy])⟩
      · exact hs
  have case5 : ∀ (adj : AdjMap) (visited path : List String) (n : String)
      (rest : List String), ¬n ∉ visited → n ∈ path →
      ((∀ s, lookupD adj s = f s) →
        (∃ p0 c, path = p0 ++ [c] ∧ isChain f path ∧ ∀ y ∈ rest, y ∈ f c) →
        (dfsList univ adj rest visited path).2.2 ≠ [] →
        ∃ x m, reachN f x (m + 1) x) →
      (∀ s, lookupD adj s = f s) →
      (∃ p0 c, path = p0 ++ [c] ∧ isChain f path ∧ ∀ y ∈ n :: rest, y ∈ f c) →
      (dfsList univ adj (n :: rest) visited path).2.2 ≠ [] →
      ∃ x m, reachN f x (m + 1) x := by
    intro adj visited path n rest _ hp _ _ hpre _
    rcases hpre with ⟨p0, c, hpc, hch, hnbr⟩
    exact chain_mem_cycle f path n c p0 hch hp hpc (hnbr n (by simp))
  have case6 : ∀ (adj : AdjMap) (visited path : List String) (n : String)
      (rest : List String), ¬n ∉ visited → n ∉ path →
      ((∀ s, lookupD adj s = f s) →
        (∃ p0 c, path = p0 ++ [c] ∧ isChain f path ∧ ∀ y ∈ rest, y ∈ f c) →
        (dfsList univ adj rest visited path).2.2 ≠ [] →
        ∃ x m, reachN f x (m + 1) x) →
      (∀ s, lookupD adj s = f s) →
      (∃ p0 c, path = p0 ++ [c] ∧ isChain f path ∧ ∀ y ∈ n :: rest, y ∈ f c) →
      (dfsList univ adj (n :: rest) visited path).2.2 ≠ [] →
      ∃ x m, reachN f x (m + 1) x := by
    intro adj visited path n rest hn hp ih hL hpre hne
    rcases hpre with ⟨p0, c, hpc, hch, hnbr⟩
    rw [dfsList, if_neg hn, if_neg hp] at hne
    exact ih hL ⟨p0, c, hpc, hch, fun y hy => hnbr y (by simp [hy])⟩ hne
  exact ⟨fun adj node visited path =>
      dfs.induct univ
        (fun adj node visited path =>
          (∀ s, lookupD adj s = f s) → isChain f (path ++ [node]) →
          (dfs univ adj node visited path).2.2 ≠ [] →
          ∃ x m, reachN f x (m + 1) x)
        (fun adj nbrs visited path =>
          (∀ s, lookupD adj s = f s) →
          (∃ p0 c, path = p0 ++ [c] ∧ isChain f path ∧ ∀ n ∈ nbrs, n ∈ f c) →
          (dfsList univ adj nbrs visited path).2.2 ≠ [] →
          ∃ x m, reachN f x (m + 1) x)
        case1 case2 case3 case4 case5 case6 adj node visited path,
    fun adj nbrs visited path =>
      dfsList.induct univ
        (fun adj node visited path =>
          (∀ s, lookupD adj s = f s) → isChain f (path ++ [node]) →
          (dfs univ adj node visited path).2.2 ≠ [] →
          ∃ x m, reachN f x (m + 1) x)
        (fun adj nbrs visited path =>
          (∀ s, lookupD adj s = f s) →
          (∃ p0 c, path = p0 ++ [c] ∧ isChain f path ∧ ∀ n ∈ nbrs, n ∈ f c) →
          (dfsList univ adj nbrs visited path).2.2 ≠ [] →
          ∃ x m, reachN f x (m + 1) x)
        case1 case2 case3 case4 case5 case6 adj nbrs visited path⟩

/-- DFS completeness invariant bundle: the threaded dict looks up like `f`,
`ord` is a reverse finishing order, the visited set is exactly the nodes on
the path plus the finished ones, and finished nodes are never on the path. -/
def dfsInv (f : String → List String) (adj : AdjMap)
    (visited path ord : List String) : Prop :=
  (∀ s, lookupD adj s = f s) ∧ ordOK f ord ∧
  (∀ x, x ∈ visited ↔ (x ∈ path ∨ x ∈ ord)) ∧ (∀ x ∈ ord, x ∉ path)

/-- DFS completeness: a run that reports no cycle extends the finishing
order to one that covers everything it visited, in particular the node (or
neighbor list) it was started on. -/
theorem dfs_both_complete (univ : List String) (f : String → List String)
    (hU : ∀ s y, y ∈ f s → y ∈ univ) :
    (∀ adj node visited path, ∀ ord, dfsInv f adj visited path ord →
      node ∈ univ → node ∉ visited →
      (dfs univ adj node visited path).2.2 = [] →
      ∃ ord2, ordOK f ord2 ∧ (∀ x ∈ ord, x ∈ ord2) ∧
        (∀ x, x ∈ (dfs univ adj node visited path).2.1 ++ visited ↔
          (x ∈ path ∨ x ∈ ord2)) ∧
        (∀ x ∈ ord2, x ∉ path) ∧ node ∈ ord2) ∧
    (∀ adj nbrs visited path, ∀ ord, dfsInv f adj visited path ord →
      (∀ n ∈ nbrs, n ∈ univ) →
      (dfsList univ adj nbrs visited path).2.2 = [] →
      ∃ ord2, ordOK f ord2 ∧ (∀ x ∈ ord, x ∈ ord2) ∧
        (∀ x, x ∈ (dfsList univ adj nbrs visited path).2.1 ++ visited ↔
          (x ∈ path ∨ x ∈ ord2)) ∧
        (∀ x ∈ ord2, x ∉ path) ∧ (∀ n ∈ nbrs, n ∈ ord2)) := by
  have case1 : ∀ (adj : AdjMap) (node : String) (visited path : List String),
      node ∈ visited ∨ node ∉ univ →
      ∀ ord, dfsInv f adj visited path ord → node ∈ univ → node ∉ visited →
      (dfs univ adj node visited path).2.2 = [] →
      ∃ ord2, ordOK f ord2 ∧ (∀ x ∈ ord, x ∈ ord2) ∧
        (∀ x, x ∈ (dfs univ adj node visited path).2.1 ++ visited ↔
          (x ∈ path ∨ x ∈ ord2)) ∧
        (∀ x ∈ ord2, x ∉ path) ∧ node ∈ ord2 := by
    intro adj node visited path h ord _ hu hnv _
    rcases h with h | h
    · exact absurd h hnv
    · exact absurd hu h
  have case2 : ∀ (adj : AdjMap) (node : String) (visited path : List String),
      ¬(node ∈ visited ∨ node ∉ univ) →
      (let p := dGet adj node
       ∀ ord, dfsInv f p.1 (node :: visited) (path ++ [node]) ord →
       (∀ n ∈ p.2, n ∈ univ) →
       (dfsList univ p.1 p.2 (node :: visited) (path ++ [node])).2.2 = [] →
       ∃ ord2, ordOK f ord2 ∧ (∀ x ∈ ord, x ∈ ord2) ∧
         (∀ x, x ∈ (dfsList univ p.1 p.2 (node :: visited)
           (path ++ [node])).2.1 ++ (node :: visited) ↔
           (x ∈ path ++ [node] ∨ x ∈ ord2)) ∧
         (∀ x ∈ ord2, x ∉ path ++ [node]) ∧ (∀ n ∈ p.2, n ∈ ord2)) →
      ∀ ord, dfsInv f adj visited path ord → node ∈ univ → node ∉ visited →
      (dfs univ adj node visited path).2.2 = [] →
      ∃ ord2, ordOK f ord2 ∧ (∀ x ∈ ord, x ∈ ord2) ∧
        (∀ x, x ∈ (dfs univ adj node visited path).2.1 ++ visited ↔
          (x ∈ path ∨ x ∈ ord2)) ∧
        (∀ x ∈ ord2, x ∉ path) ∧ node ∈ ord2 := by
    intro adj node visited path h ih ord hP hu hnv hcy
    rcases hP with ⟨hL, hord, hV, hD⟩
    rw [dfs, dif_neg h] at hcy ⊢
    simp only [] at ih hcy ⊢
    have hvals : (dGet adj node).2 = f node := by
      rw [dGet_snd, hL node]
    have hnodepath : node ∉ path := fun hc => hnv ((hV node).mpr (Or.inl hc))
    rcases ih ord
      ⟨fun s => by rw [dGet_fst_lookup]; exact hL s, hord,
       fun x => by
         constructor
         · intro hx
           rcases List.mem_cons.mp hx with rfl | hx
           · exact Or.inl (by simp)
           · rcases (hV x).mp hx with hx | hx
             · exact Or.inl (by simp [hx])
             · exact Or.inr hx
         · intro hx
           rcases hx with hx | hx
           · rcases List.mem_append.mp hx with hx | hx
             · exact List.mem_cons_of_mem _ ((hV x).mpr (Or.inl hx))
             · simp at hx
               simp [hx]
           · exact List.mem_cons_of_mem _ ((hV x).mpr (Or.inr hx)),
       fun x hx => by
         intro hc
         rcases List.mem_append.mp hc with hc | hc
         · exact hD x hx hc
         · simp at hc
           subst hc
           exact hnv ((hV x).mpr (Or.inr hx))⟩
      (fun n hn => hU node n (hvals ▸ hn)) hcy with
      ⟨ord2, hord2, hsub2, hV2, hD2, hnb2⟩
    refine ⟨node :: ord2, ?_, ?_, ?_, ?_, by simp⟩
    · refine ⟨?_, ?_, hord2⟩
      · intro hc
        exact hD2 node hc (by simp)
      · intro y hy
        exact hnb2 y (hvals ▸ hy)
    · intro x hx
      exact List.mem_cons_of_mem _ (hsub2 x hx)
    · intro x
      constructor
      · intro hx
        have hx2 : x ∈ (dfsList univ (dGet adj node).1 (dGet adj node).2
            (node :: visited) (path ++ [node])).2.1 ++ (node :: visited) := by
          rcases List.mem_append.mp hx with hx | hx
          · rcases List.mem_append.mp hx with hx | hx
            · exact List.mem_append_left _ hx
            · simp at hx
              simp [hx]
          · exact List.mem_append_right _ (List.mem_cons_of_mem _ hx)
        rcases (hV2 x).mp hx2 with hx3 | hx3
        · rcases List.mem_append.mp hx3 with hx3 | hx3
          · exact Or.inl hx3
          · simp at hx3
            exact Or.inr (by simp [hx3])
        · exact Or.inr (List.mem_cons_of_mem _ hx3)
      · intro hx
        have hx2 : x ∈ path ++ [node] ∨ x ∈ ord2 := by
          rcases hx with hx | hx
          · exact Or.inl (List.mem_append_left _ hx)
          · rcases List.mem_cons.mp hx with rfl | hx
            · exact Or.inl (by simp)
            · exact Or.inr hx
        have hx3 := (hV2 x).mpr hx2
        rcases List.mem_append.mp hx3 with hx3 | hx3
        · exact List.mem_append_left _ (List.mem_append_left _ hx3)
        · rcases List.mem_cons.mp hx3 with rfl | hx3
          · exact List.mem_append_left _ (List.mem_append_right _ (by simp))
          · exact List.mem_append_right _ hx3
    · intro x hx
      rcases List.mem_cons.mp hx with rfl | hx
      · exact hnodepath
      · intro hc
        exact hD2 x hx (List.mem_append_left _ hc)
  have case3 : ∀ (adj : AdjMap) (visited path : List String),
      ∀ ord, dfsInv f adj visited path ord →
      (∀ n ∈ ([] : List String), n ∈ univ) →
      (dfsList univ adj [] visited path).2.2 = [] →
      ∃ ord2, ordOK f ord2 ∧ (∀ x ∈ ord, x ∈ ord2) ∧
        (∀ x, x ∈ (dfsList univ adj [] visited path).2.1 ++ visited ↔
          (x ∈ path ∨ x ∈ ord2)) ∧
        (∀ x ∈ ord2, x ∉ path) ∧ (∀ n ∈ ([] : List String), n ∈ ord2) := by
    intro adj visited path ord hP _ _
    rcases hP with ⟨_, hord, hV, hD⟩
    refine ⟨ord, hord, fun x hx => hx, ?_, hD, by simp⟩
    intro x
    rw [dfsList]
    simpa using hV x
  have case4 : ∀ (adj : AdjMap) (visited path : List String) (n : String)
      (rest : List String), n ∉ visited →
      (∀ ord, dfsInv f adj visited path ord → n ∈ univ → n ∉ visited →
        (dfs univ adj n visited path).2.2 = [] →
        ∃ ord2, ordOK f ord2 ∧ (∀ x ∈ ord, x ∈ ord2) ∧
          (∀ x, x ∈ (dfs univ adj n visited path).2.1 ++ visited ↔
            (x ∈ path ∨ x ∈ ord2)) ∧
          (∀ x ∈ ord2, x ∉ path) ∧ n ∈ ord2) →
      (let r1 := dfs univ adj n visited path
       ∀ ord, dfsInv f r1.1 (r1.2.1 ++ visited) path ord →
       (∀ y ∈ rest, y ∈ univ) →
       (dfsList univ r1.1 rest (r1.2.1 ++ visited) path).2.2 = [] →
       ∃ ord2, ordOK f ord2 ∧ (∀ x ∈ ord, x ∈ ord2) ∧
         (∀ x, x ∈ (dfsList univ r1.1 rest
           (r1.2.1 ++ visited) path).2.1 ++ (r1.2.1 ++ visited) ↔
           (x ∈ path ∨ x ∈ ord2)) ∧
         (∀ x ∈ ord2, x ∉ path) ∧ (∀ y ∈ rest, y ∈ ord2)) →
      ∀ ord, dfsInv f adj visited path ord → (∀ y ∈ n :: rest, y ∈ univ) →
      (dfsList univ adj (n :: rest) visited path).2.2 = [] →
      ∃ ord2, ordOK f ord2 ∧ (∀ x ∈ ord, x ∈ ord2) ∧
        (∀ x, x ∈ (dfsList univ adj (n :: rest) visited path).2.1 ++ visited
          ↔ (x ∈ path ∨ x ∈ ord2)) ∧
        (∀ x ∈ ord2, x ∉ path) ∧ (∀ y ∈ n :: rest, y ∈ ord2) := by
    intro adj visited path n rest hn ih1 ih2 ord hP hnU hcy
    rw [dfsList, if_pos hn] at hcy ⊢
    simp only [] at ih2 hcy ⊢
    rcases List.append_eq_nil.mp hcy with ⟨hc1, hc2⟩
    rcases ih1 ord hP (hnU n (by simp)) hn hc1 with
      ⟨ord1, hord1, hsub1, hV1, hD1, hmem1⟩
    rcases ih2 ord1
      ⟨fun s => by
         rw [(dfs_both_fst_lookup univ).1]
         exact hP.1 s,
       hord1, hV1, hD1⟩
      (fun y hy => hnU y (by simp [hy])) hc2 with
      ⟨ord2, hord2, hsub2, hV2, hD2, hnb2⟩
    refine ⟨ord2, hord2, fun x hx => hsub2 x (hsub1 x hx), ?_, hD2, ?_⟩
    · intro x
      rw [← hV2 x]
      constructor
      · intro hx
        rcases List.mem_append.mp hx with hx | hx
        · rcases List.mem_append.mp hx with hx | hx
          · exact List.mem_append_left _ hx
          · exact List.mem_append_right _ (List.mem_append_left _ hx)
        · exact List.mem_append_right _ (List.mem_append_right _ hx)
      · intro hx
        rcases List.mem_append.mp hx with hx | hx
        · exact List.mem_append_left _ (List.mem_append_left _ hx)
        · rcases List.mem_append.mp hx with hx | hx
          · exact List.mem_append_left _ (List.mem_append_right _ hx)
          · exact List.mem_append_right _ hx
    · intro y hy
      rcases List.mem_cons.mp hy with rfl | hy
      · exact hsub2 y hmem1
      · exact hnb2 y hy
  have case5 : ∀ (adj : AdjMap) (visited path : List String) (n : String)
      (rest : List String), ¬n ∉ visited → n ∈ path →
      (∀ ord, dfsInv f adj visited path ord → (∀ y ∈ rest, y ∈ univ) →
        (dfsList univ adj rest visited path).2.2 = [] →
        ∃ ord2, ordOK f ord2 ∧ (∀ x ∈ ord, x ∈ ord2) ∧
          (∀ x, x ∈ (dfsList univ adj rest visited path).2.1 ++ visited ↔
            (x ∈ path ∨ x ∈ ord2)) ∧
          (∀ x ∈ ord2, x ∉ path) ∧ (∀ y ∈ rest, y ∈ ord2)) →
      ∀ ord, dfsInv f adj visited path ord → (∀ y ∈ n :: rest, y ∈ univ) →
      (dfsList univ adj (n :: rest) visited path).2.2 = [] →
      ∃ ord2, ordOK f ord2 ∧ (∀ x ∈ ord, x ∈ ord2) ∧
        (∀ x, x ∈ (dfsList univ adj (n :: rest) visited path).2.1 ++ visited
          ↔ (x ∈ path ∨ x ∈ ord2)) ∧
        (∀ x ∈ ord2, x ∉ path) ∧ (∀ y ∈ n :: rest, y ∈ ord2) := by
    intro adj visited path n rest hnv hp _ ord _ _ hcy
    rw [dfsList, if_neg hnv, if_pos hp] at hcy
    simp at hcy
  have case6 : ∀ (adj : AdjMap) (visited path : List String) (n : String)
      (rest : List String), ¬n ∉ visited → n ∉ path →
      (∀ ord, dfsInv f adj visited path ord → (∀ y ∈ rest, y ∈ univ) →
        (dfsList univ adj rest visited path).2.2 = [] →
        ∃ ord2, ordOK f ord2 ∧ (∀ x ∈ ord, x ∈ ord2) ∧
          (∀ x, x ∈ (dfsList univ adj rest visited path).2.1 ++ visited ↔
            (x ∈ path ∨ x ∈ ord2)) ∧
          (∀ x ∈ ord2, x ∉ path) ∧ (∀ y ∈ rest, y ∈ ord2)) →
      ∀ ord, dfsInv f adj visited path ord → (∀ y ∈ n :: rest, y ∈ univ) →
      (dfsList univ adj (n :: rest) visited path).2.2 = [] →
      ∃ ord2, ordOK f ord2 ∧ (∀ x ∈ ord, x ∈ ord2) ∧
        (∀ x, x ∈ (dfsList univ adj (n :: rest) visited path).2.1 ++ visited
          ↔ (x ∈ path ∨ x ∈ ord2)) ∧
        (∀ x ∈ ord2, x ∉ path) ∧ (∀ y ∈ n :: rest, y ∈ ord2) := by
    intro adj visited path n rest hnv hp ih ord hP hnU hcy
    have hnvis : n ∈ visited := by
      by_contra hc
      exact hnv hc
    have hnord : n ∈ ord := by
      rcases (hP.2.2.1 n).mp hnvis with hx | hx
      · exact absurd hx hp
      · exact hx
    rw [dfsList, if_neg hnv, if_neg hp] at hcy ⊢
    rcases ih ord hP (fun y hy => hnU y (by simp [hy])) hcy with
      ⟨ord2, hord2, hsub2, hV2, hD2, hnb2⟩
    refine ⟨ord2, hord2, hsub2, hV2, hD2, ?_⟩
    intro y hy
    rcases List.mem_cons.mp hy with rfl | hy
    · exact hsub2 y hnord
    · exact hnb2 y hy
  exact ⟨fun adj node visited path =>
      dfs.induct univ
        (fun adj node visited path =>
          ∀ ord, dfsInv f adj visited path ord → node ∈ univ →
          node ∉ visited → (dfs univ adj node visited path).2.2 = [] →
          ∃ ord2, ordOK f ord2 ∧ (∀ x ∈ ord, x ∈ ord2) ∧
            (∀ x, x ∈ (dfs univ adj node visited path).2.1 ++ visited ↔
              (x ∈ path ∨ x ∈ ord2)) ∧
            (∀ x ∈ ord2, x ∉ path) ∧ node ∈ ord2)
        (fun adj nbrs visited path =>
          ∀ ord, dfsInv f adj visited path ord → (∀ n ∈ nbrs, n ∈ univ) →
          (dfsList univ adj nbrs visited path).2.2 = [] →
          ∃ ord2, ordOK f ord2 ∧ (∀ x ∈ ord, x ∈ ord2) ∧
            (∀ x, x ∈ (dfsList univ adj nbrs visited path).2.1 ++ visited ↔
              (x ∈ path ∨ x ∈ ord2)) ∧
            (∀ x ∈ ord2, x ∉ path) ∧ (∀ n ∈ nbrs, n ∈ ord2))
        case1 case2 case3 case4 case5 case6 adj node visited path,
    fun adj nbrs visited path =>
      dfsList.induct univ
        (fun adj node visited path =>
          ∀ ord, dfsInv f adj visited path ord → node ∈ univ →
          node ∉ visited → (dfs univ adj node visited path).2.2 = [] →
          ∃ ord2, ordOK f ord2 ∧ (∀ x ∈ ord, x ∈ ord2) ∧
            (∀ x, x ∈ (dfs univ adj node visited path).2.1 ++ visited ↔
              (x ∈ path ∨ x ∈ ord2)) ∧
            (∀ x ∈ ord2, x ∉ path) ∧ node ∈ ord2)
        (fun adj nbrs visited path =>
          ∀ ord, dfsInv f adj visited path ord → (∀ n ∈ nbrs, n ∈ univ) →
          (dfsList univ adj nbrs visited path).2.2 = [] →
          ∃ ord2, ordOK f ord2 ∧ (∀ x ∈ ord, x ∈ ord2) ∧
            (∀ x, x ∈ (dfsList univ adj nbrs visited path).2.1 ++ visited ↔
              (x ∈ path ∨ x ∈ ord2)) ∧
            (∀ x ∈ ord2, x ∉ path) ∧ (∀ n ∈ nbrs, n ∈ ord2))
        case1 case2 case3 case4 case5 case6 adj nbrs visited path⟩

theorem findCyclesLoop_cycles_prefix (univ : List String) (ids : List String) :
    ∀ adj visited cycles, ∃ ext,
      (findCyclesLoop univ adj ids visited cycles).2.2 = cycles ++ ext := by
  induction ids with
  | nil =>
    intro adj visited cycles
    exact ⟨[], by rw [findCyclesLoop]; simp⟩
  | cons id rest ih =>
    intro adj visited cycles
    rw [findCyclesLoop]
    by_cases hid : id ∉ visited
    · rw [if_pos hid]
      simp only []
      rcases ih (dfs univ adj id visited []).1
        ((dfs univ adj id visited []).2.1 ++ visited)
        (cycles ++ (dfs univ adj id visited []).2.2) with ⟨ext, hext⟩
      exact ⟨(dfs univ adj id visited []).2.2 ++ ext, by
        rw [hext, List.append_assoc]⟩
    · rw [if_neg hid]
      exact ih adj visited cycles

theorem findCyclesLoop_sound (univ : List String)
    (f : String → List String) (ids : List String) :
    ∀ adj visited cycles, (∀ s, lookupD adj s = f s) → cycles = [] →
      (findCyclesLoop univ adj ids visited cycles).2.2 ≠ [] →
      ∃ x m, reachN f x (m + 1) x := by
  induction ids with
  | nil =>
    intro adj visited cycles hL hc hne
    rw [findCyclesLoop] at hne
    exact absurd hc hne
  | cons id rest ih =>
    intro adj visited cycles hL hc hne
    subst hc
    rw [findCyclesLoop] at hne
    by_cases hid : id ∉ visited
    · rw [if_pos hid] at hne
      simp only [] at hne
      by_cases hdc : (dfs univ adj id visited []).2.2 = []
      · rw [hdc] at hne
        exact ih (dfs univ adj id visited []).1
          ((dfs univ adj id visited []).2.1 ++ visited) [] (fun s => by
            rw [(dfs_both_fst_lookup univ).1]
            exact hL s) rfl (by simpa using hne)
      · exact (dfs_both_sound univ f).1 adj id visited [] hL
          (by simp [isChain]) hdc
    · rw [if_neg hid] at hne
      exact ih adj visited [] hL rfl hne

theorem findCyclesLoop_complete (univ : List String)
    (f : String → List String) (hU : ∀ s y, y ∈ f s → y ∈ univ)
    (ids : List String) :
    ∀ adj visited cycles ord, (∀ s, lookupD adj s = f s) → ordOK f ord →
      (∀ x, x ∈ visited ↔ x ∈ ord) → (∀ id ∈ ids, id ∈ univ) →
      (findCyclesLoop univ adj ids visited cycles).2.2 = [] →
      ∃ ord2, ordOK f ord2 ∧ (∀ x ∈ ord, x ∈ ord2) ∧
        (∀ id ∈ ids, id ∈ ord2) := by
  induction ids with
  | nil =>
    intro adj visited cycles ord _ hord _ _ _
    exact ⟨ord, hord, fun x hx => hx, by simp⟩
  | cons id rest ih =>
    intro adj visited cycles ord hL hord hV hidsU hcy
    rw [findCyclesLoop] at hcy
    by_cases hid : id ∉ visited
    · rw [if_pos hid] at hcy
      simp only [] at hcy
      have hdfscy : (dfs univ adj id visited []).2.2 = [] := by
        rcases findCyclesLoop_cycles_prefix univ rest
          (dfs univ adj id visited []).1
          ((dfs univ adj id visited []).2.1 ++ visited)
          (cycles ++ (dfs univ adj id visited []).2.2) with ⟨ext, hext⟩
        rw [hext] at hcy
        rcases List.append_eq_nil.mp hcy with ⟨h1, _⟩
        exact (List.append_eq_nil.mp h1).2
      rcases (dfs_both_complete univ f hU).1 adj id visited [] ord
        ⟨hL, hord, fun x => by simpa using hV x, fun x _ => by simp⟩
        (hidsU id (by simp)) hid hdfscy with
        ⟨ord1, hord1, hsub1, hV1, _, hmem1⟩
      rcases ih (dfs univ adj id visited []).1
        ((dfs univ adj id visited []).2.1 ++ visited)
        (cycles ++ (dfs univ adj id visited []).2.2) ord1
        (fun s => by
          rw [(dfs_both_fst_lookup univ).1]
          exact hL s)
        hord1
        (fun x => by simpa using hV1 x)
        (fun y hy => hidsU y (by simp [hy])) hcy with
        ⟨ord2, hord2, hsub2, hrest2⟩
      refine ⟨ord2, hord2, fun x hx => hsub2 x (hsub1 x hx), ?_⟩
      intro y hy
      rcases List.mem_cons.mp hy with rfl | hy
      · exact hsub2 y hmem1
      · exact hrest2 y hy
    · rw [if_neg hid] at hcy
      have hidvis : id ∈ visited := by
        by_contra hc
        exact hid hc
      rcases ih adj visited cycles ord hL hord hV
        (fun y hy => hidsU y (by simp [hy])) hcy with
        ⟨ord2, hord2, hsub2, hrest2⟩
      refine ⟨ord2, hord2, hsub2, ?_⟩
      intro y hy
      rcases List.mem_cons.mp hy with rfl | hy
      · exact hsub2 y ((hV y).mp hidvis)
      · exact hrest2 y hy

theorem lookupD_mem_flatten (d : AdjMap) (s y : String)
    (h : y ∈ lookupD d s) : y ∈ (d.map (fun p => p.2)).flatten := by
  unfold lookupD at h
  cases hf : d.find? (fun p => p.1 == s) with
  | none => rw [hf] at h; simp at h
  | some p =>
    rw [hf] at h
    have hp : p ∈ d := List.mem_of_find?_eq_some hf
    rw [List.mem_flatten]
    exact ⟨p.2, List.mem_map.mpr ⟨p, hp, rfl⟩, h⟩

theorem dfsUniv_adj (g : Graph) :
    ∀ s y, y ∈ lookupD g._adjacency s → y ∈ dfsUniv g := by
  intro s y hy
  unfold dfsUniv
  exact List.mem_append_right _ (lookupD_mem_flatten _ _ _ hy)

theorem nodeKeys_mem_dfsUniv (g : Graph) (id : String)
    (h : id ∈ nodeKeys g) : id ∈ dfsUniv g := by
  unfold dfsUniv
  exact List.mem_append_left _ h

/-- If `find_cycles` reports no cycle, everything in `nodes` fits into a
reverse finishing order of the forward index. -/
theorem find_cycles_empty_ord (g : Graph)
    (h : (find_cycles g).2 = []) :
    ∃ ord, ordOK (adjFun g) ord ∧ ∀ id ∈ nodeKeys g, id ∈ ord := by
  unfold find_cycles at h
  simp only [] at h
  rcases findCyclesLoop_complete (dfsUniv g) (adjFun g) (dfsUniv_adj g)
    (nodeKeys g) g._adjacency [] [] [] (fun s => rfl) trivial
    (by simp) (fun id hid => nodeKeys_mem_dfsUniv g id hid) h with
    ⟨ord, hord, _, hids⟩
  exact ⟨ord, hord, hids⟩

/-- If `find_cycles` reports anything, a real directed cycle exists. -/
theorem find_cycles_nonempty_cycle (g : Graph)
    (h : (find_cycles g).2 ≠ []) :
    ∃ x m, reachN (adjFun g) x (m + 1) x := by
  unfold find_cycles at h
  simp only [] at h
  exact findCyclesLoop_sound (dfsUniv g) (adjFun g) (nodeKeys g)
    g._adjacency [] [] (fun s => rfl) rfl h

/-- On an invariant-satisfying graph, `find_cycles` returns the empty list
exactly when the graph is acyclic. -/
theorem find_cycles_empty_iff_acyclic (g : Graph) (hi : GraphInv g) :
    (find_cycles g).2 = [] ↔ Acyclic g := by
  constructor
  · intro h x n hr
    rcases find_cycles_empty_ord g h with ⟨ord, hord, hcov⟩
    have hx : x ∈ nodeKeys g := by
      rw [reachN] at hr
      rcases hr with ⟨w, _, hx⟩
      have := (hi.adjIff w x).mp hx
      rcases this with ⟨e, he, _, het⟩
      have := hi.edgeTgtMem e he
      rw [containsKey_iff] at this
      rw [← het]
      exact this
    exact ordOK_no_cycle (adjFun g) ord hord x (hcov x hx) n hr
  · intro hac
    by_contra hne
    rcases find_cycles_nonempty_cycle g hne with ⟨x, m, hr⟩
    exact hac x m hr

/-! ## Kahn loop invariants -/

theorem closure_all_mem (N R : List String) (f rf : String → List String)
    (hdual : ∀ u v, u ∈ f v ↔ v ∈ rf u)
    (hpN : ∀ u p, p ∈ rf u → p ∈ N)
    (hac : ∀ x n, ¬ reachN f x (n + 1) x)
    (hclo : ∀ u ∈ N, u ∉ R → ∃ p ∈ rf u, p ∉ R) :
    ∀ u ∈ N, u ∈ R := by
  haveI hfin : Finite {x : String // x ∈ N} := by
    have h1 := N.finite_toSet
    exact h1.to_subtype
  have htg : ∀ a b, Relation.TransGen (fun p u : {x : String // x ∈ N} =>
      p.1 ∈ rf u.1) a b → ∃ n, reachN f a.1 (n + 1) b.1 := by
    intro a b h
    induction h with
    | single hr =>
      rename_i c
      exact ⟨0, a.1, rfl, (hdual c.1 a.1).mpr hr⟩
    | tail hab hbc ih =>
      rename_i b2 c2
      rcases ih with ⟨n, hwalk⟩
      exact ⟨n + 1, b2.1, hwalk, (hdual c2.1 b2.1).mpr hbc⟩
  haveI : IsTrans {x : String // x ∈ N}
      (Relation.TransGen (fun p u : {x : String // x ∈ N} =>
        p.1 ∈ rf u.1)) :=
    ⟨fun _ _ _ hab hbc => Relation.TransGen.trans hab hbc⟩
  haveI : IsIrrefl {x : String // x ∈ N}
      (Relation.TransGen (fun p u : {x : String // x ∈ N} =>
        p.1 ∈ rf u.1)) :=
    ⟨fun a h => by
      rcases htg a a h with ⟨n, hr⟩
      exact hac a.1 n hr⟩
  have hwf : WellFounded (Relation.TransGen
      (fun p u : {x : String // x ∈ N} => p.1 ∈ rf u.1)) :=
    Finite.wellFounded_of_trans_of_irrefl _
  have hwf2 : WellFounded (fun p u : {x : String // x ∈ N} =>
      p.1 ∈ rf u.1) :=
    Subrelation.wf (fun h => Relation.TransGen.single h) hwf
  intro u hu
  have hall : ∀ a : {x : String // x ∈ N}, a.1 ∈ R := by
    intro a
    refine @WellFounded.induction _ _ hwf2 (fun a => a.1 ∈ R) a ?_
    intro x ih
    by_contra hxr
    rcases hclo x.1 x.2 hxr with ⟨p, hp, hpr⟩
    exact hpr (ih ⟨p, hpN x.1 p hp⟩ hp)
  exact hall ⟨u, hu⟩

theorem lookupInd_cons (p : String × Int) (rest : List (String × Int))
    (u : String) :
    lookupInd (p :: rest) u =
      if p.1 = u then some p.2 else lookupInd rest u := by
  unfold lookupInd
  rw [List.find?_cons]
  by_cases h : p.1 = u
  · have hb : (p.1 == u) = true := by simp [h]
    rw [hb]
    simp [h]
  · have hb : (p.1 == u) = false := by simp [h]
    rw [hb]
    rw [if_neg h]

theorem lookupInd_decKey (ind : List (String × Int)) (n u : String) :
    lookupInd (decKey ind n) u =
      if u = n then (lookupInd ind u).map (fun v => v - 1)
      else lookupInd ind u := by
  induction ind with
  | nil => by_cases h : u = n <;> simp [decKey, lookupInd, h]
  | cons p rest ih =>
    rw [show decKey (p :: rest) n =
      (if p.1 == n then (p.1, p.2 - 1) else p) :: decKey rest n from rfl]
    by_cases hpn : p.1 = n
    · rw [if_pos (show (p.1 == n) = true by simp [hpn])]
      rw [lookupInd_cons, lookupInd_cons]
      dsimp only
      by_cases hpu : p.1 = u
      · have hun : u = n := by rw [← hpu, hpn]
        rw [if_pos hpu, if_pos hpu, if_pos hun]
        rfl
      · rw [if_neg hpu, if_neg hpu, ih]
    · rw [if_neg (show ¬((p.1 == n) = true) by simp [hpn])]
      rw [lookupInd_cons, lookupInd_cons]
      by_cases hpu : p.1 = u
      · have hun : ¬(u = n) := by rw [← hpu]; exact hpn
        rw [if_pos hpu, if_neg hun, if_pos hpu]
      · rw [if_neg hpu, if_neg hpu, ih]

theorem kahnNbrs_ind_spec (nbrs : List String) (hnd : nbrs.Nodup) :
    ∀ ind queue u,
      lookupInd (kahnNbrs ind queue nbrs).1 u =
        if u ∈ nbrs then (lookupInd ind u).map (fun v => v - 1)
        else lookupInd ind u := by
  induction nbrs with
  | nil => intro ind queue u; simp [kahnNbrs]
  | cons n rest ih =>
    intro ind queue u
    rw [kahnNbrs]
    rcases List.nodup_cons.mp hnd with ⟨hnr, hrest⟩
    rw [ih hrest]
    by_cases hur : u ∈ rest
    · have hun : ¬(u = n) := fun hc => hnr (hc ▸ hur)
      rw [if_pos hur, if_pos (by simp [hur]), lookupInd_decKey,
        if_neg hun]
    · rw [if_neg hur, lookupInd_decKey]
      by_cases hun : u = n
      · rw [if_pos hun, if_pos (by simp [hun])]
      · rw [if_neg hun, if_neg (by simp [hun, hur])]

theorem kahnNbrs_queue_spec (nbrs : List String) (hnd : nbrs.Nodup) :
    ∀ ind queue,
      (kahnNbrs ind queue nbrs).2 =
        queue ++ nbrs.filter (fun n => decide (lookupInd ind n = some 1)) := by
  induction nbrs with
  | nil => intro ind queue; simp [kahnNbrs]
  | cons n rest ih =>
    intro ind queue
    rw [kahnNbrs]
    rcases List.nodup_cons.mp hnd with ⟨hnr, hrest⟩
    rw [ih hrest]
    have hdk : lookupInd (decKey ind n) n =
        (lookupInd ind n).map (fun v => v - 1) := by
      rw [lookupInd_decKey, if_pos rfl]
    have hiff : (lookupInd (decKey ind n) n = some 0) ↔
        (lookupInd ind n = some 1) := by
      rw [hdk]
      cases lookupInd ind n with
      | none => simp
      | some v =>
        simp only [Option.map_some']
        constructor
        · intro h
          have := Option.some.inj h
          have : v = 1 := by omega
          rw [this]
        · intro h
          have := Option.some.inj h
          rw [this]
          rfl
    have hfr : rest.filter
        (fun m => decide (lookupInd (decKey ind n) m = some 1)) =
        rest.filter (fun m => decide (lookupInd ind m = some 1)) := by
      apply List.filter_congr
      intro m hm
      have hmn : ¬(m = n) := fun hc => hnr (hc ▸ hm)
      rw [lookupInd_decKey, if_neg hmn]
    rw [hfr]
    by_cases hq : lookupInd ind n = some 1
    · rw [if_pos (hiff.mpr hq), List.filter_cons, if_pos (by simp [hq])]
      rw [List.append_assoc]
      rfl
    · rw [if_neg (fun hc => hq (hiff.mp hc)), List.filter_cons,
        if_neg (by simp [hq])]

/-- `len(rf u)` minus the number of already-emitted predecessors: the value
Kahn's in-degree dict holds for `u`. -/
def indSpec (rf : String → List String) (result : List String)
    (u : String) : Int :=
  (((rf u).length : Int)) -
    ((((rf u).filter (fun v => decide (v ∈ result))).length : Int))

theorem filter_mem_snoc (R : List String) (a : String) :
    ∀ l : List String, l.Nodup → a ∉ R →
      (l.filter (fun v => decide (v ∈ R ++ [a]))).length =
        (l.filter (fun v => decide (v ∈ R))).length +
          (if a ∈ l then 1 else 0) := by
  intro l
  induction l with
  | nil => intro _ _; simp
  | cons x rest ih =>
    intro hnd ha
    rcases List.nodup_cons.mp hnd with ⟨hxr, hrest⟩
    rw [List.filter_cons, List.filter_cons]
    by_cases hxa : x = a
    · subst hxa
      rw [if_pos (by simp), if_neg (by simp [ha]), if_pos (by simp)]
      simp only [List.length_cons]
      rw [ih hrest ha, if_neg hxr]
    · have hmemiff : (a ∈ x :: rest) ↔ a ∈ rest := by
        constructor
        · intro h
          rcases List.mem_cons.mp h with h | h
          · exact absurd h.symm hxa
          · exact h
        · exact List.mem_cons_of_mem _
      by_cases hxR : x ∈ R
      · rw [if_pos (by simp [hxR]), if_pos (by simp [hxR])]
        simp only [List.length_cons]
        rw [ih hrest ha, if_congr hmemiff rfl rfl]
        omega
      · have hnot : ¬(x ∈ R ++ [a]) := by
          simp [hxR, hxa]
        rw [if_neg (by simpa using hnot), if_neg (by simp [hxR])]
        rw [ih hrest ha, if_congr hmemiff rfl rfl]

theorem indSpec_snoc (rf : String → List String) (result : List String)
    (node u : String) (hnd : (rf u).Nodup) (hnr : node ∉ result) :
    indSpec rf (result ++ [node]) u =
      indSpec rf result u - (if node ∈ rf u then 1 else 0) := by
  unfold indSpec
  rw [filter_mem_snoc result node (rf u) hnd hnr]
  by_cases h : node ∈ rf u
  · rw [if_pos h, if_pos h]
    push_cast
    ring
  · rw [if_neg h, if_neg h]
    push_cast
    ring

theorem exists_not_mem_of_filter_lt (l R : List String)
    (h : (l.filter (fun v => decide (v ∈ R))).length < l.length) :
    ∃ p ∈ l, p ∉ R := by
  by_contra hc
  push_neg at hc
  have : l.filter (fun v => decide (v ∈ R)) = l :=
    List.filter_eq_self.mpr (fun a ha => by simp [hc a ha])
  rw [this] at h
  exact Nat.lt_irrefl _ h

theorem indSpec_filter_le (rf : String → List String) (R : List String)
    (u : String) :
    ((rf u).filter (fun v => decide (v ∈ R))).length ≤ (rf u).length :=
  List.length_filter_le _ _

/-- The Kahn loop invariant: the emitted order stays duplicate free inside
the node set, and on termination any unemitted node still has an unemitted
predecessor. -/
theorem kahnLoop_spec (N : List String) (f rf : String → List String)
    (hdual : ∀ u v, u ∈ f v ↔ v ∈ rf u)
    (hfN : ∀ v y, y ∈ f v → y ∈ N)
    (hfnd : ∀ v, (f v).Nodup)
    (hrfnd : ∀ v, (rf v).Nodup)
    (hirr : ∀ v, v ∉ f v) :
    ∀ adj queue ind result,
      (∀ s, lookupD adj s = f s) →
      result.Nodup → (∀ x ∈ result, x ∈ N) →
      queue.Nodup → (∀ x ∈ queue, x ∈ N) → (∀ x ∈ queue, x ∉ result) →
      (∀ u, lookupInd ind u =
        if u ∈ N then some (indSpec rf result u) else none) →
      (∀ u ∈ N, (u ∈ queue ∨ u ∈ result) ↔ indSpec rf result u ≤ 0) →
      ((kahnLoop adj queue ind result).2.Nodup ∧
       (∀ x ∈ (kahnLoop adj queue ind result).2, x ∈ N) ∧
       (∀ x ∈ result, x ∈ (kahnLoop adj queue ind result).2) ∧
       (∀ u ∈ N, u ∉ (kahnLoop adj queue ind result).2 →
         ∃ p ∈ rf u, p ∉ (kahnLoop adj queue ind result).2)) := by
  intro adj queue ind result
  induction adj, queue, ind, result using kahnLoop.induct with
  | case1 adj ind result =>
    intro _ k1 k2 _ _ _ _ k5
    rw [kahnLoop]
    refine ⟨k1, k2, fun x hx => hx, ?_⟩
    intro u hu hur
    have hpos : ¬ (indSpec rf result u ≤ 0) := by
      intro hc
      rcases (k5 u hu).mpr hc with h | h
      · simp at h
      · exact hur h
    have hlt : (((rf u).filter (fun v => decide (v ∈ result))).length) <
        (rf u).length := by
      unfold indSpec at hpos
      have := indSpec_filter_le rf result u
      omega
    rcases exists_not_mem_of_filter_lt (rf u) result hlt with ⟨p, hp, hpR⟩
    exact ⟨p, hp, hpR⟩
  | case2 adj ind result node rest ih =>
    intro hL k1 k2 k3a k3b k3c k4 k5
    rw [kahnLoop]
    have hnodeN : node ∈ N := k3b node (by simp)
    have hnoderes : node ∉ result := k3c node (by simp)
    rcases List.nodup_cons.mp k3a with ⟨hnrest, hrestnd⟩
    have hnbrs : (dGet adj node).2 = f node := by
      rw [dGet_snd, hL node]
    have hnbrsnd : (dGet adj node).2.Nodup := by
      rw [hnbrs]; exact hfnd node
    have hqspec := kahnNbrs_queue_spec (dGet adj node).2 hnbrsnd ind rest
    have hispec := kahnNbrs_ind_spec (dGet adj node).2 hnbrsnd ind rest
    have hk4inv : ∀ m, lookupInd ind m = some 1 →
        m ∈ N ∧ indSpec rf result m = 1 := by
      intro m hm
      rcases hmn : decide (m ∈ N) with _ | _
      · rw [k4 m, if_neg (by simpa using hmn)] at hm
        exact absurd hm (by simp)
      · have hmN : m ∈ N := by simpa using hmn
        rw [k4 m, if_pos hmN] at hm
        exact ⟨hmN, Option.some.inj hm⟩
    have hpushfacts : ∀ m ∈ (dGet adj node).2.filter
        (fun n => decide (lookupInd ind n = some 1)),
        m ∈ N ∧ indSpec rf result m = 1 ∧ m ∈ f node := by
      intro m hm
      rw [List.mem_filter] at hm
      have h1 := hk4inv m (by simpa using hm.2)
      exact ⟨h1.1, h1.2, hnbrs ▸ hm.1⟩
    -- the eight premises for the recursive call
    have p1 : ∀ s, lookupD (dGet adj node).1 s = f s := by
      intro s
      rw [dGet_fst_lookup]
      exact hL s
    have p2 : (result ++ [node]).Nodup := by
      rw [List.nodup_append]
      exact ⟨k1, by simp, by
        intro x hx
        simp only [List.mem_singleton]
        intro hxy
        rw [hxy] at hx
        exact hnoderes hx⟩
    have p3 : ∀ x ∈ result ++ [node], x ∈ N := by
      intro x hx
      rcases List.mem_append.mp hx with hx | hx
      · exact k2 x hx
      · simp at hx
        rw [hx]
        exact hnodeN
    have p4 : (kahnNbrs ind rest (dGet adj node).2).2.Nodup := by
      rw [hqspec, List.nodup_append]
      refine ⟨hrestnd, List.Nodup.filter _ hnbrsnd, ?_⟩
      intro m hmrest
      rw [List.mem_filter]
      rintro ⟨_, hm1⟩
      have h1 := hk4inv m (by simpa using hm1)
      have := (k5 m h1.1).mp (Or.inl (by simp [hmrest]))
      omega
    have p5 : ∀ x ∈ (kahnNbrs ind rest (dGet adj node).2).2, x ∈ N := by
      rw [hqspec]
      intro x hx
      rcases List.mem_append.mp hx with hx | hx
      · exact k3b x (by simp [hx])
      · exact (hpushfacts x hx).1
    have p6 : ∀ x ∈ (kahnNbrs ind rest (dGet adj node).2).2,
        x ∉ result ++ [node] := by
      rw [hqspec]
      intro x hx hmem
      rcases List.mem_append.mp hmem with hm | hm
      · rcases List.mem_append.mp hx with hx | hx
        · exact k3c x (by simp [hx]) hm
        · have := (hpushfacts x hx).2.1
          have h0 := (k5 x (hpushfacts x hx).1).mp (Or.inr hm)
          omega
      · simp at hm
        subst hm
        rcases List.mem_append.mp hx with hx | hx
        · exact hnrest hx
        · exact hirr x ((hpushfacts x hx).2.2)
    have p7 : ∀ u, lookupInd (kahnNbrs ind rest (dGet adj node).2).1 u =
        if u ∈ N then some (indSpec rf (result ++ [node]) u) else none := by
      intro u
      rw [hispec]
      by_cases huN : u ∈ N
      · rw [if_pos huN]
        have hsnoc := indSpec_snoc rf result node u (hrfnd u) hnoderes
        by_cases hunb : u ∈ (dGet adj node).2
        · rw [if_pos hunb, k4 u, if_pos huN]
          have hedge : node ∈ rf u := (hdual u node).mp (hnbrs ▸ hunb)
          rw [hsnoc, if_pos hedge]
          rfl
        · rw [if_neg hunb, k4 u, if_pos huN]
          have hedge : node ∉ rf u := by
            intro hc
            exact hunb (hnbrs ▸ ((hdual u node).mpr hc))
          rw [hsnoc, if_neg hedge]
          simp
      · rw [if_neg huN]
        have hunb : u ∉ (dGet adj node).2 := by
          intro hc
          exact huN (hfN node u (hnbrs ▸ hc))
        rw [if_neg hunb, k4 u, if_neg huN]
    have p8 : ∀ u ∈ N, (u ∈ (kahnNbrs ind rest (dGet adj node).2).2 ∨
        u ∈ result ++ [node]) ↔ indSpec rf (result ++ [node]) u ≤ 0 := by
      intro u huN
      have hsnoc := indSpec_snoc rf result node u (hrfnd u) hnoderes
      rw [hqspec]
      constructor
      · intro hx
        rcases hx with hx | hx
        · rcases List.mem_append.mp hx with hx | hx
          · have := (k5 u huN).mp (Or.inl (by simp [hx]))
            rw [hsnoc]
            split <;> omega
          · have := (hpushfacts u hx).2.1
            have hedge : node ∈ rf u := (hdual u node).mp (hpushfacts u hx).2.2
            rw [hsnoc, if_pos hedge]
            omega
        · rcases List.mem_append.mp hx with hx | hx
          · have := (k5 u huN).mp (Or.inr hx)
            rw [hsnoc]
            split <;> omega
          · simp at hx
            subst hx
            have := (k5 u huN).mp (Or.inl (by simp))
            rw [hsnoc]
            split <;> omega
      · intro hle
        by_cases hold : indSpec rf result u ≤ 0
        · rcases (k5 u huN).mpr hold with hq | hr
          · rcases List.mem_cons.mp hq with rfl | hq
            · exact Or.inr (List.mem_append_right _ (by simp))
            · exact Or.inl (List.mem_append_left _ hq)
          · exact Or.inr (List.mem_append_left _ hr)
        · have hedge : node ∈ rf u := by
            by_contra hc
            rw [hsnoc, if_neg hc] at hle
            omega
          have hone : indSpec rf result u = 1 := by
            rw [hsnoc, if_pos hedge] at hle
            omega
          have hunb : u ∈ (dGet adj node).2 :=
            hnbrs ▸ ((hdual u node).mpr hedge)
          refine Or.inl (List.mem_append_right _ ?_)
          rw [List.mem_filter]
          refine ⟨hunb, ?_⟩
          rw [k4 u, if_pos huN, hone]
          simp
    rcases ih p1 p2 p3 p4 p5 p6 p7 p8 with ⟨c1, c2, c3, c4⟩
    refine ⟨c1, c2, ?_, c4⟩
    intro x hx
    exact c3 x (List.mem_append_left _ hx)

theorem buildInd_snd (rf : String → List String) (ids : List String) :
    ∀ radj, (∀ s, lookupD radj s = rf s) →
      (buildInd radj ids).2 =
        ids.map (fun id => (id, ((rf id).length : Int))) := by
  induction ids with
  | nil => intro radj _; rw [buildInd]; rfl
  | cons id rest ih =>
    intro radj hL
    rw [buildInd]
    simp only [List.map_cons]
    rw [ih (dGet radj id).1 (fun s => by rw [dGet_fst_lookup]; exact hL s)]
    rw [dGet_snd, hL id]

theorem lookupInd_keyMap (v : String → Int) (ids : List String) (u : String) :
    lookupInd (ids.map (fun id => (id, v id))) u =
      if u ∈ ids then some (v u) else none := by
  induction ids with
  | nil => simp [lookupInd]
  | cons id rest ih =>
    simp only [List.map_cons]
    rw [lookupInd_cons]
    by_cases hiu : id = u
    · subst hiu
      rw [if_pos rfl]
      rw [if_pos (by simp)]
    · rw [if_neg hiu, ih]
      by_cases hur : u ∈ rest
      · rw [if_pos hur, if_pos (by simp [hur])]
      · rw [if_neg hur, if_neg (by
          intro hc
          rcases List.mem_cons.mp hc with hc | hc
          · exact hiu hc.symm
          · exact hur hc)]

theorem queue0_keyMap (v : String → Int) (ids : List String) :
    (((ids.map (fun id => (id, v id))).filter
      (fun p => p.2 == 0)).map (fun p => p.1)) =
      ids.filter (fun id => v id == 0) := by
  induction ids with
  | nil => rfl
  | cons id rest ih =>
    simp only [List.map_cons, List.filter_cons]
    by_cases h : v id == 0
    · rw [if_pos (by simpa using h), if_pos h]
      simp only [List.map_cons]
      rw [ih]
    · rw [if_neg (by simpa using h), if_neg (by simpa using h)]
      exact ih

theorem indSpec_nil (rf : String → List String) (u : String) :
    indSpec rf [] u = ((rf u).length : Int) := by
  simp [indSpec]

/-! ## GraphInv corollaries for the Kahn hypotheses -/

theorem lookupD_nodup (d : AdjMap) (h : ∀ p ∈ d, p.2.Nodup) (v : String) :
    (lookupD d v).Nodup := by
  unfold lookupD
  cases hf : d.find? (fun p => p.1 == v) with
  | none => simp
  | some p => exact h p (List.mem_of_find?_eq_some hf)

theorem graphInv_dual (g : Graph) (hi : GraphInv g) :
    ∀ u v, u ∈ adjFun g v ↔ v ∈ radjFun g u := by
  intro u v
  unfold adjFun radjFun
  rw [hi.adjIff v u, hi.radjIff v u]

theorem graphInv_adj_tgt (g : Graph) (hi : GraphInv g) :
    ∀ v y, y ∈ adjFun g v → y ∈ nodeKeys g := by
  intro v y hy
  rcases (hi.adjIff v y).mp hy with ⟨e, he, _, het⟩
  have := hi.edgeTgtMem e he
  rw [containsKey_iff] at this
  rw [← het]
  exact this

theorem graphInv_radj_src (g : Graph) (hi : GraphInv g) :
    ∀ u p, p ∈ radjFun g u → p ∈ nodeKeys g := by
  intro u p hp
  rcases (hi.radjIff p u).mp hp with ⟨e, he, hes, _⟩
  have := hi.edgeSrcMem e he
  rw [containsKey_iff] at this
  rw [← hes]
  exact this

theorem graphInv_adj_irrefl (g : Graph) (hi : GraphInv g) :
    ∀ v, v ∉ adjFun g v := by
  intro v hv
  rcases (hi.adjIff v v).mp hv with ⟨e, he, hes, het⟩
  exact hi.noSelfLoop e he (by rw [hes, het])

theorem graphInv_adj_nodup (g : Graph) (hi : GraphInv g) :
    ∀ v, (adjFun g v).Nodup :=
  fun v => lookupD_nodup _ hi.adjValsNodup v

theorem graphInv_radj_nodup (g : Graph) (hi : GraphInv g) :
    ∀ v, (radjFun g v).Nodup :=
  fun v => lookupD_nodup _ hi.radjValsNodup v

/-- What `topological_sort` computes when `find_cycles` is quiet: the Kahn
result is duplicate free inside the node set, and under acyclicity covers
every node. -/
theorem topological_sort_kahn (g : Graph) (hi : GraphInv g)
    (hcy : (find_cycles g).2 = []) :
    ∃ R, (topological_sort g).2 =
        (if R.length = g.nodes.length then some R else none) ∧
      R.Nodup ∧ (∀ x ∈ R, x ∈ nodeKeys g) ∧
      (Acyclic g → ∀ u ∈ nodeKeys g, u ∈ R) := by
  have hframe := find_cycles_frame g
  have hkeys : nodeKeys (find_cycles g).1 = nodeKeys g := by
    unfold nodeKeys
    rw [hframe.1]
  have hradjL : ∀ s, lookupD (find_cycles g).1._reverse_adjacency s =
      radjFun g s := by
    intro s
    rw [hframe.2.2]
    rfl
  have hb := buildInd_snd (radjFun g) (nodeKeys g)
    (find_cycles g).1._reverse_adjacency hradjL
  unfold topological_sort
  simp only []
  rw [if_neg (by simp [hcy])]
  rw [hkeys]
  refine ⟨(kahnLoop (find_cycles g).1._adjacency
    (((buildInd (find_cycles g).1._reverse_adjacency
      (nodeKeys g)).2.filter (fun p => p.2 == 0)).map
      (fun p => p.1))
    (buildInd (find_cycles g).1._reverse_adjacency
      (nodeKeys g)).2 []).2, ?_, ?_⟩
  · rw [hframe.1]
  · have hq : (((buildInd (find_cycles g).1._reverse_adjacency
        (nodeKeys g)).2.filter (fun p => p.2 == 0)).map
        (fun p => p.1)) =
        (nodeKeys g).filter
          (fun id => ((radjFun g id).length : Int) == 0) := by
      rw [hb]
      exact queue0_keyMap _ _
    have hspec := kahnLoop_spec (nodeKeys g) (adjFun g) (radjFun g)
      (graphInv_dual g hi) (graphInv_adj_tgt g hi) (graphInv_adj_nodup g hi)
      (graphInv_radj_nodup g hi) (graphInv_adj_irrefl g hi)
      (find_cycles g).1._adjacency
      (((buildInd (find_cycles g).1._reverse_adjacency
        (nodeKeys g)).2.filter (fun p => p.2 == 0)).map
        (fun p => p.1))
      (buildInd (find_cycles g).1._reverse_adjacency
        (nodeKeys g)).2 []
      (fun s => find_cycles_lookup g s)
      (by simp)
      (by simp)
      (by
        rw [hq]
        exact List.Nodup.filter _ hi.nodesNodup)
      (by
        rw [hq]
        intro x hx
        exact List.mem_of_mem_filter hx)
      (by simp)
      (by
        intro u
        rw [hb, lookupInd_keyMap]
        by_cases huN : u ∈ nodeKeys g
        · rw [if_pos huN, if_pos huN, indSpec_nil]
        · rw [if_neg huN, if_neg huN])
      (by
        intro u huN
        rw [hq]
        constructor
        · rintro (hx | hx)
          · rw [indSpec_nil]
            have hx2 := (List.mem_filter.mp hx).2
            simp only [beq_iff_eq] at hx2
            rw [hx2]
          · simp at hx
        · intro hle
          rw [indSpec_nil] at hle
          refine Or.inl (List.mem_filter.mpr ⟨huN, ?_⟩)
          simp only [beq_iff_eq]
          omega)
    rcases hspec with ⟨c1, c2, _, c4⟩
    refine ⟨c1, c2, ?_⟩
    intro hac
    exact closure_all_mem (nodeKeys g) _ (adjFun g) (radjFun g)
      (graphInv_dual g hi) (graphInv_radj_src g hi) hac c4

/-- C1: for every graph built by add_node/add_edge calls, `find_cycles`
returns `[]` iff `topological_sort` returns a list that is a permutation of
exactly the graph's node ids, and whenever `find_cycles` is non-empty,
`topological_sort` returns `None`. -/
theorem c1_cycles_vs_toposort (g : Graph) (h : ReachableState g) :
    ((find_cycles g).2 = [] ↔
      ∃ l, (topological_sort g).2 = some l ∧ l.Perm (nodeKeys g)) ∧
    ((find_cycles g).2 ≠ [] → (topological_sort g).2 = none) := by
  have hi := graphInv_of_reachable g h
  have hnone : (find_cycles g).2 ≠ [] → (topological_sort g).2 = none := by
    intro hne
    unfold topological_sort
    simp only []
    rw [if_pos hne]
  refine ⟨⟨?_, ?_⟩, hnone⟩
  · intro hcy
    rcases topological_sort_kahn g hi hcy with ⟨R, hts, hnd, hsub, hall⟩
    have hac : Acyclic g := (find_cycles_empty_iff_acyclic g hi).mp hcy
    have hkn : (nodeKeys g).Nodup := hi.nodesNodup
    have hperm : R.Perm (nodeKeys g) :=
      (List.Nodup.subperm hnd hsub).antisymm
        (List.Nodup.subperm hkn (hall hac))
    refine ⟨R, ?_, hperm⟩
    rw [hts, if_pos]
    have := hperm.length_eq
    unfold nodeKeys at this
    rw [this, List.length_map]
  · intro hsome
    by_contra hne
    rcases hsome with ⟨l, hl, _⟩
    rw [hnone hne] at hl
    exact Option.noConfusion hl

theorem c1_witness :
    ReachableState gCycEx ∧
    (((find_cycles gCycEx).2 = [] ↔
        ∃ l, (topological_sort gCycEx).2 = some l ∧
          l.Perm (nodeKeys gCycEx)) ∧
      ((find_cycles gCycEx).2 ≠ [] → (topological_sort gCycEx).2 = none)) :=
  ⟨gCycEx_reachable, c1_cycles_vs_toposort gCycEx gCycEx_reachable⟩

/-! ## C8 -/

/-- The cycle example graph written as an explicit record, so that the
WF-recursive query functions can be evaluated on it by their equations. -/
def gCycExplicit : Graph :=
  Graph.mk [("a", exNa), ("b", exNb), ("c", exNc)] [exEab, exEbc, exEca]
    [("a", ["b"]), ("b", ["c"]), ("c", ["a"])]
    [("b", ["a"]), ("c", ["b"]), ("a", ["c"])]

/-- The api/db/cache example graph written as an explicit record. -/
def gExExplicit : Graph :=
  Graph.mk [("api", exNApi), ("db", exNDb), ("cache", exNCache)]
    [exEApiDb, exEApiCache]
    [("api", ["db", "cache"])]
    [("db", ["api"]), ("cache", ["api"])]

theorem gCycEx_explicit : gCycEx = gCycExplicit := by decide

theorem gEx_explicit : gEx = gExExplicit := by decide

theorem find_cycles_gCycEx : (find_cycles gCycEx).2 = [["a", "b", "c", "a"]] := by
  rw [gCycEx_explicit]
  simp [find_cycles, dfsUniv, nodeKeys, findCyclesLoop, dfs, dfsList, dGet,
    lookupD, List.find?, gCycExplicit]

theorem validate_gCycEx :
    (validate gCycEx).2 = ["Cycle detected: a -> b -> c -> a"] := by
  simp only [validate]
  rw [find_cycles_gCycEx]
  decide

theorem toposort_gCycEx : (topological_sort gCycEx).2 = none := by
  simp only [topological_sort, find_cycles_gCycEx]
  simp

/-- The dangling-edge `for` loop of `validate`, folded into one list. -/
theorem validate_foldl (nodes : List (String × Node)) :
    ∀ (edges : List Edge) (acc : List String),
      edges.foldl (fun acc e =>
        (acc ++
          (if !containsKey nodes e.source then
            ["Edge references non-existent source node: " ++ e.source] else []) ++
          (if !containsKey nodes e.target then
            ["Edge references non-existent target node: " ++ e.target] else []))) acc =
      acc ++ (edges.map (fun e =>
        (if !containsKey nodes e.source then
          ["Edge references non-existent source node: " ++ e.source] else []) ++
        (if !containsKey nodes e.target then
          ["Edge references non-existent target node: " ++ e.target] else []))).flatten := by
  intro edges
  induction edges with
  | nil => intro acc; simp
  | cons e rest ih =>
    intro acc
    simp only [List.foldl_cons, List.map_cons, List.flatten_cons]
    rw [ih]
    simp [List.append_assoc]

/-- C8: `validate` returns one entry per edge endpoint missing from nodes
followed by one entry per detected cycle rendered with " -> " separators;
it is empty iff the graph has no dangling edges and is acyclic; and on the
a→b→c→a scenario `find_cycles` reports the cycle [a,b,c,a], `validate` is
the non-empty list mentioning it, and `topological_sort` returns none. -/
theorem c8_validate_spec (g : Graph) (h : ReachableState g) :
    ((validate g).2 =
      (g.edges.map (fun e =>
        (if !containsKey g.nodes e.source then
          ["Edge references non-existent source node: " ++ e.source] else []) ++
        (if !containsKey g.nodes e.target then
          ["Edge references non-existent target node: " ++ e.target] else []))).flatten ++
      (find_cycles g).2.map
        (fun c => "Cycle detected: " ++ String.intercalate " -> " c)) ∧
    ((validate g).2 = [] ↔
      ((∀ e ∈ g.edges, containsKey g.nodes e.source = true ∧
          containsKey g.nodes e.target = true) ∧ Acyclic g)) ∧
    (find_cycles gCycEx).2 = [["a", "b", "c", "a"]] ∧
    (validate gCycEx).2 = ["Cycle detected: a -> b -> c -> a"] ∧
    (topological_sort gCycEx).2 = none := by
  have hi := graphInv_of_reachable g h
  have hfold := validate_foldl g.nodes g.edges []
  have hstruct : (validate g).2 =
      (g.edges.map (fun e =>
        (if !containsKey g.nodes e.source then
          ["Edge references non-existent source node: " ++ e.source] else []) ++
        (if !containsKey g.nodes e.target then
          ["Edge references non-existent target node: " ++ e.target] else []))).flatten ++
      (find_cycles g).2.map
        (fun c => "Cycle detected: " ++ String.intercalate " -> " c) := by
    simp only [validate, renderCycle]
    rw [hfold]
    simp
  refine ⟨hstruct, ?_, find_cycles_gCycEx, validate_gCycEx, toposort_gCycEx⟩
  have hdang : (g.edges.map (fun e =>
      (if !containsKey g.nodes e.source then
        ["Edge references non-existent source node: " ++ e.source] else []) ++
      (if !containsKey g.nodes e.target then
        ["Edge references non-existent target node: " ++ e.target] else []))).flatten
        = ([] : List String) := by
    rw [List.flatten_eq_nil_iff]
    intro xs hxs
    rcases List.mem_map.mp hxs with ⟨e, he, hex⟩
    rw [hi.edgeSrcMem e he, hi.edgeTgtMem e he] at hex
    simpa using hex.symm
  rw [hstruct, hdang, List.nil_append]
  constructor
  · intro hmap
    refine ⟨fun e he => ⟨hi.edgeSrcMem e he, hi.edgeTgtMem e he⟩, ?_⟩
    rw [List.map_eq_nil_iff] at hmap
    exact (find_cycles_empty_iff_acyclic g hi).mp hmap
  · rintro ⟨_, hac⟩
    rw [(find_cycles_empty_iff_acyclic g hi).mpr hac]
    rfl

theorem c8_witness :
    (validate gCycEx).2 = ["Cycle detected: a -> b -> c -> a"] ∧
    (find_cycles gCycEx).2 = [["a", "b", "c", "a"]] ∧
    (topological_sort gCycEx).2 = none :=
  ⟨(c8_validate_spec gCycEx gCycEx_reachable).2.2.2.1,
   (c8_validate_spec gCycEx gCycEx_reachable).2.2.1,
   (c8_validate_spec gCycEx gCycEx_reachable).2.2.2.2⟩

/-! ## C6: BFS correctness for get_impact_radius -/

/-- A walk length `n` respects the depth bound: always when `max_depth` is
None, and `n ≤ m` when it is `some m`. -/
def okD : Option Nat → Nat → Prop
  | none, _ => True
  | some m, n => n ≤ m

theorem depthCutoff_false_iff (maxd : Option Nat) (d : Nat) :
    depthCutoff maxd d = false ↔ ∀ m, maxd = some m → d < m := by
  cases maxd with
  | none => simp [depthCutoff]
  | some m => simp [depthCutoff]

theorem depthCutoff_true_iff (maxd : Option Nat) (d : Nat) :
    depthCutoff maxd d = true ↔ ∃ m, maxd = some m ∧ m ≤ d := by
  cases maxd with
  | none => simp [depthCutoff]
  | some m => simp [depthCutoff]

theorem okD_of_le (maxd : Option Nat) (n n' : Nat) (h : okD maxd n)
    (hle : n' ≤ n) : okD maxd n' := by
  cases maxd with
  | none => trivial
  | some m => exact le_trans hle h

/-- Walks decompose at the front: an `(n+1)`-step walk is one step to a
successor followed by an `n`-step walk. -/
theorem reachN_succ_front (f : String → List String) :
    ∀ n s x, reachN f s (n + 1) x ↔ ∃ w ∈ f s, reachN f w n x := by
  intro n
  induction n with
  | zero =>
    intro s x
    rw [reachN]
    constructor
    · rintro ⟨w, hw, hx⟩
      rw [reachN] at hw
      subst hw
      exact ⟨x, hx, rfl⟩
    · rintro ⟨w, hw, hx⟩
      rw [reachN] at hx
      subst hx
      exact ⟨s, rfl, hw⟩
  | succ m ih =>
    intro s x
    rw [reachN]
    constructor
    · rintro ⟨w, hw, hx⟩
      rcases (ih s w).mp hw with ⟨v, hv, hvw⟩
      exact ⟨v, hv, ⟨w, hvw, hx⟩⟩
    · rintro ⟨v, hv, hvx⟩
      rw [reachN] at hvx
      rcases hvx with ⟨w, hvw, hx⟩
      exact ⟨w, (ih s w).mpr ⟨v, hv, hvw⟩, hx⟩

/-- What one pass of the dependent-enqueuing loop does: it appends the
(duplicate-free) block `new` of not-yet-visited dependents to the queue at
depth `depth+1`, marks them visited, and appends them to `impacted`. -/
theorem impactStep_spec (univ : List String) :
    ∀ (deps : List String) (queue : List (String × Nat))
      (visited impacted : List String) (depth : Nat),
      (∀ d ∈ deps, d ∈ univ) →
      ∃ new : List String,
        (impactStep univ deps queue visited impacted depth).1 =
          queue ++ new.map (fun x => (x, depth + 1)) ∧
        (impactStep univ deps queue visited impacted depth).2.1 =
          new.reverse ++ visited ∧
        (impactStep univ deps queue visited impacted depth).2.2 =
          impacted ++ new ∧
        new.Nodup ∧
        (∀ x ∈ new, x ∈ deps ∧ x ∉ visited) ∧
        (∀ x ∈ deps, x ∈ visited ∨ x ∈ new) := by
  intro deps
  induction deps with
  | nil =>
    intro queue visited impacted depth _
    refine ⟨[], ?_, ?_, ?_, ?_, ?_, ?_⟩ <;> simp [impactStep]
  | cons dep rest ih =>
    intro queue visited impacted depth hU
    rw [impactStep]
    by_cases hc : dep ∉ visited ∧ dep ∈ univ
    · rw [if_pos hc]
      rcases ih (queue ++ [(dep, depth + 1)]) (dep :: visited)
        (impacted ++ [dep]) depth
        (fun d hd => hU d (List.mem_cons_of_mem _ hd)) with
        ⟨new, h1, h2, h3, h4, h5, h6⟩
      refine ⟨dep :: new, ?_, ?_, ?_, ?_, ?_, ?_⟩
      · rw [h1]; simp
      · rw [h2]; simp
      · rw [h3]; simp
      · refine List.nodup_cons.mpr ⟨?_, h4⟩
        intro hmem
        exact (h5 dep hmem).2 (List.mem_cons_self dep visited)
      · intro x hx
        rcases List.mem_cons.mp hx with rfl | hx
        · exact ⟨List.mem_cons_self _ _, hc.1⟩
        · rcases h5 x hx with ⟨hxr, hxv⟩
          exact ⟨List.mem_cons_of_mem _ hxr,
            fun hv => hxv (List.mem_cons_of_mem _ hv)⟩
      · intro x hx
        rcases List.mem_cons.mp hx with rfl | hx
        · exact Or.inr (List.mem_cons_self _ _)
        · rcases h6 x hx with hv | hn
          · rcases List.mem_cons.mp hv with rfl | hv
            · exact Or.inr (List.mem_cons_self _ _)
            · exact Or.inl hv
          · exact Or.inr (List.mem_cons_of_mem _ hn)
    · rw [if_neg hc]
      have hdep : dep ∈ visited := by
        rcases Decidable.not_and_iff_or_not.mp hc with h | h
        · exact Decidable.not_not.mp h
        · exact absurd (hU dep (List.mem_cons_self _ _)) h
      rcases ih queue visited impacted depth
        (fun d hd => hU d (List.mem_cons_of_mem _ hd)) with
        ⟨new, h1, h2, h3, h4, h5, h6⟩
      refine ⟨new, h1, h2, h3, h4, ?_, ?_⟩
      · intro x hx
        rcases h5 x hx with ⟨hxr, hxv⟩
        exact ⟨List.mem_cons_of_mem _ hxr, hxv⟩
      · intro x hx
        rcases List.mem_cons.mp hx with rfl | hx
        · exact Or.inl hdep
        · exact h6 x hx

theorem okD_none (n : Nat) : okD none n := trivial

theorem okD_some (m n : Nat) : okD (some m) n ↔ n ≤ m := Iff.rfl

/-- The full invariant proof for the `while queue` loop of
`get_impact_radius`: given the BFS invariants (visited/impacted agreement,
duplicate freedom, FIFO two-level depth discipline, every visited node
pending, expanded or dropped by a cutoff no deeper than the queue, walk
coverage through the queue, and soundness of recorded depths), the final
`impacted` list is duplicate free and contains exactly the ids distinct
from `id0` reachable from `id0` along `rf` within the depth bound. -/
theorem impactLoop_spec (univ : List String) (rf : String → List String)
    (id0 : String) (hU : ∀ s y, y ∈ rf s → y ∈ univ) :
    ∀ radj queue visited impacted maxd,
      (∀ s, lookupD radj s = rf s) →
      (∀ x, x ∈ impacted ↔ (x ∈ visited ∧ x ≠ id0)) →
      impacted.Nodup →
      id0 ∈ visited →
      List.Pairwise (fun a b => a.2 ≤ b.2) queue →
      (∀ a ∈ queue, ∀ b ∈ queue, a.2 ≤ b.2 + 1) →
      (∀ w ∈ visited, (∃ d, (w, d) ∈ queue) ∨ (∀ y ∈ rf w, y ∈ visited) ∨
        (∃ mm dw, maxd = some mm ∧ mm ≤ dw ∧ ∀ p ∈ queue, dw ≤ p.2)) →
      (∀ u n, 1 ≤ n → okD maxd n → reachN rf id0 n u →
        u ∈ visited ∨ ∃ p ∈ queue, ∃ k, 1 ≤ k ∧ reachN rf p.1 k u ∧
          p.2 + k ≤ n) →
      (∀ x ∈ visited, x = id0 ∨
        ∃ n, 1 ≤ n ∧ okD maxd n ∧ reachN rf id0 n x) →
      (∀ p ∈ queue, reachN rf id0 p.2 p.1 ∧ okD maxd p.2) →
      ((impactLoop univ radj queue visited impacted maxd).2.Nodup ∧
       ∀ u, u ∈ (impactLoop univ radj queue visited impacted maxd).2 ↔
         (u ≠ id0 ∧ ∃ n, 1 ≤ n ∧ okD maxd n ∧ reachN rf id0 n u)) := by
  intro radj queue visited impacted maxd
  induction radj, queue, visited, impacted, maxd using impactLoop.induct univ with
  | case1 radj visited impacted maxd =>
    intro hL i1 i2 i3 i4 i5 i6 i7 i9 i10
    rw [impactLoop]
    refine ⟨i2, ?_⟩
    intro u
    constructor
    · intro hu
      rcases (i1 u).mp hu with ⟨huv, hune⟩
      rcases i9 u huv with rfl | hex
      · exact absurd rfl hune
      · exact ⟨hune, hex⟩
    · rintro ⟨hune, n, hn1, hokd, hreach⟩
      rcases i7 u n hn1 hokd hreach with huv | ⟨p, hp, _⟩
      · exact (i1 u).mpr ⟨huv, hune⟩
      · simp at hp
  | case2 radj visited impacted maxd current depth rest hcut ih =>
    intro hL i1 i2 i3 i4 i5 i6 i7 i9 i10
    rw [impactLoop, if_pos hcut]
    rcases (depthCutoff_true_iff maxd depth).mp hcut with ⟨mm, hmm, hmd⟩
    have hhead : ∀ b ∈ rest, depth ≤ b.2 := by
      intro b hb
      exact (List.pairwise_cons.mp i4).1 b hb
    refine ih hL i1 i2 i3 (List.pairwise_cons.mp i4).2 ?_ ?_ ?_ i9 ?_
    · intro a ha b hb
      exact i5 a (List.mem_cons_of_mem _ ha) b (List.mem_cons_of_mem _ hb)
    · intro w hw
      rcases i6 w hw with ⟨d, hd⟩ | hexp | ⟨mm', dw, hm', hmmdw, hall⟩
      · rcases List.mem_cons.mp hd with heq | hdrest
        · have hw2 : w = current := congrArg Prod.fst heq
          have hd2 : d = depth := congrArg Prod.snd heq
          exact Or.inr (Or.inr ⟨mm, depth, hmm, hmd, hhead⟩)
        · exact Or.inl ⟨d, hdrest⟩
      · exact Or.inr (Or.inl hexp)
      · exact Or.inr (Or.inr ⟨mm', dw, hm', hmmdw,
          fun p hp => hall p (List.mem_cons_of_mem _ hp)⟩)
    · intro u n hn1 hokd hreach
      rcases i7 u n hn1 hokd hreach with huv | ⟨p, hp, k, hk1, hpr, hbud⟩
      · exact Or.inl huv
      · rcases List.mem_cons.mp hp with heq | hprest
        · exfalso
          subst heq
          rw [hmm] at hokd
          rw [okD_some] at hokd
          simp only [] at hbud
          omega
        · exact Or.inr ⟨p, hprest, k, hk1, hpr, hbud⟩
    · intro p hp
      exact i10 p (List.mem_cons_of_mem _ hp)
  | case3 radj visited impacted maxd current depth rest hcut ih =>
    intro hL i1 i2 i3 i4 i5 i6 i7 i9 i10
    rw [impactLoop, if_neg hcut]
    have hnc : ∀ m, maxd = some m → depth < m :=
      (depthCutoff_false_iff maxd depth).mp (Bool.of_not_eq_true hcut)
    have hdg : (dGet radj current).2 = rf current := by
      rw [dGet_snd]
      exact hL current
    rcases impactStep_spec univ (dGet radj current).2 rest visited impacted
      depth (by rw [hdg]; exact fun d hd => hU current d hd) with
      ⟨new, hq', hv', hi', hnd, hnewmem, hdepsmem⟩
    rw [hdg] at hnewmem hdepsmem
    have hhead : ∀ b ∈ rest, depth ≤ b.2 := by
      intro b hb
      exact (List.pairwise_cons.mp i4).1 b hb
    have hrest2 : ∀ b ∈ rest, b.2 ≤ depth + 1 := by
      intro b hb
      exact i5 b (List.mem_cons_of_mem _ hb) (current, depth)
        (List.mem_cons_self _ _)
    have hcur := i10 (current, depth) (List.mem_cons_self _ _)
    have hokd1 : okD maxd (depth + 1) := by
      cases maxd with
      | none => trivial
      | some m => exact Nat.succ_le_of_lt (hnc m rfl)
    have hreach1 : ∀ x ∈ new, reachN rf id0 (depth + 1) x := by
      intro x hx
      exact ⟨current, hcur.1, (hnewmem x hx).1⟩
    have hidnew : id0 ∉ new := fun hc => (hnewmem id0 hc).2 i3
    refine ih ?_ ?_ ?_ ?_ ?_ ?_ ?_ ?_ ?_ ?_
    · intro s
      rw [dGet_fst_lookup]
      exact hL s
    · -- i1 for the new state
      rw [hi', hv']
      intro x
      constructor
      · intro hx
        rcases List.mem_append.mp hx with hxI | hxn
        · rcases (i1 x).mp hxI with ⟨hxv, hxne⟩
          exact ⟨List.mem_append_right _ hxv, hxne⟩
        · exact ⟨List.mem_append_left _ (List.mem_reverse.mpr hxn),
            fun hc => hidnew (hc ▸ hxn)⟩
      · rintro ⟨hxv, hxne⟩
        rcases List.mem_append.mp hxv with hxn | hxV
        · exact List.mem_append_right _ (List.mem_reverse.mp hxn)
        · exact List.mem_append_left _ ((i1 x).mpr ⟨hxV, hxne⟩)
    · -- i2
      rw [hi']
      refine List.Nodup.append i2 hnd ?_
      intro a haI han
      exact (hnewmem a han).2 ((i1 a).mp haI).1
    · -- i3
      rw [hv']
      exact List.mem_append_right _ i3
    · -- i4
      rw [hq']
      rw [List.pairwise_append]
      refine ⟨(List.pairwise_cons.mp i4).2, ?_, ?_⟩
      · rw [List.pairwise_map]
        exact hnd.imp (fun _ => le_refl _)
      · intro a ha b hb
        rcases List.mem_map.mp hb with ⟨x, _, hxb⟩
        rw [← hxb]
        exact hrest2 a ha
    · -- i5
      rw [hq']
      intro a ha b hb
      rcases List.mem_append.mp ha with ha | ha
      · rcases List.mem_append.mp hb with hb | hb
        · exact i5 a (List.mem_cons_of_mem _ ha) b (List.mem_cons_of_mem _ hb)
        · rcases List.mem_map.mp hb with ⟨x, _, hxb⟩
          rw [← hxb]
          have := hrest2 a ha
          omega
      · rcases List.mem_map.mp ha with ⟨x, _, hxa⟩
        rw [← hxa]
        rcases List.mem_append.mp hb with hb | hb
        · have := hhead b hb
          simp only []
          omega
        · rcases List.mem_map.mp hb with ⟨y, _, hyb⟩
          rw [← hyb]
          simp
    · -- i6
      rw [hv', hq']
      intro w hw
      rcases List.mem_append.mp hw with hwn | hwV
      · refine Or.inl ⟨depth + 1, ?_⟩
        refine List.mem_append_right _ ?_
        exact List.mem_map.mpr ⟨w, List.mem_reverse.mp hwn, rfl⟩
      · rcases i6 w hwV with ⟨d, hd⟩ | hexp | ⟨mm', dw, hm', hmmdw, hall⟩
        · rcases List.mem_cons.mp hd with heq | hdrest
          · have hw2 : w = current := congrArg Prod.fst heq
            subst hw2
            refine Or.inr (Or.inl ?_)
            intro y hy
            rcases hdepsmem y hy with hyV | hyn
            · exact List.mem_append_right _ hyV
            · exact List.mem_append_left _ (List.mem_reverse.mpr hyn)
          · exact Or.inl ⟨d, List.mem_append_left _ hdrest⟩
        · refine Or.inr (Or.inl ?_)
          intro y hy
          exact List.mem_append_right _ (hexp y hy)
        · refine Or.inr (Or.inr ⟨mm', dw, hm', hmmdw, ?_⟩)
          intro p hp
          rcases List.mem_append.mp hp with hp | hp
          · exact hall p (List.mem_cons_of_mem _ hp)
          · rcases List.mem_map.mp hp with ⟨x, _, hxp⟩
            rw [← hxp]
            have := hall (current, depth) (List.mem_cons_self _ _)
            simp only [] at this ⊢
            omega
    · -- i7 (coverage), via an inner strong induction on the remaining walk
      rw [hv', hq']
      have hQ : ∀ j, ∀ u w n, okD maxd n → w ∈ visited →
          reachN rf w j u → depth + 1 + j ≤ n →
          (u ∈ new.reverse ++ visited ∨
            ∃ p ∈ rest ++ new.map (fun x => (x, depth + 1)), ∃ k,
              1 ≤ k ∧ reachN rf p.1 k u ∧ p.2 + k ≤ n) := by
        intro j
        induction j using Nat.strong_induction_on with
        | _ j ihj =>
          intro u w n hokn hwV hreach hbud
          cases j with
          | zero =>
            rw [reachN] at hreach
            subst hreach
            exact Or.inl (List.mem_append_right _ hwV)
          | succ j2 =>
            rcases (reachN_succ_front rf j2 w u).mp hreach with ⟨y, hy, hyu⟩
            rcases i6 w hwV with ⟨d, hd⟩ | hexp | ⟨mm', dw, hm', hmmdw, hall⟩
            · rcases List.mem_cons.mp hd with heq | hdrest
              · have hw2 : w = current := congrArg Prod.fst heq
                subst hw2
                rcases hdepsmem y hy with hyV | hyn
                · exact ihj j2 (by omega) u y n hokn hyV hyu (by omega)
                · cases j2 with
                  | zero =>
                    rw [reachN] at hyu
                    subst hyu
                    exact Or.inl (List.mem_append_left _
                      (List.mem_reverse.mpr hyn))
                  | succ j3 =>
                    refine Or.inr ⟨(y, depth + 1), ?_, j3 + 1, by omega,
                      hyu, ?_⟩
                    · exact List.mem_append_right _
                        (List.mem_map.mpr ⟨y, hyn, rfl⟩)
                    · simp only []
                      omega
              · have hdle : d ≤ depth + 1 := hrest2 (w, d) hdrest
                refine Or.inr ⟨(w, d), List.mem_append_left _ hdrest,
                  j2 + 1, by omega, hreach, ?_⟩
                simp only []
                omega
            · exact ihj j2 (by omega) u y n hokn (hexp y hy) hyu (by omega)
            · exfalso
              subst hm'
              rw [okD_some] at hokn
              have := hall (current, depth) (List.mem_cons_self _ _)
              simp only [] at this
              omega
      intro u n hn1 hokd hreach
      rcases i7 u n hn1 hokd hreach with huv | ⟨p, hp, k, hk1, hpr, hbud⟩
      · exact Or.inl (List.mem_append_right _ huv)
      · rcases List.mem_cons.mp hp with heq | hprest
        · subst heq
          simp only [] at hbud hpr
          rcases Nat.exists_eq_add_of_le hk1 with ⟨k2, hk2⟩
          rw [hk2, Nat.add_comm 1 k2] at hpr
          rcases (reachN_succ_front rf k2 current u).mp hpr with ⟨w, hw, hwu⟩
          rcases hdepsmem w hw with hwV | hwn
          · exact hQ k2 u w n hokd hwV hwu (by omega)
          · cases k2 with
            | zero =>
              rw [reachN] at hwu
              subst hwu
              exact Or.inl (List.mem_append_left _ (List.mem_reverse.mpr hwn))
            | succ k3 =>
              refine Or.inr ⟨(w, depth + 1), ?_, k3 + 1, by omega, hwu, ?_⟩
              · exact List.mem_append_right _ (List.mem_map.mpr ⟨w, hwn, rfl⟩)
              · simp only []
                omega
        · exact Or.inr ⟨p, List.mem_append_left _ hprest, k, hk1, hpr, hbud⟩
    · -- i9
      rw [hv']
      intro x hx
      rcases List.mem_append.mp hx with hxn | hxV
      · exact Or.inr ⟨depth + 1, by omega, hokd1,
          hreach1 x (List.mem_reverse.mp hxn)⟩
      · exact i9 x hxV
    · -- i10
      rw [hq']
      intro p hp
      rcases List.mem_append.mp hp with hp | hp
      · exact i10 p (List.mem_cons_of_mem _ hp)
      · rcases List.mem_map.mp hp with ⟨x, hx, hxp⟩
        rw [← hxp]
        exact ⟨hreach1 x hx, hokd1⟩

/-- `get_impact_radius` membership characterised: an id is impacted iff the
start id is a known node, the id differs from it, and it is reachable from
the start along the reverse index within the depth bound. -/
theorem get_impact_radius_spec (g : Graph) (id0 : String) (maxd : Option Nat) :
    (get_impact_radius g id0 maxd).2.Nodup ∧
    ∀ u, u ∈ (get_impact_radius g id0 maxd).2 ↔
      (containsKey g.nodes id0 = true ∧ u ≠ id0 ∧
        ∃ n, 1 ≤ n ∧ okD maxd n ∧ reachN (radjFun g) id0 n u) := by
  unfold get_impact_radius
  cases hk : containsKey g.nodes id0 with
  | false =>
    simp only [hk, Bool.not_false, if_pos]
    constructor
    · exact List.nodup_nil
    · intro u
      simp
  | true =>
    simp only [hk, Bool.not_true, Bool.false_eq_true, if_false]
    have hU : ∀ s y, y ∈ radjFun g s → y ∈ impactUniv g id0 := by
      intro s y hy
      exact List.mem_cons_of_mem _ (lookupD_mem_flatten _ s y hy)
    have hspec := impactLoop_spec (impactUniv g id0) (radjFun g) id0 hU
      g._reverse_adjacency [(id0, 0)] [id0] [] maxd
      (fun s => rfl)
      (by intro x; simp)
      List.nodup_nil
      (List.mem_singleton.mpr rfl)
      (List.pairwise_singleton _ _)
      (by
        intro a ha b hb
        rw [List.mem_singleton] at ha hb
        rw [ha, hb]
        simp)
      (by
        intro w hw
        rw [List.mem_singleton] at hw
        exact Or.inl ⟨0, by rw [hw]; exact List.mem_singleton.mpr rfl⟩)
      (by
        intro u n hn1 hokd hreach
        refine Or.inr ⟨(id0, 0), List.mem_singleton.mpr rfl, n, hn1,
          hreach, ?_⟩
        simp)
      (by
        intro x hx
        rw [List.mem_singleton] at hx
        exact Or.inl hx)
      (by
        intro p hp
        rw [List.mem_singleton] at hp
        rw [hp]
        refine ⟨rfl, ?_⟩
        cases maxd with
        | none => trivial
        | some m => exact Nat.zero_le m)
    refine ⟨hspec.1, ?_⟩
    intro u
    rw [hspec.2 u]
    constructor
    · rintro ⟨hne, hex⟩
      exact ⟨by simp, hne, hex⟩
    · rintro ⟨_, hne, hex⟩
      exact ⟨hne, hex⟩

theorem impact_gEx_db : (get_impact_radius gEx "db" none).2 = ["api"] := by
  rw [gEx_explicit]
  simp [get_impact_radius, impactUniv, impactLoop, impactStep, depthCutoff,
    dGet, lookupD, List.find?, gExExplicit, containsKey]

theorem impact_gEx_api : (get_impact_radius gEx "api" none).2 = [] := by
  rw [gEx_explicit]
  simp [get_impact_radius, impactUniv, impactLoop, impactStep, depthCutoff,
    dGet, lookupD, List.find?, gExExplicit, containsKey]

/-- C6: `get_impact_radius(id, max_depth)` is the duplicate-free set of ids
`u` distinct from `id` having a reverse-index walk from `id` of some length
`n ≥ 1` within the bound (any length when the bound is None, i.e. a
directed path from `u` to `id` of length at most `max_depth`); an unknown
id and `max_depth = 0` both give the empty set; the result is monotone in
`max_depth`; and on the api→db, api→cache example the impact of db is
exactly api while the impact of api is empty. -/
theorem c6_impact_radius (g : Graph) (id0 : String) (maxd : Option Nat) :
    (get_impact_radius g id0 maxd).2.Nodup ∧
    (∀ u, u ∈ (get_impact_radius g id0 maxd).2 ↔
      (containsKey g.nodes id0 = true ∧ u ≠ id0 ∧
        ∃ n, 1 ≤ n ∧ okD maxd n ∧ reachN (radjFun g) id0 n u)) ∧
    (containsKey g.nodes id0 = false →
      (get_impact_radius g id0 maxd).2 = []) ∧
    (get_impact_radius g id0 (some 0)).2 = [] ∧
    (∀ k u, u ∈ (get_impact_radius g id0 (some k)).2 →
      u ∈ (get_impact_radius g id0 (some (k + 1))).2) ∧
    (∀ u, u ∈ (get_impact_radius g id0 maxd).2 →
      u ∈ (get_impact_radius g id0 none).2) ∧
    (get_impact_radius gEx "db" none).2 = ["api"] ∧
    (get_impact_radius gEx "api" none).2 = [] := by
  refine ⟨(get_impact_radius_spec g id0 maxd).1,
    (get_impact_radius_spec g id0 maxd).2, ?_, ?_, ?_, ?_,
    impact_gEx_db, impact_gEx_api⟩
  · intro hk
    rw [List.eq_nil_iff_forall_not_mem]
    intro u hu
    rcases ((get_impact_radius_spec g id0 maxd).2 u).mp hu with ⟨hk2, _, _⟩
    rw [hk] at hk2
    exact Bool.false_ne_true hk2
  · rw [List.eq_nil_iff_forall_not_mem]
    intro u hu
    rcases ((get_impact_radius_spec g id0 (some 0)).2 u).mp hu with
      ⟨_, _, n, hn1, hok, _⟩
    rw [okD_some] at hok
    omega
  · intro k u hu
    rcases ((get_impact_radius_spec g id0 (some k)).2 u).mp hu with
      ⟨hk2, hne, n, hn1, hok, hr⟩
    refine ((get_impact_radius_spec g id0 (some (k + 1))).2 u).mpr
      ⟨hk2, hne, n, hn1, ?_, hr⟩
    rw [okD_some] at hok ⊢
    omega
  · intro u hu
    rcases ((get_impact_radius_spec g id0 maxd).2 u).mp hu with
      ⟨hk2, hne, n, hn1, _, hr⟩
    exact ((get_impact_radius_spec g id0 none).2 u).mpr
      ⟨hk2, hne, n, hn1, trivial, hr⟩

theorem c6_witness :
    (get_impact_radius gEx "db" none).2 = ["api"] ∧
    (get_impact_radius gEx "api" none).2 = [] :=
  ⟨(c6_impact_radius gEx "db" none).2.2.2.2.2.2.1,
   (c6_impact_radius gEx "api" none).2.2.2.2.2.2.2⟩

/-! ## C7: BFS shortest-path correctness for get_critical_path -/

/-- What one pass of the neighbor-enqueuing loop does: it appends the
(duplicate-free) block `new` of not-yet-visited neighbors to the queue,
each carrying `path ++ [x]`, and marks them visited. -/
theorem pathStep_spec (univ : List String) :
    ∀ (nbrs : List String) (queue : List (String × List String))
      (visited : List String) (path : List String),
      (∀ d ∈ nbrs, d ∈ univ) →
      ∃ new : List String,
        (pathStep univ nbrs queue visited path).1 =
          queue ++ new.map (fun x => (x, path ++ [x])) ∧
        (pathStep univ nbrs queue visited path).2 =
          new.reverse ++ visited ∧
        new.Nodup ∧
        (∀ x ∈ new, x ∈ nbrs ∧ x ∉ visited) ∧
        (∀ x ∈ nbrs, x ∈ visited ∨ x ∈ new) := by
  intro nbrs
  induction nbrs with
  | nil =>
    intro queue visited path _
    refine ⟨[], ?_, ?_, ?_, ?_, ?_⟩ <;> simp [pathStep]
  | cons nb rest ih =>
    intro queue visited path hU
    rw [pathStep]
    by_cases hc : nb ∉ visited ∧ nb ∈ univ
    · rw [if_pos hc]
      rcases ih (queue ++ [(nb, path ++ [nb])]) (nb :: visited) path
        (fun d hd => hU d (List.mem_cons_of_mem _ hd)) with
        ⟨new, h1, h2, h4, h5, h6⟩
      refine ⟨nb :: new, ?_, ?_, ?_, ?_, ?_⟩
      · rw [h1]; simp
      · rw [h2]; simp
      · refine List.nodup_cons.mpr ⟨?_, h4⟩
        intro hmem
        exact (h5 nb hmem).2 (List.mem_cons_self nb visited)
      · intro x hx
        rcases List.mem_cons.mp hx with rfl | hx
        · exact ⟨List.mem_cons_self _ _, hc.1⟩
        · rcases h5 x hx with ⟨hxr, hxv⟩
          exact ⟨List.mem_cons_of_mem _ hxr,
            fun hv => hxv (List.mem_cons_of_mem _ hv)⟩
      · intro x hx
        rcases List.mem_cons.mp hx with rfl | hx
        · exact Or.inr (List.mem_cons_self _ _)
        · rcases h6 x hx with hv | hn
          · rcases List.mem_cons.mp hv with rfl | hv
            · exact Or.inr (List.mem_cons_self _ _)
            · exact Or.inl hv
          · exact Or.inr (List.mem_cons_of_mem _ hn)
    · rw [if_neg hc]
      have hnb : nb ∈ visited := by
        rcases Decidable.not_and_iff_or_not.mp hc with h | h
        · exact Decidable.not_not.mp h
        · exact absurd (hU nb (List.mem_cons_self _ _)) h
      rcases ih queue visited path
        (fun d hd => hU d (List.mem_cons_of_mem _ hd)) with
        ⟨new, h1, h2, h4, h5, h6⟩
      refine ⟨new, h1, h2, h4, ?_, ?_⟩
      · intro x hx
        rcases h5 x hx with ⟨hxr, hxv⟩
        exact ⟨List.mem_cons_of_mem _ hxr, hxv⟩
      · intro x hx
        rcases List.mem_cons.mp hx with rfl | hx
        · exact Or.inl hnb
        · exact h6 x hx

/-- The full invariant proof for the `while queue` loop of
`get_critical_path`: with the BFS invariants (every queue entry carries a
chain from the start to its id of minimal length, FIFO two-level path
lengths, every visited node pending or expanded, walk coverage through the
queue, and the end node never visited without being pending), the loop
returns None exactly when no walk from start reaches the end node, and any
returned path is a minimal-length chain from start to end. -/
theorem pathLoop_spec (univ : List String) (f : String → List String)
    (s endId : String) (hU : ∀ t y, y ∈ f t → y ∈ univ) :
    ∀ adj queue visited,
      (∀ t, lookupD adj t = f t) →
      s ∈ visited →
      (∀ e ∈ queue, e.2.head? = some s ∧ e.2.getLast? = some e.1 ∧
        isChain f e.2) →
      List.Pairwise (fun a b => a.2.length ≤ b.2.length) queue →
      (∀ a ∈ queue, ∀ b ∈ queue, a.2.length ≤ b.2.length + 1) →
      (∀ e ∈ queue, ∀ n, reachN f s n e.1 → e.2.length ≤ n + 1) →
      (∀ w ∈ visited, (∃ pw, (w, pw) ∈ queue) ∨ (∀ y ∈ f w, y ∈ visited)) →
      (∀ u n, reachN f s n u → u ∈ visited ∨
        ∃ e ∈ queue, ∃ k, 1 ≤ k ∧ reachN f e.1 k u ∧
          (e.2.length - 1) + k ≤ n) →
      ((∃ pe, (endId, pe) ∈ queue) ∨ endId ∉ visited) →
      (((pathLoop univ adj queue visited endId).2 = none →
          ∀ n, ¬ reachN f s n endId) ∧
       (∀ p, (pathLoop univ adj queue visited endId).2 = some p →
          p.head? = some s ∧ p.getLast? = some endId ∧ isChain f p ∧
          (∀ n, reachN f s n endId → p.length ≤ n + 1))) := by
  intro adj queue visited
  induction adj, queue, visited, endId using pathLoop.induct univ with
  | case1 adj visited endId =>
    intro hL p8 p1 p2 p3 p4 p5 p6 p7
    rw [pathLoop]
    constructor
    · intro _ n hreach
      have hend : endId ∉ visited := by
        rcases p7 with ⟨pe, hpe⟩ | h
        · simp at hpe
        · exact h
      rcases p6 endId n hreach with hv | ⟨e, he, _⟩
      · exact hend hv
      · simp at he
    · intro p hp
      simp at hp
  | case2 adj visited endId current path rest hend =>
    intro hL p8 p1 p2 p3 p4 p5 p6 p7
    rw [pathLoop, if_pos hend]
    have hcur : current = endId := by
      exact beq_iff_eq.mp hend
    constructor
    · intro hc
      simp at hc
    · intro p hp
      have hpp : path = p := by
        simpa using hp
      rcases p1 (current, path) (List.mem_cons_self _ _) with ⟨h1, h2, h3⟩
      rw [← hpp, ← hcur]
      refine ⟨h1, h2, h3, ?_⟩
      intro n hreach
      exact p4 (current, path) (List.mem_cons_self _ _) n hreach
  | case3 adj visited endId current path rest hend ih =>
    intro hL p8 p1 p2 p3 p4 p5 p6 p7
    rw [pathLoop, if_neg hend]
    have hcne : current ≠ endId := by
      intro hc
      exact hend (beq_iff_eq.mpr hc)
    have hdg : (dGet adj current).2 = f current := by
      rw [dGet_snd]
      exact hL current
    rcases pathStep_spec univ (dGet adj current).2 rest visited path
      (by rw [hdg]; exact fun d hd => hU current d hd) with
      ⟨new, hq', hv', hnd, hnewmem, hdepsmem⟩
    rw [hdg] at hnewmem hdepsmem
    rcases p1 (current, path) (List.mem_cons_self _ _) with ⟨hph, hpl, hpc⟩
    have hpne : path ≠ [] := by
      intro hc
      rw [hc] at hph
      simp at hph
    have hplen : 1 ≤ path.length := List.length_pos.mpr hpne
    have hdec : ∃ p0, path = p0 ++ [current] := by
      induction path using List.reverseRecOn with
      | nil => exact absurd rfl hpne
      | append_singleton p0 a _ =>
        refine ⟨p0, ?_⟩
        rw [List.getLast?_concat] at hpl
        have : a = current := by simpa using hpl
        rw [this]
    have hhead : ∀ b ∈ rest, path.length ≤ b.2.length := by
      intro b hb
      exact (List.pairwise_cons.mp p2).1 b hb
    have hrest2 : ∀ b ∈ rest, b.2.length ≤ path.length + 1 := by
      intro b hb
      exact p3 b (List.mem_cons_of_mem _ hb) (current, path)
        (List.mem_cons_self _ _)
    have hentry : ∀ x ∈ new, ((x, path ++ [x]) : String × List String).2.head? = some s ∧
        (path ++ [x]).getLast? = some x ∧ isChain f (path ++ [x]) := by
      intro x hx
      refine ⟨?_, List.getLast?_concat path, ?_⟩
      · cases hpath : path with
        | nil => exact absurd hpath hpne
        | cons a t =>
          rw [hpath] at hph
          simp at hph
          simp [hpath, hph]
      · rcases hdec with ⟨p0, hp0⟩
        rw [hp0]
        rw [hp0] at hpc
        exact isChain_snoc f p0 current x hpc (hnewmem x hx).1
    have hmin : ∀ x ∈ new, ∀ n, reachN f s n x → path.length + 1 ≤ n + 1 := by
      intro x hx n hreach
      by_contra hlt
      have hn : n < path.length := by omega
      rcases p6 x n hreach with hv | ⟨e, he, k, hk1, _, hbud⟩
      · exact (hnewmem x hx).2 hv
      · have helen : path.length ≤ e.2.length := by
          rcases List.mem_cons.mp he with heq | hrest
          · rw [heq]
          · exact hhead e hrest
        omega
    refine ih ?_ ?_ ?_ ?_ ?_ ?_ ?_ ?_ ?_
    · intro t
      rw [dGet_fst_lookup]
      exact hL t
    · rw [hv']
      exact List.mem_append_right _ p8
    · -- p1
      rw [hq']
      intro e he
      rcases List.mem_append.mp he with he | he
      · exact p1 e (List.mem_cons_of_mem _ he)
      · rcases List.mem_map.mp he with ⟨x, hx, hxe⟩
        rw [← hxe]
        exact hentry x hx
    · -- p2
      rw [hq']
      rw [List.pairwise_append]
      refine ⟨(List.pairwise_cons.mp p2).2, ?_, ?_⟩
      · rw [List.pairwise_map]
        exact hnd.imp (fun _ => by simp)
      · intro a ha b hb
        rcases List.mem_map.mp hb with ⟨x, _, hxb⟩
        rw [← hxb]
        have := hrest2 a ha
        simp only [List.length_append, List.length_cons, List.length_nil]
        omega
    · -- p3
      rw [hq']
      intro a ha b hb
      rcases List.mem_append.mp ha with ha | ha
      · rcases List.mem_append.mp hb with hb | hb
        · exact p3 a (List.mem_cons_of_mem _ ha) b (List.mem_cons_of_mem _ hb)
        · rcases List.mem_map.mp hb with ⟨x, _, hxb⟩
          rw [← hxb]
          have := hrest2 a ha
          simp only [List.length_append, List.length_cons, List.length_nil]
          omega
      · rcases List.mem_map.mp ha with ⟨x, _, hxa⟩
        rw [← hxa]
        rcases List.mem_append.mp hb with hb | hb
        · have := hhead b hb
          simp only [List.length_append, List.length_cons, List.length_nil]
          omega
        · rcases List.mem_map.mp hb with ⟨y, _, hyb⟩
          rw [← hyb]
          simp
    · -- p4
      rw [hq']
      intro e he n hreach
      rcases List.mem_append.mp he with he | he
      · exact p4 e (List.mem_cons_of_mem _ he) n hreach
      · rcases List.mem_map.mp he with ⟨x, hx, hxe⟩
        rw [← hxe] at hreach ⊢
        have := hmin x hx n hreach
        simp only [List.length_append, List.length_cons, List.length_nil]
        omega
    · -- p5
      rw [hv', hq']
      intro w hw
      rcases List.mem_append.mp hw with hwn | hwV
      · refine Or.inl ⟨path ++ [w], ?_⟩
        refine List.mem_append_right _ ?_
        exact List.mem_map.mpr ⟨w, List.mem_reverse.mp hwn, rfl⟩
      · rcases p5 w hwV with ⟨pw, hpw⟩ | hexp
        · rcases List.mem_cons.mp hpw with heq | hdrest
          · have hw2 : w = current := congrArg Prod.fst heq
            subst hw2
            refine Or.inr ?_
            intro y hy
            rcases hdepsmem y hy with hyV | hyn
            · exact List.mem_append_right _ hyV
            · exact List.mem_append_left _ (List.mem_reverse.mpr hyn)
          · exact Or.inl ⟨pw, List.mem_append_left _ hdrest⟩
        · refine Or.inr ?_
          intro y hy
          exact List.mem_append_right _ (hexp y hy)
    · -- p6 (coverage)
      rw [hv', hq']
      have hQ : ∀ j, ∀ u w n, w ∈ visited →
          reachN f w j u → path.length + j ≤ n →
          (u ∈ new.reverse ++ visited ∨
            ∃ e ∈ rest ++ new.map (fun x => (x, path ++ [x])), ∃ k,
              1 ≤ k ∧ reachN f e.1 k u ∧ (e.2.length - 1) + k ≤ n) := by
        intro j
        induction j using Nat.strong_induction_on with
        | _ j ihj =>
          intro u w n hwV hreach hbud
          cases j with
          | zero =>
            rw [reachN] at hreach
            subst hreach
            exact Or.inl (List.mem_append_right _ hwV)
          | succ j2 =>
            rcases (reachN_succ_front f j2 w u).mp hreach with ⟨y, hy, hyu⟩
            rcases p5 w hwV with ⟨pw, hpw⟩ | hexp
            · rcases List.mem_cons.mp hpw with heq | hdrest
              · have hw2 : w = current := congrArg Prod.fst heq
                subst hw2
                rcases hdepsmem y hy with hyV | hyn
                · exact ihj j2 (by omega) u y n hyV hyu (by omega)
                · cases j2 with
                  | zero =>
                    rw [reachN] at hyu
                    subst hyu
                    exact Or.inl (List.mem_append_left _
                      (List.mem_reverse.mpr hyn))
                  | succ j3 =>
                    refine Or.inr ⟨(y, path ++ [y]), ?_, j3 + 1, by omega,
                      hyu, ?_⟩
                    · exact List.mem_append_right _
                        (List.mem_map.mpr ⟨y, hyn, rfl⟩)
                    · simp only [List.length_append, List.length_cons,
                        List.length_nil]
                      omega
              · have hple : pw.length ≤ path.length + 1 :=
                  hrest2 (w, pw) hdrest
                refine Or.inr ⟨(w, pw), List.mem_append_left _ hdrest,
                  j2 + 1, by omega, hreach, ?_⟩
                simp only []
                omega
            · exact ihj j2 (by omega) u y n (hexp y hy) hyu (by omega)
      intro u n hreach
      rcases p6 u n hreach with huv | ⟨e, he, k, hk1, her, hbud⟩
      · exact Or.inl (List.mem_append_right _ huv)
      · rcases List.mem_cons.mp he with heq | hrest
        · subst heq
          simp only [] at her hbud
          rcases Nat.exists_eq_add_of_le hk1 with ⟨k2, hk2⟩
          rw [hk2, Nat.add_comm 1 k2] at her
          rcases (reachN_succ_front f k2 current u).mp her with ⟨w, hw, hwu⟩
          rcases hdepsmem w hw with hwV | hwn
          · exact hQ k2 u w n hwV hwu (by omega)
          · cases k2 with
            | zero =>
              rw [reachN] at hwu
              subst hwu
              exact Or.inl (List.mem_append_left _ (List.mem_reverse.mpr hwn))
            | succ k3 =>
              refine Or.inr ⟨(w, path ++ [w]), ?_, k3 + 1, by omega, hwu, ?_⟩
              · exact List.mem_append_right _ (List.mem_map.mpr ⟨w, hwn, rfl⟩)
              · simp only [List.length_append, List.length_cons,
                  List.length_nil]
                omega
        · exact Or.inr ⟨e, List.mem_append_left _ hrest, k, hk1, her, hbud⟩
    · -- p7
      rw [hv', hq']
      by_cases hen : endId ∈ new
      · refine Or.inl ⟨path ++ [endId], ?_⟩
        exact List.mem_append_right _ (List.mem_map.mpr ⟨endId, hen, rfl⟩)
      · rcases p7 with ⟨pe, hpe⟩ | hnv
        · rcases List.mem_cons.mp hpe with heq | hrest
          · exact absurd (congrArg Prod.fst heq).symm hcne
          · exact Or.inl ⟨pe, List.mem_append_left _ hrest⟩
        · refine Or.inr ?_
          intro hc
          rcases List.mem_append.mp hc with hc | hc
          · exact hen (List.mem_reverse.mp hc)
          · exact hnv hc

/-- A nonempty chain whose head is `s` and whose last element is `e` is a
walk from `s` to `e` of its hop count. -/
theorem chain_head_last_reach (f : String → List String) (p : List String)
    (s e : String) (h1 : p.head? = some s) (h2 : p.getLast? = some e)
    (h3 : isChain f p) : reachN f s (p.length - 1) e := by
  cases p with
  | nil => simp at h1
  | cons a l =>
    have ha : a = s := by simpa using h1
    subst ha
    have hr := isChain_reach_last f l a h3
    have hlast : (a :: l).getLast (by simp) = e := by
      have hq := List.getLast?_eq_getLast (a :: l) (by simp)
      rw [hq] at h2
      simpa using h2
    rw [hlast] at hr
    simpa using hr

/-- `get_critical_path` on known endpoints: None exactly when no forward
walk joins them, and any returned path is a minimal chain. -/
theorem get_critical_path_known (g : Graph) (s e : String)
    (hs : containsKey g.nodes s = true) (he : containsKey g.nodes e = true) :
    ((get_critical_path g s e).2 = none →
      ∀ n, ¬ reachN (adjFun g) s n e) ∧
    (∀ p, (get_critical_path g s e).2 = some p →
      p.head? = some s ∧ p.getLast? = some e ∧ isChain (adjFun g) p ∧
      (∀ n, reachN (adjFun g) s n e → p.length ≤ n + 1)) := by
  unfold get_critical_path
  rw [if_neg (by simp [hs, he])]
  simp only []
  have hU : ∀ t y, y ∈ adjFun g t → y ∈ pathUniv g s := by
    intro t y hy
    exact List.mem_cons_of_mem _ (lookupD_mem_flatten _ t y hy)
  exact pathLoop_spec (pathUniv g s) (adjFun g) s e hU
    g._adjacency [(s, [s])] [s]
    (fun t => rfl)
    (List.mem_singleton.mpr rfl)
    (by
      intro p hp
      rw [List.mem_singleton] at hp
      rw [hp]
      exact ⟨rfl, rfl, trivial⟩)
    (List.pairwise_singleton _ _)
    (by
      intro a ha b hb
      rw [List.mem_singleton] at ha hb
      rw [ha, hb]
      simp)
    (by
      intro p hp n _
      rw [List.mem_singleton] at hp
      rw [hp]
      simp)
    (by
      intro w hw
      rw [List.mem_singleton] at hw
      exact Or.inl ⟨[s], by rw [hw]; exact List.mem_singleton.mpr rfl⟩)
    (by
      intro u n hreach
      cases n with
      | zero =>
        rw [reachN] at hreach
        subst hreach
        exact Or.inl (List.mem_singleton.mpr rfl)
      | succ n2 =>
        refine Or.inr ⟨(s, [s]), List.mem_singleton.mpr rfl, n2 + 1,
          by omega, hreach, ?_⟩
        simp)
    (by
      by_cases hes : e = s
      · exact Or.inl ⟨[s], by rw [hes]; exact List.mem_singleton.mpr rfl⟩
      · refine Or.inr ?_
        intro hc
        exact hes (List.mem_singleton.mp hc))

theorem critical_path_self (g : Graph) (s : String)
    (hs : containsKey g.nodes s = true) :
    (get_critical_path g s s).2 = some [s] := by
  unfold get_critical_path
  rw [if_neg (by simp [hs])]
  simp only []
  rw [pathLoop]
  rw [if_pos (by simp)]

/-- C7: `get_critical_path(start, end)` returns None iff start or end is
not a node or no forward walk joins them; any returned path is a chain of
forward edges from start to end inclusive whose hop count is minimal among
all walks from start to end; and `get_critical_path(a, a)` is `[a]` for
any existing node `a`. -/
theorem c7_critical_path (g : Graph) (s e : String) :
    ((get_critical_path g s e).2 = none ↔
      (containsKey g.nodes s = false ∨ containsKey g.nodes e = false ∨
        ∀ n, ¬ reachN (adjFun g) s n e)) ∧
    (∀ p, (get_critical_path g s e).2 = some p →
      (p.head? = some s ∧ p.getLast? = some e ∧ isChain (adjFun g) p ∧
        reachN (adjFun g) s (p.length - 1) e ∧
        ∀ n, reachN (adjFun g) s n e → p.length - 1 ≤ n)) ∧
    (containsKey g.nodes s = true → (get_critical_path g s s).2 = some [s]) := by
  refine ⟨?_, ?_, fun hs2 => critical_path_self g s hs2⟩
  · cases hs : containsKey g.nodes s with
    | false =>
      have hnone : (get_critical_path g s e).2 = none := by
        unfold get_critical_path
        rw [if_pos (by simp [hs])]
      rw [hnone]
      exact ⟨fun _ => Or.inl rfl, fun _ => rfl⟩
    | true =>
      cases he : containsKey g.nodes e with
      | false =>
        have hnone : (get_critical_path g s e).2 = none := by
          unfold get_critical_path
          rw [if_pos (by simp [he])]
        rw [hnone]
        exact ⟨fun _ => Or.inr (Or.inl rfl), fun _ => rfl⟩
      | true =>
        have hspec := get_critical_path_known g s e hs he
        constructor
        · intro hnone
          exact Or.inr (Or.inr (hspec.1 hnone))
        · rintro (hc | hc | hc)
          · exact absurd hc (by simp)
          · exact absurd hc (by simp)
          · cases hr : (get_critical_path g s e).2 with
            | none => rfl
            | some p =>
              exfalso
              rcases hspec.2 p hr with ⟨h1, h2, h3, _⟩
              exact hc (p.length - 1)
                (chain_head_last_reach (adjFun g) p s e h1 h2 h3)
  · cases hs : containsKey g.nodes s with
    | false =>
      intro p hp
      rw [show (get_critical_path g s e).2 = none from by
        unfold get_critical_path
        rw [if_pos (by simp [hs])]] at hp
      exact Option.noConfusion hp
    | true =>
      cases he : containsKey g.nodes e with
      | false =>
        intro p hp
        rw [show (get_critical_path g s e).2 = none from by
          unfold get_critical_path
          rw [if_pos (by simp [he])]] at hp
        exact Option.noConfusion hp
      | true =>
        intro p hp
        rcases (get_critical_path_known g s e hs he).2 p hp with
          ⟨h1, h2, h3, h4⟩
        have hre := chain_head_last_reach (adjFun g) p s e h1 h2 h3
        refine ⟨h1, h2, h3, hre, ?_⟩
        intro n hn
        have := h4 n hn
        omega

theorem c7_witness : (get_critical_path gEx "api" "api").2 = some ["api"] :=
  (c7_critical_path gEx "api" "api").2.2 (by decide)
